import Mathlib

/-!
Verification of the xbe-cli knowledge-graph compiler
(`src/build_tools/compile.py`) against its natural-language specification.

Modelling conventions (shallow embedding):
* Python strings are modelled as `List Char` (abbreviated `Str`); `str.strip`,
  `str.lower`, `str.replace` and slicing are translated to list operations.
  `str.lower` is modelled at the ASCII level (`Char.toLower`), which agrees
  with Python on the ASCII flag/field/resource names the compiler handles.
* SQLite tables are modelled as Lean lists of row structures.  `INSERT`
  appends a row, `INSERT OR IGNORE` appends unless a row with the same
  primary key is present, `INSERT OR REPLACE` (used only for `commands`)
  deletes the conflicting row and appends the new one (matching SQLite's
  delete-then-insert behaviour and hence physical row order).  A plain
  `INSERT` that violates a primary key would abort the Python run; the model
  appends the row instead, so universally quantified theorems are read over
  inputs that do not violate the base-table keys, and all concrete inputs
  used below are key-unique.  `AUTOINCREMENT` surrogate ids of `flags`,
  `sources` and `summary_sources` are never read by any derived computation
  and are omitted from the row structures.
* Python dicts are modelled as association lists built with `pyDict`
  (first-insertion key order, last assignment wins), matching dict insertion
  order semantics relied on by the compiler's iteration order.
* File-system reads are modelled as input-supplied functions: the
  `"/v1/..."` endpoint regex scan of a CLI source file becomes
  `endpointOf : Str -> Option Str`, and the Ruby summary-file
  dimension/metric extraction becomes `scan : Str -> Option ScanResult`
  (the spec itself, section 9, mandates abstracting this extraction behind
  an interface).
* The external LLM resolver `run_llm_flag_mapping` is modelled as a pure
  oracle `llm : LlmKey -> LlmMapping` supplied as an input: the subprocess
  call is deterministic in the model, and the SHA-256 cache key is modelled
  by the (injective) key payload itself.  The thread pool only permutes the
  insertion order of distinct cache keys, which is unobservable through
  association-list lookup, so completed tasks are folded in task order.
-/

set_option synthInstance.maxSize 1024

namespace XbeKG

/-- Python strings, modelled as lists of characters. -/
abbrev Str := List Char

/-- Convenience conversion from Lean string literals to the `Str` model. -/
def str (s : String) : Str := s.toList

/-- Whitespace characters stripped by Python `str.strip()` (ASCII range). -/
def isPySpace (c : Char) : Bool :=
  c = ' ' || c = '\t' || c = '\n' || c = '\x0d' || c = '\x0b' || c = '\x0c'

/-- Python `str.strip()`: drop leading and trailing whitespace. -/
def pyStrip (s : Str) : Str :=
  ((s.dropWhile isPySpace).reverse.dropWhile isPySpace).reverse

/-- Drop of leading dashes: the `while name.startswith("-")` loop of
`normalize_flag_name`. -/
def dropDashes : Str → Str
  | [] => []
  | c :: rest => if c = '-' then dropDashes rest else c :: rest

/-- Python `str.lower()` restricted to ASCII, applied characterwise. -/
def pyLower (s : Str) : Str := s.map Char.toLower

/-- Python `str.replace("_", "-")`: the pattern is a single character, so the
substring replacement is a characterwise map. -/
def replaceUnderscores (s : Str) : Str :=
  s.map fun c => if c = '_' then '-' else c

/-- Translation of `normalize_flag_name` (compile.py:689-693): strip
whitespace, drop leading dashes, lowercase, convert underscores to hyphens. -/
def normalize_flag_name (flagName : Str) : Str :=
  replaceUnderscores (pyLower (dropDashes (pyStrip flagName)))

/-- Association-list membership test for a key, modelling `k in dict`. -/
def memKey {κ β : Type} [DecidableEq κ] (k : κ) (d : List (κ × β)) : Prop :=
  ∃ p ∈ d, p.1 = k

instance {κ β : Type} [DecidableEq κ] (k : κ) (d : List (κ × β)) :
    Decidable (memKey k d) :=
  List.decidableBEx _ d

/-- Association-list lookup (first match), modelling `dict[k]`. -/
def lookupA {κ β : Type} [DecidableEq κ] (k : κ) : List (κ × β) → Option β
  | [] => none
  | p :: rest => if p.1 = k then some p.2 else lookupA k rest

theorem lookupA_mem {κ β : Type} [DecidableEq κ] {k : κ} {v : β} :
    ∀ {l : List (κ × β)}, lookupA k l = some v → (k, v) ∈ l
  | [], h => by cases h
  | p :: rest, h => by
    rw [lookupA] at h
    by_cases hp : p.1 = k
    · rw [if_pos hp] at h
      injection h with h2
      have : (k, v) = p := by
        rw [← hp, ← h2]
      rw [this]
      exact .head _
    · rw [if_neg hp] at h
      exact .tail _ (lookupA_mem h)

/-- Field maps passed to `match_flag_to_field`: field name to field kind. -/
abbrev FieldMap := List (Str × Str)

/-- Result triple of `match_flag_to_field`: optional field name, optional
match kind, optional modifier. -/
abbrev MatchResult := Option Str × Option Str × Option Str

/-- Range suffixes with their modifiers, as iterated at compile.py:713. -/
def rangeSuffixes : List (Str × Str) :=
  [(str "-min", str "min"), (str "-max", str "max"),
   (str "-before", str "before"), (str "-after", str "after")]

/-- Helper for the range-suffix loop body of `match_flag_to_field`
(compile.py:713-725): tries `base` directly, then with a trailing `-id` or
`-ids` stripped (those two suffix tests are mutually exclusive); a suffix
whose base finds no field falls through to the next suffix, exactly like the
Python loop that only returns on success. -/
def matchRangeSuffix (normalized : Str) (fields : FieldMap) :
    List (Str × Str) → MatchResult
  | [] => (none, none, none)
  | (suffix, modifier) :: rest =>
    if suffix.isSuffixOf normalized then
      let base := normalized.take (normalized.length - suffix.length)
      if memKey base fields then (some base, some (str "range"), some modifier)
      else if (str "-id").isSuffixOf base ∧
          memKey (base.take (base.length - 3)) fields then
        (some (base.take (base.length - 3)),
          some (str "range_strip_id"), some modifier)
      else if (str "-ids").isSuffixOf base ∧
          memKey (base.take (base.length - 4)) fields then
        (some (base.take (base.length - 4)),
          some (str "range_strip_id"), some modifier)
      else matchRangeSuffix normalized fields rest
    else matchRangeSuffix normalized fields rest

/-- Translation of `match_flag_to_field` (compile.py:696-736): deterministic
flag-to-field matching rules in priority order (exact, negation, presence,
range with optional id-stripping, bare id-stripping). -/
def match_flag_to_field (flagName : Str) (fields : FieldMap) : MatchResult :=
  let normalized := normalize_flag_name flagName
  if memKey normalized fields then (some normalized, some (str "exact"), none)
  else if (str "not-").isPrefixOf normalized ∧
      memKey (normalized.drop 4) fields then
    (some (normalized.drop 4), some (str "negation"), some (str "not"))
  else if (str "is-").isPrefixOf normalized ∧
      memKey (normalized.drop 3) fields then
    (some (normalized.drop 3), some (str "presence"), some (str "is"))
  else
    let ranged := matchRangeSuffix normalized fields rangeSuffixes
    if ranged.1.isSome then ranged
    else if (str "-id").isSuffixOf normalized ∧
        memKey (normalized.take (normalized.length - 3)) fields then
      (some (normalized.take (normalized.length - 3)),
        some (str "strip_id"), none)
    else if (str "-ids").isSuffixOf normalized ∧
        memKey (normalized.take (normalized.length - 4)) fields then
      (some (normalized.take (normalized.length - 4)),
        some (str "strip_id"), none)
    else (none, none, none)

/-! Character-level facts about `Char.toLower` needed for the normalization
theorems. -/

theorem charOfNat_toNat {n : Nat} (h2 : n ≤ 122) : (Char.ofNat n).toNat = n := by
  have hv : Nat.isValidChar n := Or.inl (by omega)
  simp [Char.ofNat, hv, Char.ofNatAux, Char.toNat, UInt32.ofNat', UInt32.toNat,
    BitVec.toNat_ofNatLt]

theorem toLower_toLower (c : Char) :
    Char.toLower (Char.toLower c) = Char.toLower c := by
  show (let n := (Char.toLower c).toNat;
    if n ≥ 65 ∧ n ≤ 90 then Char.ofNat (n + 32) else Char.toLower c) =
      Char.toLower c
  have h1 : Char.toLower c =
      (let n := c.toNat; if n ≥ 65 ∧ n ≤ 90 then Char.ofNat (n + 32) else c) :=
    rfl
  by_cases h : c.toNat ≥ 65 ∧ c.toNat ≤ 90
  · rw [h1, if_pos h]
    have ht : (Char.ofNat (c.toNat + 32)).toNat = c.toNat + 32 :=
      charOfNat_toNat (by omega)
    simp only [ht]
    rw [if_neg (by omega)]
  · rw [h1, if_neg h]
    simp only []
    rw [if_neg h]

theorem toLower_eq_or_lowercase (c : Char) :
    Char.toLower c = c ∨ (97 ≤ (Char.toLower c).toNat ∧ (Char.toLower c).toNat ≤ 122) := by
  have h1 : Char.toLower c =
      (let n := c.toNat; if n ≥ 65 ∧ n ≤ 90 then Char.ofNat (n + 32) else c) :=
    rfl
  by_cases h : c.toNat ≥ 65 ∧ c.toNat ≤ 90
  · right
    rw [h1, if_pos h]
    have ht : (Char.ofNat (c.toNat + 32)).toNat = c.toNat + 32 :=
      charOfNat_toNat (by omega)
    omega
  · left
    rw [h1, if_neg h]

theorem isPySpace_toLower {c : Char} (h : isPySpace c = false) :
    isPySpace (Char.toLower c) = false := by
  rcases toLower_eq_or_lowercase c with heq | ⟨h1, h2⟩
  · rw [heq]; exact h
  · by_cases hs : isPySpace (Char.toLower c) = true
    · exfalso
      have hd : ((((Char.toLower c = ' ' ∨ Char.toLower c = '\t') ∨
          Char.toLower c = '\n') ∨ Char.toLower c = '\x0d') ∨
          Char.toLower c = '\x0b') ∨ Char.toLower c = '\x0c' := by
        simpa [isPySpace] using hs
      rcases hd with ((((h' | h') | h') | h') | h') | h' <;>
        (rw [h'] at h1; exact absurd h1 (by decide))
    · simp only [Bool.not_eq_true] at hs
      exact hs

/-! List-level lemmas about the normalization pipeline. -/

theorem map_eq_self_of_forall {α : Type} {f : α → α} :
    ∀ {l : List α}, (∀ c ∈ l, f c = c) → l.map f = l
  | [], _ => rfl
  | c :: rest, h => by
    simp only [List.map_cons, List.cons.injEq]
    exact ⟨h c (.head _), map_eq_self_of_forall fun d hd => h d (.tail _ hd)⟩

theorem mem_replaceUnderscores_ne {s : Str} {c : Char}
    (h : c ∈ replaceUnderscores s) : c ≠ '_' := by
  obtain ⟨d, _, rfl⟩ := List.mem_map.mp h
  by_cases hd : d = '_' <;> simp [hd]

theorem toLower_mem_normalized {z : Str} {c : Char}
    (h : c ∈ replaceUnderscores (pyLower z)) : Char.toLower c = c := by
  obtain ⟨d, hd, rfl⟩ := List.mem_map.mp h
  obtain ⟨e, _, rfl⟩ := List.mem_map.mp hd
  by_cases he : Char.toLower e = '_'
  · simp [he]
  · simp only [if_neg he]
    exact toLower_toLower e

theorem isPySpace_mem_normalized {z : Str} {c : Char}
    (hz : ∀ d ∈ z, isPySpace d = false) (h : c ∈ replaceUnderscores (pyLower z)) :
    isPySpace c = false := by
  obtain ⟨d, hd, rfl⟩ := List.mem_map.mp h
  obtain ⟨e, he, rfl⟩ := List.mem_map.mp hd
  by_cases hu : Char.toLower e = '_'
  · simp only [if_pos hu]; decide
  · simp only [if_neg hu]
    exact isPySpace_toLower (hz e he)

theorem dropWhile_eq_self_of_head {p : Char → Bool} {l : Str}
    (h : ∀ c, l.head? = some c → p c = false) : l.dropWhile p = l := by
  cases l with
  | nil => rfl
  | cons c rest =>
    rw [List.dropWhile_cons, if_neg]
    simp [h c rfl]

theorem head?_dropWhile_false {p : Char → Bool} :
    ∀ {l : Str} {c : Char}, (l.dropWhile p).head? = some c → p c = false
  | [], c, h => by simp [List.dropWhile] at h
  | d :: rest, c, h => by
    rw [List.dropWhile_cons] at h
    by_cases hd : p d = true
    · exact head?_dropWhile_false (by simpa [hd] using h)
    · rw [if_neg hd] at h
      cases h
      simpa using hd

theorem dropDashes_suffix : ∀ (s : Str), dropDashes s <:+ s
  | [] => List.nil_suffix
  | c :: rest => by
    by_cases hc : c = '-'
    · rw [dropDashes, if_pos hc]
      exact (dropDashes_suffix rest).trans (List.suffix_cons c rest)
    · rw [dropDashes, if_neg hc]

theorem pyStrip_getLast?_not_space {s : Str} {c : Char}
    (h : (pyStrip s).getLast? = some c) : isPySpace c = false := by
  unfold pyStrip at h
  rw [List.getLast?_reverse] at h
  exact head?_dropWhile_false h

theorem getLast?_of_suffix {l₁ l₂ : Str} (h : l₁ <:+ l₂) (hne : l₁ ≠ []) :
    l₂.getLast? = l₁.getLast? := by
  obtain ⟨t, rfl⟩ := h
  rw [List.getLast?_append]
  cases hl : l₁.getLast? with
  | none => exact absurd (List.getLast?_eq_none_iff.mp hl) hne
  | some c => rfl

theorem normalize_getLast?_not_space {x : Str} {c : Char}
    (h : (normalize_flag_name x).getLast? = some c) : isPySpace c = false := by
  unfold normalize_flag_name replaceUnderscores pyLower at h
  rw [List.getLast?_map, List.getLast?_map] at h
  cases hz : (dropDashes (pyStrip x)).getLast? with
  | none => rw [hz] at h; cases h
  | some d =>
    rw [hz] at h
    simp only [Option.map_some'] at h
    have hzne : dropDashes (pyStrip x) ≠ [] := by
      intro hnil; rw [hnil] at hz; cases hz
    have hlast : (pyStrip x).getLast? = some d :=
      (getLast?_of_suffix (dropDashes_suffix (pyStrip x)) hzne).trans hz
    have hd : isPySpace d = false := pyStrip_getLast?_not_space hlast
    cases h
    by_cases hu : Char.toLower d = '_'
    · simp only [if_pos hu]; decide
    · simp only [if_neg hu]
      exact isPySpace_toLower hd

/-- Guard on the first character of a normalized name: it must be neither a
hyphen (which arises from a leading underscore in the raw flag) nor
whitespace (which arises from whitespace following the stripped leading
dashes).  These are exactly the two sources of non-idempotence of
`normalize_flag_name`. -/
def goodHead : Str → Bool
  | [] => true
  | c :: _ => !(c == '-') && !isPySpace c

theorem pyStrip_eq_self {s : Str}
    (hhead : ∀ c, s.head? = some c → isPySpace c = false)
    (hlast : ∀ c, s.getLast? = some c → isPySpace c = false) :
    pyStrip s = s := by
  unfold pyStrip
  rw [dropWhile_eq_self_of_head hhead]
  rw [dropWhile_eq_self_of_head (by simpa [List.head?_reverse] using hlast)]
  exact List.reverse_reverse s

theorem dropDashes_eq_self {s : Str}
    (h : ∀ c, s.head? = some c → c ≠ '-') : dropDashes s = s := by
  cases s with
  | nil => rfl
  | cons c rest => rw [dropDashes, if_neg (h c rfl)]

/-- Corrected form of the idempotence property: `normalize_flag_name` is
idempotent on every input whose normalized form does not begin with a hyphen
or a whitespace character. -/
theorem C3_amended_theorem (x : Str)
    (h : goodHead (normalize_flag_name x) = true) :
    normalize_flag_name (normalize_flag_name x) = normalize_flag_name x := by
  set y := normalize_flag_name x with hy
  have hhead : ∀ c, y.head? = some c → c ≠ '-' ∧ isPySpace c = false := by
    intro c hc
    cases hv : y with
    | nil => rw [hv] at hc; cases hc
    | cons d rest =>
      rw [hv] at hc
      cases hc
      rw [hv] at h
      unfold goodHead at h
      constructor
      · intro hcd
        simp [hcd] at h
      · rcases Bool.and_eq_true_iff.mp h with ⟨_, h2⟩
        simpa using h2
  have hlast : ∀ c, y.getLast? = some c → isPySpace c = false := by
    intro c hc
    exact normalize_getLast?_not_space (hy ▸ hc)
  show normalize_flag_name y = y
  unfold normalize_flag_name
  rw [pyStrip_eq_self (fun c hc => (hhead c hc).2) hlast]
  rw [dropDashes_eq_self (fun c hc => (hhead c hc).1)]
  have hlower : pyLower y = y := by
    apply map_eq_self_of_forall
    intro c hc
    exact toLower_mem_normalized (hy ▸ hc)
  rw [hlower]
  apply map_eq_self_of_forall
  intro c hc
  have := mem_replaceUnderscores_ne (hy ▸ hc)
  simp [this]

/-- Witness for `C3_amended_theorem` at the concrete input `"--Foo_Bar"`
(normalized form `"foo-bar"`). -/
theorem C3_amended_witness :
    goodHead (normalize_flag_name (str "--Foo_Bar")) = true ∧
      normalize_flag_name (normalize_flag_name (str "--Foo_Bar")) =
        normalize_flag_name (str "--Foo_Bar") :=
  ⟨by decide, C3_amended_theorem (str "--Foo_Bar") (by decide)⟩

/-- Counterexample to the claim that `normalize_flag_name` is idempotent for
every input string: `"_a"` normalizes to `"-a"`, which normalizes again to
`"a"`. -/
theorem C3_counterexample :
    normalize_flag_name (normalize_flag_name (str "_a")) ≠
      normalize_flag_name (str "_a") := by decide

/-- Counterexample to the claim that
`match_flag_to_field "--not-active-min" (a map with the single attribute
field "active")` yields a match on field `active` with modifier `min`: the
call returns the no-match triple, because the negation rule strips `not-`
but then requires the whole remainder `active-min` to be a field, while the
range rule strips `-min` but then requires `not-active` to be a field. -/
theorem C4_counterexample :
    ¬ ((match_flag_to_field (str "--not-active-min")
          [(str "active", str "attribute")]).1 = some (str "active") ∧
       (match_flag_to_field (str "--not-active-min")
          [(str "active", str "attribute")]).2.2 = some (str "min")) := by
  decide

/-- Corrected form of the spec's example: on field map with the single
attribute `active`, the flag `--not-active-min` matches no rule and yields
the no-match result. -/
theorem C4_amended_theorem :
    match_flag_to_field (str "--not-active-min")
      [(str "active", str "attribute")] = (none, none, none) := by decide

/-! Breadth-first search over the resource relationship graph:
`shortest_paths` (compile.py:1242-1257). -/

/-- Adjacency map built by `build_relationship_graph`: resource name to the
list of (relationship-field name, target resource) pairs. -/
abbrev Adjacency := List (Str × List (Str × Str))

/-- Python `adjacency.get(current, [])`. -/
def adjGet (adjacency : Adjacency) (k : Str) : List (Str × Str) :=
  (lookupA k adjacency).getD []

/-- Path dictionary of the search: node to the list of relationship names
leading to it from the start node. -/
abbrev PathMap := List (Str × List Str)

/-- Finset of all edge targets of the adjacency map, used to bound the
number of keys ever inserted into the path dictionary. -/
def adjTargets (adjacency : Adjacency) : Finset Str :=
  (adjacency.flatMap fun p => p.2.map Prod.snd).toFinset

/-- Finset of keys of a path dictionary. -/
def keysFinset (paths : PathMap) : Finset Str := (paths.map Prod.fst).toFinset

/-- Inner `for rel_name, target in adjacency.get(current, [])` loop of
`shortest_paths`: insert every not-yet-seen target with the extended path
and append it to the queue. -/
def processNeighbors (path : List Str) :
    List (Str × Str) → PathMap → List Str → PathMap × List Str
  | [], paths, queue => (paths, queue)
  | (relName, target) :: rest, paths, queue =>
    if memKey target paths then processNeighbors path rest paths queue
    else processNeighbors path rest (paths ++ [(target, path ++ [relName])])
      (queue ++ [target])

theorem processNeighbors_measure (T : Finset Str) (path : List Str) :
    ∀ (edges : List (Str × Str)) (paths : PathMap) (queue : List Str),
      (∀ e ∈ edges, e.2 ∈ T) →
      (T \ keysFinset (processNeighbors path edges paths queue).1).card +
          (processNeighbors path edges paths queue).2.length ≤
        (T \ keysFinset paths).card + queue.length := by
  intro edges
  induction edges with
  | nil => intro paths queue _; exact le_refl _
  | cons e rest ih =>
    intro paths queue h
    obtain ⟨relName, target⟩ := e
    rw [processNeighbors]
    by_cases hm : memKey target paths
    · rw [if_pos hm]
      exact ih paths queue fun e he => h e (.tail _ he)
    · rw [if_neg hm]
      refine le_trans (ih _ _ fun e he => h e (.tail _ he)) ?_
      have htT : target ∈ T := h (relName, target) (.head _)
      have htK : target ∉ keysFinset paths := by
        simp only [keysFinset, List.mem_toFinset, List.mem_map]
        rintro ⟨p, hp, hfst⟩
        exact hm ⟨p, hp, hfst⟩
      have hkeys : keysFinset (paths ++ [(target, path ++ [relName])]) =
          insert target (keysFinset paths) := by
        simp [keysFinset, List.toFinset_append, Finset.union_comm,
          Finset.insert_eq]
      rw [hkeys, List.length_append]
      have hsd : T \ insert target (keysFinset paths) =
          (T \ keysFinset paths).erase target := by
        ext x
        simp only [Finset.mem_sdiff, Finset.mem_insert, Finset.mem_erase]
        tauto
      rw [hsd, Finset.card_erase_of_mem (Finset.mem_sdiff.mpr ⟨htT, htK⟩)]
      have hpos : 0 < (T \ keysFinset paths).card :=
        Finset.card_pos.mpr ⟨target, Finset.mem_sdiff.mpr ⟨htT, htK⟩⟩
      simp only [List.length_cons, List.length_nil]
      omega

/-- Main `while queue` loop of `shortest_paths`.  The Python dictionary
access `paths[current]` is modelled as a lookup with default `[]`; the loop
invariant (every queued node is a key of `paths`) makes the default
unreachable. -/
def bfsLoop (adjacency : Adjacency) (maxHops : Nat) (paths : PathMap)
    (queue : List Str) : PathMap :=
  match queue with
  | [] => paths
  | current :: rest =>
    if maxHops ≤ ((lookupA current paths).getD []).length then
      bfsLoop adjacency maxHops paths rest
    else
      bfsLoop adjacency maxHops
        (processNeighbors ((lookupA current paths).getD [])
          (adjGet adjacency current) paths rest).1
        (processNeighbors ((lookupA current paths).getD [])
          (adjGet adjacency current) paths rest).2
termination_by (adjTargets adjacency \ keysFinset paths).card + queue.length
decreasing_by
  · simp only [List.length_cons]; omega
  · have hT : ∀ e ∈ adjGet adjacency current, e.2 ∈ adjTargets adjacency := by
      intro e he
      simp only [adjTargets, List.mem_toFinset, List.mem_flatMap]
      unfold adjGet at he
      cases hl : lookupA current adjacency with
      | none => rw [hl] at he; cases he
      | some edges =>
        rw [hl] at he
        exact ⟨(current, edges), lookupA_mem hl, List.mem_map_of_mem _ he⟩
    have := processNeighbors_measure (adjTargets adjacency)
      ((lookupA current paths).getD []) (adjGet adjacency current) paths rest hT
    simp only [List.length_cons] at *
    omega

/-- Translation of `shortest_paths` (compile.py:1242-1257): breadth-first
search from `start` with the hop cutoff `max_hops`, returning the dictionary
from reached node to the relationship-name path leading to it. -/
def shortest_paths (adjacency : Adjacency) (start : Str) (maxHops : Nat) :
    PathMap :=
  bfsLoop adjacency maxHops [(start, [])] [start]

/-! Correctness of `shortest_paths`: every entry of the returned dictionary
is a valid minimum-hop path within the hop bound, and every node reachable
within the bound is present. -/

/-- Valid relationship-name path from `start` to a node: the empty path ends
at `start`, and a path to `u` extends along any adjacency edge of `u`. -/
inductive IsPath (adjacency : Adjacency) (start : Str) : List Str → Str → Prop
  | nil : IsPath adjacency start [] start
  | snoc {p : List Str} {u r v : Str} : IsPath adjacency start p u →
      (r, v) ∈ adjGet adjacency u → IsPath adjacency start (p ++ [r]) v

theorem lookupA_append_left {κ β : Type} [DecidableEq κ] {k : κ} {v : β} :
    ∀ {l₁ l₂ : List (κ × β)}, lookupA k l₁ = some v →
      lookupA k (l₁ ++ l₂) = some v
  | [], _, h => by cases h
  | p :: rest, l₂, h => by
    rw [List.cons_append]
    simp only [lookupA] at h ⊢
    by_cases hp : p.1 = k
    · rwa [if_pos hp] at h ⊢
    · rw [if_neg hp] at h ⊢
      exact lookupA_append_left h

theorem lookupA_append_right {κ β : Type} [DecidableEq κ] {k : κ} :
    ∀ {l₁ l₂ : List (κ × β)}, ¬ memKey k l₁ →
      lookupA k (l₁ ++ l₂) = lookupA k l₂
  | [], _, _ => rfl
  | p :: rest, l₂, h => by
    rw [List.cons_append]
    simp only [lookupA]
    have hp : p.1 ≠ k := fun he => h ⟨p, .head _, he⟩
    rw [if_neg hp]
    exact lookupA_append_right fun ⟨q, hq, he⟩ => h ⟨q, .tail _ hq, he⟩

theorem memKey_of_lookupA {κ β : Type} [DecidableEq κ] {k : κ} {v : β} {l : List (κ × β)}
    (h : lookupA k l = some v) : memKey k l :=
  ⟨(k, v), lookupA_mem h, rfl⟩

theorem lookupA_isSome_of_memKey {κ β : Type} [DecidableEq κ] {k : κ} :
    ∀ {l : List (κ × β)}, memKey k l → ∃ v, lookupA k l = some v
  | [], h => absurd h (by rintro ⟨p, hp, _⟩; cases hp)
  | p :: rest, h => by
    rw [lookupA]
    by_cases hp : p.1 = k
    · exact ⟨p.2, if_pos hp⟩
    · rw [if_neg hp]
      rcases h with ⟨q, hq, he⟩
      cases hq with
      | head => exact absurd he hp
      | tail _ hq2 => exact lookupA_isSome_of_memKey ⟨q, hq2, he⟩

theorem memKey_append {κ β : Type} [DecidableEq κ] {k : κ} {l₁ l₂ : List (κ × β)} :
    memKey k (l₁ ++ l₂) ↔ memKey k l₁ ∨ memKey k l₂ := by
  constructor
  · rintro ⟨p, hp, he⟩
    rcases List.mem_append.mp hp with h | h
    · exact Or.inl ⟨p, h, he⟩
    · exact Or.inr ⟨p, h, he⟩
  · rintro (⟨p, hp, he⟩ | ⟨p, hp, he⟩)
    · exact ⟨p, List.mem_append_left _ hp, he⟩
    · exact ⟨p, List.mem_append_right _ hp, he⟩

/-- Structural characterization of the neighbor-insertion loop: it appends a
block of fresh entries to both the path dictionary and the queue, the block
keys are pairwise distinct and new, each block entry extends `path` by one
edge of `edges`, and afterwards every edge target of `edges` is a key. -/
theorem processNeighbors_split (path : List Str) :
    ∀ (edges : List (Str × Str)) (paths : PathMap) (queue : List Str),
      ∃ newP : PathMap,
        (processNeighbors path edges paths queue).1 = paths ++ newP ∧
        (processNeighbors path edges paths queue).2 =
          queue ++ newP.map Prod.fst ∧
        (∀ q ∈ newP, (∃ r, (r, q.1) ∈ edges ∧ q.2 = path ++ [r]) ∧
          ¬ memKey q.1 paths) ∧
        (newP.map Prod.fst).Nodup ∧
        (∀ r t, (r, t) ∈ edges → memKey t (paths ++ newP)) := by
  intro edges
  induction edges with
  | nil =>
    intro paths queue
    refine ⟨[], by simp [processNeighbors], by simp [processNeighbors], ?_, ?_, ?_⟩
    · rintro q hq; cases hq
    · simp
    · rintro r t ht; cases ht
  | cons e rest ih =>
    intro paths queue
    obtain ⟨relName, target⟩ := e
    rw [processNeighbors]
    by_cases hm : memKey target paths
    · rw [if_pos hm]
      obtain ⟨newP, h1, h2, h3, h4, h5⟩ := ih paths queue
      refine ⟨newP, h1, h2, ?_, h4, ?_⟩
      · intro q hq
        obtain ⟨⟨r, hr, he⟩, hk⟩ := h3 q hq
        exact ⟨⟨r, .tail _ hr, he⟩, hk⟩
      · rintro r t ht
        cases ht with
        | head => exact memKey_append.mpr (Or.inl hm)
        | tail _ ht2 => exact h5 r t ht2
    · rw [if_neg hm]
      obtain ⟨newP, h1, h2, h3, h4, h5⟩ :=
        ih (paths ++ [(target, path ++ [relName])]) (queue ++ [target])
      refine ⟨(target, path ++ [relName]) :: newP, ?_, ?_, ?_, ?_, ?_⟩
      · rw [h1, List.append_assoc]
        rfl
      · rw [h2, List.append_assoc]
        rfl
      · intro q hq
        cases hq with
        | head => exact ⟨⟨relName, .head _, rfl⟩, hm⟩
        | tail _ hq2 =>
          obtain ⟨⟨r, hr, he⟩, hk⟩ := h3 q hq2
          exact ⟨⟨r, .tail _ hr, he⟩,
            fun hk2 => hk (memKey_append.mpr (Or.inl hk2))⟩
      · rw [List.map_cons]
        refine List.nodup_cons.mpr ⟨?_, h4⟩
        intro hmem
        obtain ⟨q, hq, he⟩ := List.mem_map.mp hmem
        have := (h3 q hq).2
        exact this (memKey_append.mpr (Or.inr ⟨(target, path ++ [relName]),
          .head _, he.symm ▸ rfl⟩))
      · rintro r t ht
        cases ht with
        | head =>
          have : memKey target (paths ++ [(target, path ++ [relName])]) :=
            memKey_append.mpr (Or.inr ⟨(target, path ++ [relName]), .head _, rfl⟩)
          rcases memKey_append.mp this with h | h
          · exact memKey_append.mpr (Or.inl h)
          · exact memKey_append.mpr (Or.inr ⟨_, .head _,
              (by rfl : ((target : Str), path ++ [relName]).1 = target)⟩)
        | tail _ ht2 =>
          have := h5 r t ht2
          rcases memKey_append.mp this with h | h
          · rcases memKey_append.mp h with h' | h'
            · exact memKey_append.mpr (Or.inl h')
            · rcases h' with ⟨q, hq, he⟩
              cases hq with
              | head => exact memKey_append.mpr (Or.inr ⟨_, .head _, he⟩)
              | tail _ hq2 => cases hq2
          · exact memKey_append.mpr (Or.inr ⟨_, .tail _ h.choose_spec.1, by
              exact h.choose_spec.2⟩)

/-- Length of the path recorded for a node (0 for absent nodes). -/
def lenOf (paths : PathMap) (u : Str) : Nat :=
  ((lookupA u paths).getD []).length

/-- Loop invariant of the breadth-first search of `shortest_paths`. -/
structure BfsInv (adjacency : Adjacency) (start : Str) (maxHops : Nat)
    (paths : PathMap) (queue : List Str) : Prop where
  start_mem : lookupA start paths = some []
  valid : ∀ t p, lookupA t paths = some p → IsPath adjacency start p t
  bound : ∀ t p, lookupA t paths = some p → p.length ≤ maxHops
  minimal : ∀ t p, lookupA t paths = some p →
    ∀ q, IsPath adjacency start q t → p.length ≤ q.length
  queue_sub : ∀ u ∈ queue, memKey u paths
  queue_nodup : queue.Nodup
  closed : ∀ u pu, lookupA u paths = some pu → u ∉ queue →
    pu.length < maxHops → ∀ e ∈ adjGet adjacency u, memKey e.2 paths
  q_sorted : (queue.map (lenOf paths)).Sorted (· ≤ ·)
  q_window : ∀ h rest, queue = h :: rest → ∀ u ∈ queue,
    lenOf paths u ≤ lenOf paths h + 1
  far : ∀ h rest, queue = h :: rest → ∀ v, ¬ memKey v paths →
    ∀ q, IsPath adjacency start q v → lenOf paths h + 1 ≤ q.length

theorem IsPath.length_pos {adjacency : Adjacency} {start : Str} {q : List Str}
    {v : Str} (h : IsPath adjacency start q v) (hv : v ≠ start) :
    1 ≤ q.length := by
  cases h with
  | nil => exact absurd rfl hv
  | snoc _ _ => simp

theorem bfsInv_init (adjacency : Adjacency) (start : Str) (maxHops : Nat) :
    BfsInv adjacency start maxHops [(start, [])] [start] := by
  have hlook : ∀ (t : Str) (p : List Str),
      lookupA t [(start, [])] = some p → t = start ∧ p = [] := by
    intro t p h
    rw [lookupA] at h
    by_cases ht : start = t
    · rw [if_pos ht] at h
      injection h with h2
      exact ⟨ht.symm, h2.symm⟩
    · rw [if_neg ht] at h
      cases h
  refine ⟨?_, ?_, ?_, ?_, ?_, ?_, ?_, ?_, ?_, ?_⟩
  · rw [lookupA, if_pos rfl]
  · intro t p h
    obtain ⟨rfl, rfl⟩ := hlook t p h
    exact .nil
  · intro t p h
    obtain ⟨rfl, rfl⟩ := hlook t p h
    simp
  · intro t p h q _
    obtain ⟨rfl, rfl⟩ := hlook t p h
    simp
  · intro u hu
    cases hu with
    | head => exact ⟨(start, []), .head _, rfl⟩
    | tail _ h2 => cases h2
  · simp
  · intro u pu hl hu _ e _
    obtain ⟨rfl, rfl⟩ := hlook u pu hl
    exact absurd (.head _) hu
  · simp
  · intro h rest hq u hu
    rw [List.cons_eq_cons] at hq
    rcases hq with ⟨rfl, rfl⟩
    cases hu with
    | head => omega
    | tail _ h2 => cases h2
  · intro h rest hq v hv q hq2
    rw [List.cons_eq_cons] at hq
    have hvs : v ≠ start := by
      intro he
      exact hv ⟨(start, []), .head _, he.symm⟩
    have := hq2.length_pos hvs
    have hlen : lenOf [(start, [])] h = 0 := by
      rw [← hq.1, lenOf, lookupA, if_pos rfl]
      rfl
    omega

theorem lookupA_eq_of_nodup {κ β : Type} [DecidableEq κ] {k : κ} {v : β} :
    ∀ {l : List (κ × β)}, (l.map Prod.fst).Nodup → (k, v) ∈ l →
      lookupA k l = some v
  | [], _, hm => by cases hm
  | p :: rest, hn, hm => by
    rw [List.map_cons, List.nodup_cons] at hn
    rw [lookupA]
    cases hm with
    | head => exact if_pos rfl
    | tail _ hm2 =>
      have hp : p.1 ≠ k := by
        intro he
        exact hn.1 (he ▸ List.mem_map_of_mem Prod.fst hm2)
      rw [if_neg hp]
      exact lookupA_eq_of_nodup hn.2 hm2

/-- Preservation of the loop invariant when the popped node has exhausted
the hop budget (`len(path) >= max_hops`): the node is skipped. -/
theorem bfsInv_stepA {adjacency : Adjacency} {start : Str} {maxHops : Nat}
    {paths : PathMap} {current : Str} {rest : List Str}
    (inv : BfsInv adjacency start maxHops paths (current :: rest))
    (hcut : maxHops ≤ lenOf paths current) :
    BfsInv adjacency start maxHops paths rest := by
  obtain ⟨pcur, hpc⟩ :=
    lookupA_isSome_of_memKey (inv.queue_sub current (.head _))
  have hd : lenOf paths current = pcur.length := by rw [lenOf, hpc]; rfl
  have hsorted := inv.q_sorted
  rw [List.map_cons] at hsorted
  rw [List.sorted_cons] at hsorted
  refine ⟨inv.start_mem, inv.valid, inv.bound, inv.minimal, ?_, ?_, ?_, ?_, ?_, ?_⟩
  · exact fun u hu => inv.queue_sub u (.tail _ hu)
  · exact inv.queue_nodup.of_cons
  · intro u pu hl hu hlen e he
    by_cases huc : u = current
    · subst huc
      rw [hl] at hpc
      injection hpc with h2
      rw [h2] at hlen
      omega
    · have hnotin : u ∉ current :: rest := by
        intro hm
        cases hm with
        | head => exact huc rfl
        | tail _ h3 => exact hu h3
      exact inv.closed u pu hl hnotin hlen e he
  · exact hsorted.2
  · intro h2 rest2 hq u hu
    have hcur : lenOf paths current ≤ lenOf paths h2 := by
      apply hsorted.1
      rw [hq]
      exact List.mem_map_of_mem _ (.head _)
    have := inv.q_window current rest rfl u (.tail _ hu)
    omega
  · intro h2 rest2 hq v hv q hq2
    have hfar := inv.far current rest rfl v hv q hq2
    have hcur : lenOf paths current ≤ lenOf paths h2 := by
      apply hsorted.1
      rw [hq]
      exact List.mem_map_of_mem _ (.head _)
    obtain ⟨ph, hph⟩ := lookupA_isSome_of_memKey
      (inv.queue_sub h2 (.tail _ (hq ▸ List.Mem.head _)))
    have hb := inv.bound h2 ph hph
    have hlh : lenOf paths h2 = ph.length := by rw [lenOf, hph]; rfl
    omega

/-- Preservation of the loop invariant when the popped node is expanded:
all unseen neighbors are inserted at depth one more than the popped node. -/
theorem bfsInv_stepB {adjacency : Adjacency} {start : Str} {maxHops : Nat}
    {paths : PathMap} {current : Str} {rest : List Str}
    (inv : BfsInv adjacency start maxHops paths (current :: rest))
    {pcur : List Str} (hpc : lookupA current paths = some pcur)
    (hcut : pcur.length < maxHops) :
    BfsInv adjacency start maxHops
      (processNeighbors pcur (adjGet adjacency current) paths rest).1
      (processNeighbors pcur (adjGet adjacency current) paths rest).2 := by
  obtain ⟨newP, hP, hQ, hprops, hnodup, hcover⟩ :=
    processNeighbors_split pcur (adjGet adjacency current) paths rest
  rw [hP, hQ]
  set newKeys := newP.map Prod.fst with hnk
  have hdc : lenOf paths current = pcur.length := by rw [lenOf, hpc]; rfl
  -- lookups into the old dictionary are preserved
  have hf0 : ∀ t p, lookupA t paths = some p →
      lookupA t (paths ++ newP) = some p := fun t p h => lookupA_append_left h
  -- characterization of lookups into the new dictionary
  have hf1 : ∀ t p, lookupA t (paths ++ newP) = some p →
      lookupA t paths = some p ∨
        (¬ memKey t paths ∧ (t, p) ∈ newP ∧
          ∃ r, (r, t) ∈ adjGet adjacency current ∧ p = pcur ++ [r]) := by
    intro t p h
    by_cases hm : memKey t paths
    · obtain ⟨v, hv⟩ := lookupA_isSome_of_memKey hm
      rw [hf0 t v hv] at h
      injection h with h2
      exact Or.inl (h2 ▸ hv)
    · rw [lookupA_append_right hm] at h
      have hmem := lookupA_mem h
      obtain ⟨⟨r, hr, he⟩, _⟩ := hprops (t, p) hmem
      exact Or.inr ⟨hm, hmem, r, hr, he⟩
  have hf3 : ∀ u, memKey u paths → lenOf (paths ++ newP) u = lenOf paths u := by
    intro u hm
    obtain ⟨v, hv⟩ := lookupA_isSome_of_memKey hm
    rw [lenOf, lenOf, hv, hf0 u v hv]
  have hf4 : ∀ k ∈ newKeys, lenOf (paths ++ newP) k = pcur.length + 1 := by
    intro k hk
    obtain ⟨q, hq, he⟩ := List.mem_map.mp hk
    obtain ⟨⟨r, _, he2⟩, hfresh⟩ := hprops q hq
    have hlk : lookupA k (paths ++ newP) = some q.2 := by
      rw [lookupA_append_right (he ▸ hfresh)]
      exact lookupA_eq_of_nodup hnodup (he ▸ (by
        have : ((q.1 : Str), q.2) = q := rfl
        rw [this]
        exact hq))
    rw [lenOf, hlk, Option.getD_some, he2, List.length_append]
    rfl
  have hwin_old : ∀ u ∈ current :: rest, lenOf paths u ≤ pcur.length + 1 := by
    intro u hu
    have := inv.q_window current rest rfl u hu
    omega
  have hsorted := inv.q_sorted
  rw [List.map_cons, List.sorted_cons] at hsorted
  have hfar_old : ∀ v, ¬ memKey v paths → ∀ q, IsPath adjacency start q v →
      pcur.length + 1 ≤ q.length := by
    intro v hv q hq
    have := inv.far current rest rfl v hv q hq
    omega
  -- upper bound on every entry of the new queue
  have hqup : ∀ u ∈ rest ++ newKeys, lenOf (paths ++ newP) u ≤ pcur.length + 1 := by
    intro u hu
    rcases List.mem_append.mp hu with h | h
    · rw [hf3 u (inv.queue_sub u (.tail _ h))]
      exact hwin_old u (.tail _ h)
    · rw [hf4 u h]
  -- lower bound on every entry of the new queue
  have hqlo : ∀ u ∈ rest ++ newKeys,
      pcur.length ≤ lenOf (paths ++ newP) u := by
    intro u hu
    rcases List.mem_append.mp hu with h | h
    · rw [hf3 u (inv.queue_sub u (.tail _ h))]
      have := hsorted.1 (lenOf paths u) (List.mem_map_of_mem _ h)
      omega
    · rw [hf4 u h]
      omega
  refine ⟨hf0 start [] inv.start_mem, ?_, ?_, ?_, ?_, ?_, ?_, ?_, ?_, ?_⟩
  · intro t p hl
    rcases hf1 t p hl with h | ⟨_, _, r, hr, rfl⟩
    · exact inv.valid t p h
    · exact .snoc (inv.valid current pcur hpc) hr
  · intro t p hl
    rcases hf1 t p hl with h | ⟨_, _, r, hr, rfl⟩
    · exact inv.bound t p h
    · rw [List.length_append]
      simp only [List.length_cons, List.length_nil]
      omega
  · intro t p hl q hq
    rcases hf1 t p hl with h | ⟨hfresh, _, r, hr, rfl⟩
    · exact inv.minimal t p h q hq
    · have := hfar_old t hfresh q hq
      rw [List.length_append]
      simp only [List.length_cons, List.length_nil]
      omega
  · intro u hu
    rcases List.mem_append.mp hu with h | h
    · exact memKey_append.mpr (Or.inl (inv.queue_sub u (.tail _ h)))
    · obtain ⟨q, hq, he⟩ := List.mem_map.mp h
      exact memKey_append.mpr (Or.inr ⟨q, hq, he⟩)
  · rw [List.nodup_append]
    refine ⟨inv.queue_nodup.of_cons, hnodup, ?_⟩
    intro u hur hun
    obtain ⟨q, hq, he⟩ := List.mem_map.mp hun
    exact (hprops q hq).2 (he ▸ inv.queue_sub u (.tail _ hur))
  · intro u pu hl hu hlen e he
    rcases hf1 u pu hl with h | ⟨_, hmem, _⟩
    · by_cases huc : u = current
      · subst huc
        have : ((e.1 : Str), e.2) = e := rfl
        exact hcover e.1 e.2 (this ▸ he)
      · have hnotin : u ∉ current :: rest := by
          intro hm
          cases hm with
          | head => exact huc rfl
          | tail _ h3 => exact hu (List.mem_append_left _ h3)
        have := inv.closed u pu h hnotin hlen e he
        exact memKey_append.mpr (Or.inl this)
    · exact absurd (List.mem_append_right _
        (List.mem_map_of_mem Prod.fst hmem)) hu
  · rw [List.map_append]
    rw [List.Sorted, List.pairwise_append]
    refine ⟨?_, ?_, ?_⟩
    · have hre : List.map (lenOf (paths ++ newP)) rest =
          List.map (lenOf paths) rest := by
        apply List.map_congr_left
        intro u hu
        exact hf3 u (inv.queue_sub u (.tail _ hu))
      rw [hre]
      exact hsorted.2
    · rw [List.pairwise_map]
      apply List.pairwise_of_forall_mem_list
      intro a ha b hb
      rw [hf4 a ha, hf4 b hb]
    · intro a ha b hb
      rw [List.mem_map] at ha hb
      obtain ⟨u, hu, rfl⟩ := ha
      obtain ⟨k, hk, rfl⟩ := hb
      have h1 := hqup u (List.mem_append_left _ hu)
      rw [hf4 k hk]
      exact h1
  · intro h2 rest2 hq u hu
    have hup := hqup u hu
    have hlo := hqlo h2 (hq ▸ List.Mem.head _)
    omega
  · intro h2 rest2 hq v hv q hq2
    have hvp : ¬ memKey v paths :=
      fun h => hv (memKey_append.mpr (Or.inl h))
    have hfar0 := hfar_old v hvp q hq2
    have hup := hqup h2 (hq ▸ List.Mem.head _)
    have hlo := hqlo h2 (hq ▸ List.Mem.head _)
    by_cases hle : lenOf (paths ++ newP) h2 ≤ pcur.length
    · omega
    · -- the new frontier is one level deeper; a path of length d+1 to an
      -- undiscovered node would have to leave through an expanded node
      by_contra hcon
      push_neg at hcon
      have hqlen : q.length = pcur.length + 1 := by omega
      cases hq2 with
      | nil =>
        exact hv (memKey_append.mpr (Or.inl (memKey_of_lookupA inv.start_mem)))
      | snoc hpath hedge =>
        rename_i q' u r
        rw [List.length_append] at hqlen
        simp only [List.length_cons, List.length_nil] at hqlen
        have hq'len : q'.length = pcur.length := by omega
        by_cases hum : memKey u paths
        · obtain ⟨pu, hpu⟩ := lookupA_isSome_of_memKey hum
          have hpul : pu.length ≤ pcur.length := by
            have := inv.minimal u pu hpu q' hpath
            omega
          by_cases huc : u = current
          · subst huc
            have : ((r : Str), v) = (r, v) := rfl
            exact hv (hcover r v hedge)
          · by_cases hur : u ∈ rest
            · -- impossible: every remaining queued node is at the new
              -- frontier depth, strictly deeper than u
              cases hrest : rest with
              | nil => rw [hrest] at hur; cases hur
              | cons c rest'' =>
                have hh2 : h2 = c := by
                  rw [hrest] at hq
                  rw [List.cons_append] at hq
                  exact (List.cons_eq_cons.mp hq.symm).1
                have hlc : lenOf (paths ++ newP) c =
                    lenOf paths c := by
                  apply hf3
                  exact inv.queue_sub c (.tail _ (hrest ▸ List.Mem.head _))
                have hcu : lenOf paths c ≤ lenOf paths u := by
                  rw [hrest] at hur
                  cases hur with
                  | head => exact le_refl _
                  | tail _ h3 =>
                    have hs2 := hsorted.2
                    rw [hrest, List.map_cons, List.sorted_cons] at hs2
                    exact hs2.1 (lenOf paths u) (List.mem_map_of_mem _ h3)
                have hlu : lenOf paths u = pu.length := by
                  rw [lenOf, hpu]; rfl
                rw [hh2] at hle
                rw [hlc] at hle
                omega
            · have hnotin : u ∉ current :: rest := by
                intro hm
                cases hm with
                | head => exact huc rfl
                | tail _ h3 => exact hur h3
              have := inv.closed u pu hpu hnotin (by omega) (r, v) hedge
              exact hvp this
        · have := hfar_old u hum q' hpath
          omega

/-- The loop invariant is carried to the final state (empty queue). -/
theorem bfsLoop_inv {adjacency : Adjacency} {start : Str} {maxHops : Nat} :
    ∀ {paths : PathMap} {queue : List Str},
      BfsInv adjacency start maxHops paths queue →
      BfsInv adjacency start maxHops (bfsLoop adjacency maxHops paths queue) [] := by
  intro paths queue inv
  induction paths, queue using bfsLoop.induct adjacency maxHops with
  | case1 paths => rwa [bfsLoop]
  | case2 paths current rest hcut ih =>
    rw [bfsLoop, if_pos hcut]
    exact ih (bfsInv_stepA inv hcut)
  | case3 paths current rest hcut ih =>
    rw [bfsLoop, if_neg hcut]
    apply ih
    obtain ⟨pcur, hpc⟩ :=
      lookupA_isSome_of_memKey (inv.queue_sub current (.head _))
    have hpe : (lookupA current paths).getD [] = pcur := by rw [hpc]; rfl
    rw [hpe]
    apply bfsInv_stepB inv hpc
    rw [← hpe]
    omega

theorem shortest_paths_inv (adjacency : Adjacency) (start : Str)
    (maxHops : Nat) :
    BfsInv adjacency start maxHops (shortest_paths adjacency start maxHops) [] :=
  bfsLoop_inv (bfsInv_init adjacency start maxHops)

/-- Soundness and minimality of `shortest_paths`: it terminates on every
finite adjacency map (it is a total function defined by well-founded
recursion on discovered-node count plus queue length, cycles included), and
every recorded path lies within the hop bound, is a real relationship path,
and has minimum hop count among all paths to its target. -/
theorem C10_theorem (adjacency : Adjacency) (start : Str) (maxHops : Nat)
    (t : Str) (p : List Str)
    (h : lookupA t (shortest_paths adjacency start maxHops) = some p) :
    p.length ≤ maxHops ∧ IsPath adjacency start p t ∧
      ∀ q, IsPath adjacency start q t → p.length ≤ q.length := by
  have inv := shortest_paths_inv adjacency start maxHops
  exact ⟨inv.bound t p h, inv.valid t p h, inv.minimal t p h⟩

/-- Completeness of `shortest_paths`: every node with a path of length at
most `maxHops` from the start is recorded. -/
theorem shortest_paths_complete {adjacency : Adjacency} {start : Str}
    {maxHops : Nat} {q : List Str} {t : Str}
    (h : IsPath adjacency start q t) (hlen : q.length ≤ maxHops) :
    memKey t (shortest_paths adjacency start maxHops) := by
  have inv := shortest_paths_inv adjacency start maxHops
  induction h with
  | nil => exact memKey_of_lookupA inv.start_mem
  | @snoc q' u r v hpath hedge ih =>
    rw [List.length_append] at hlen
    simp only [List.length_cons, List.length_nil] at hlen
    have hu := ih (by omega)
    obtain ⟨pu, hpu⟩ := lookupA_isSome_of_memKey hu
    have hpul : pu.length ≤ q'.length := inv.minimal u pu hpu q' hpath
    exact inv.closed u pu hpu (fun h => by cases h) (by omega) (r, v) hedge

/-- Concrete cyclic three-node relationship graph used by the `shortest_paths`
witness: `a -owns-> b -has-> c -back-> a`. -/
def witnessAdjacency : Adjacency :=
  [(['a'], [(['o', 'w', 'n', 's'], ['b'])]),
   (['b'], [(['h', 'a', 's'], ['c'])]),
   (['c'], [(['b', 'a', 'c', 'k'], ['a'])])]

/-- Witness for `C10_theorem` on a concrete cyclic graph: the two-hop path
to `c` over `a -> b -> c` with a cycle edge `c -> a`. -/
theorem C10_witness :
    lookupA ['c'] (shortest_paths witnessAdjacency ['a'] 3) =
        some [['o', 'w', 'n', 's'], ['h', 'a', 's']] ∧
    ([['o', 'w', 'n', 's'], ['h', 'a', 's']].length ≤ 3 ∧
      IsPath witnessAdjacency ['a']
        [['o', 'w', 'n', 's'], ['h', 'a', 's']] ['c'] ∧
      ∀ q, IsPath witnessAdjacency ['a'] q ['c'] →
        [['o', 'w', 'n', 's'], ['h', 'a', 's']].length ≤ q.length) :=
  have h : lookupA ['c'] (shortest_paths witnessAdjacency ['a'] 3) =
      some [['o', 'w', 'n', 's'], ['h', 'a', 's']] := by
    rw [shortest_paths, witnessAdjacency]
    simp +decide [bfsLoop, processNeighbors, adjGet, lookupA, lenOf, memKey]
  ⟨h, C10_theorem _ _ 3 ['c'] _ h⟩

/-! Python dict / set / string helpers shared by the compiler model. -/

/-- Python dict assignment `d[k] = v`: first-insertion key order, last
assignment wins. -/
def dictInsert {κ β : Type} [DecidableEq κ] (d : List (κ × β)) (k : κ)
    (v : β) : List (κ × β) :=
  if memKey k d then d.map fun p => if p.1 = k then (k, v) else p
  else d ++ [(k, v)]

/-- Python `d.setdefault(k, v)` (ignoring the returned value). -/
def dictSetdefault {κ β : Type} [DecidableEq κ] (d : List (κ × β)) (k : κ)
    (v : β) : List (κ × β) :=
  if memKey k d then d else d ++ [(k, v)]

/-- Python `d.setdefault(k, []).append(v)`. -/
def dictAppend {κ β : Type} [DecidableEq κ] (d : List (κ × List β)) (k : κ)
    (v : β) : List (κ × List β) :=
  if memKey k d then d.map fun p => if p.1 = k then (p.1, p.2 ++ [v]) else p
  else d ++ [(k, [v])]

/-- Python `d.setdefault(k, set()).add(v)`: sets are modelled as
duplicate-free lists in insertion order. -/
def dictAddToSet {κ β : Type} [DecidableEq κ] [DecidableEq β]
    (d : List (κ × List β)) (k : κ) (v : β) : List (κ × List β) :=
  if memKey k d then
    d.map fun p => if p.1 = k then (p.1, if v ∈ p.2 then p.2 else p.2 ++ [v]) else p
  else d ++ [(k, [v])]

/-- Python `str.split()` with no separator: split on whitespace runs,
dropping empty tokens. -/
def splitWs (s : Str) : List Str :=
  (s.splitOnP isPySpace).filter (· ≠ [])

/-- Python `" ".join(tokens)`. -/
def joinSpace (tokens : List Str) : Str := List.intercalate [' '] tokens

/-- Lexicographic comparison of `Str`, matching Python string comparison on
the ASCII names the compiler handles (and SQLite TEXT memcmp order). -/
def lexLe : Str → Str → Bool
  | [], _ => true
  | _ :: _, [] => false
  | a :: as_, b :: bs => if a = b then lexLe as_ bs else decide (a < b)

/-- Strict lexicographic comparison (`a.resource < b.resource` in the
similarity view join). -/
def lexLt (a b : Str) : Bool := lexLe a b && !(a == b)

/-- Python `sorted` on association-list items (pairs compared by key, then
value), as used for the fallback-cache payload. -/
def sortedPairs (l : List (Str × Str)) : List (Str × Str) :=
  l.mergeSort fun p q => if p.1 = q.1 then lexLe p.2 q.2 else lexLe p.1 q.1

/-! Row structures of the SQLite schema (`init_db`, compile.py:21-497).
Surrogate `AUTOINCREMENT` ids are omitted (never read downstream); JSON
blob columns (`label_fields`, `server_types`, `aliases`, summary
conditions) are kept as their structured values. -/

structure CommandRow where
  id : Str
  full_path : Str
  description : Str
  permissions : Option Str
  side_effects : Option Str
  validation_notes : Option Str
  deriving DecidableEq, Repr

structure FlagRow where
  command_id : Str
  name : Str
  aliases : Option (List Str)
  required : Bool
  type : Str
  description : Str
  default_value : Option Str
  validation : Option Str
  deriving DecidableEq, Repr

structure SourceRow where
  command_id : Str
  repo_name : Str
  file_path : Str
  deriving DecidableEq, Repr

structure ResourceRow where
  name : Str
  label_fields : List Str
  server_types : Option (List Str)
  deriving DecidableEq, Repr

structure ResourceFieldRow where
  resource : Str
  name : Str
  kind : Str
  description : Option Str
  is_label : Bool
  deriving DecidableEq, Repr

structure ResourceFieldTargetRow where
  resource : Str
  field : Str
  target_resource : Str
  deriving DecidableEq, Repr

structure SummaryResourceTargetRow where
  summary_resource : Str
  primary_resource : Str
  condition : Option Str
  deriving DecidableEq, Repr

structure SummarySourceRow where
  summary_resource : Str
  repo_name : Str
  file_path : Str
  deriving DecidableEq, Repr

structure SummaryDimensionRow where
  summary_resource : Str
  name : Str
  kind : Str
  source_path : Str
  deriving DecidableEq, Repr

structure SummaryMetricRow where
  summary_resource : Str
  name : Str
  source_path : Str
  deriving DecidableEq, Repr

structure CommandResourceLinkRow where
  command_id : Str
  resource : Str
  verb : Str
  command_kind : Str
  source : Str
  evidence : Option Str
  deriving DecidableEq, Repr

structure CommandFieldLinkRow where
  command_id : Str
  resource : Str
  field : Str
  field_kind : Str
  relation : Str
  flag_name : Str
  match_kind : Str
  modifier : Option Str
  deriving DecidableEq, Repr

structure CommandFilterPathRow where
  command_id : Str
  resource : Str
  flag_name : Str
  path : Str
  target_resource : Str
  target_field : Option Str
  hop_count : Nat
  match_kind : Str
  modifier : Option Str
  source : Str
  deriving DecidableEq, Repr

structure CommandSummaryDimensionRow where
  command_id : Str
  summary_resource : Str
  name : Str
  source_path : Str
  deriving DecidableEq, Repr

structure CommandSummaryMetricRow where
  command_id : Str
  summary_resource : Str
  name : Str
  source_path : Str
  deriving DecidableEq, Repr

/-- The Store: all base and derived tables of `knowledge.sqlite`. -/
structure DB where
  commands : List CommandRow
  flags : List FlagRow
  sources : List SourceRow
  resources : List ResourceRow
  resource_fields : List ResourceFieldRow
  resource_field_targets : List ResourceFieldTargetRow
  summary_resource_targets : List SummaryResourceTargetRow
  summary_sources : List SummarySourceRow
  summary_dimensions : List SummaryDimensionRow
  summary_metrics : List SummaryMetricRow
  command_resource_links : List CommandResourceLinkRow
  command_field_links : List CommandFieldLinkRow
  command_filter_paths : List CommandFilterPathRow
  command_summary_dimensions : List CommandSummaryDimensionRow
  command_summary_metrics : List CommandSummaryMetricRow
  deriving DecidableEq, Repr

/-- The empty Store, as created by `init_db` on a fresh database file. -/
def emptyDB : DB :=
  ⟨[], [], [], [], [], [], [], [], [], [], [], [], [], [], []⟩

/-- `INSERT OR IGNORE`: append the row unless a row with the same primary
key is already present. -/
def insertIgnore {ρ κ : Type} [DecidableEq κ] (key : ρ → κ) (t : List ρ)
    (r : ρ) : List ρ :=
  if ∃ x ∈ t, key x = key r then t else t ++ [r]

/-! Input shapes: `resource_map.json`, `summary_map.json` and command
artifacts, as consumed by the loaders. -/

/-- One resource definition of `resource_map.json`. -/
structure ResourceDef where
  label_fields : List Str
  server_types : List Str
  attributes : List Str
  deriving DecidableEq, Repr

/-- The parsed `resource_map.json`: resources (in JSON object order) and
relationships (resource, then relationship name, then target resources). -/
structure ResourceMap where
  resources : List (Str × ResourceDef)
  relationships : List (Str × List (Str × List Str))
  deriving DecidableEq, Repr

/-- One condition block of a summary definition. -/
structure SummaryCondition where
  filter : Option Str
  primary_resources : List Str
  deriving DecidableEq, Repr

/-- One summary definition of `summary_map.json`. -/
structure SummaryDef where
  primary_resources : List Str
  conditions : List SummaryCondition
  sources : List (Str × Str)
  deriving DecidableEq, Repr

/-- The parsed `summary_map.json`. -/
structure SummaryMap where
  summaries : List (Str × SummaryDef)
  deriving DecidableEq, Repr

/-- `INSERT OR IGNORE` into `summary_resource_targets`: the primary key
includes the nullable `condition` column, and SQLite treats NULLs as
pairwise distinct in uniqueness checks, so rows with a NULL condition never
conflict and are always appended. -/
def insertIgnoreSrt (t : List SummaryResourceTargetRow)
    (r : SummaryResourceTargetRow) : List SummaryResourceTargetRow :=
  match r.condition with
  | none => t ++ [r]
  | some _ =>
    if ∃ x ∈ t, x.summary_resource = r.summary_resource ∧
        x.primary_resource = r.primary_resource ∧ x.condition = r.condition
    then t else t ++ [r]

/-- Translation of `upsert_resource_map` (compile.py:565-631): wipe and
repopulate `resources`, `resource_fields` (attributes, the two implicit
timestamps, relationship fields) and `resource_field_targets`. -/
def upsert_resource_map (rm : ResourceMap) (db : DB) : DB :=
  let resTables := rm.resources.foldl (fun acc p =>
    let resource_name := p.1
    let data := p.2
    let serverTypes := if data.server_types = [] then none else some data.server_types
    let res := acc.1 ++ [⟨resource_name, data.label_fields, serverTypes⟩]
    let rf := data.attributes.foldl (fun rf attr =>
      rf ++ [⟨resource_name, attr, str "attribute", none, decide (attr ∈ data.label_fields)⟩]) acc.2
    let rf := [str "created-at", str "updated-at"].foldl (fun rf commonAttr =>
      insertIgnore (fun f => (f.resource, f.name)) rf
        ⟨resource_name, commonAttr, str "attribute", none, false⟩) rf
    (res, rf)) (([] : List ResourceRow), ([] : List ResourceFieldRow))
  let relTables := rm.relationships.foldl (fun acc p =>
    let resource_name := p.1
    p.2.foldl (fun acc q =>
      let rel_name := q.1
      let rf := insertIgnore (fun f => (f.resource, f.name)) acc.1
        ⟨resource_name, rel_name, str "relationship", none, false⟩
      let rft := q.2.foldl (fun rft target =>
        insertIgnore (fun t => (t.resource, t.field, t.target_resource)) rft
          ⟨resource_name, rel_name, target⟩) acc.2
      (rf, rft)) acc) (resTables.2, ([] : List ResourceFieldTargetRow))
  { db with
    resources := resTables.1
    resource_fields := relTables.1
    resource_field_targets := relTables.2 }

/-- Translation of `upsert_summary_map` (compile.py:640-686): wipe and
repopulate `summary_resource_targets` and `summary_sources`.  The
`isinstance` guards of the Python code are subsumed by the typed input. -/
def upsert_summary_map (sm : SummaryMap) (db : DB) : DB :=
  let tables := sm.summaries.foldl (fun acc p =>
    let summary_resource := p.1
    let data := p.2
    let srt := data.primary_resources.foldl (fun srt primary =>
      insertIgnoreSrt srt ⟨summary_resource, primary, none⟩) acc.1
    let srt := data.conditions.foldl (fun srt cond =>
      cond.primary_resources.foldl (fun srt primary =>
        insertIgnoreSrt srt ⟨summary_resource, primary, cond.filter⟩) srt) srt
    let ss := data.sources.foldl (fun ss source =>
      ss ++ [⟨summary_resource, source.1, source.2⟩]) acc.2
    (srt, ss))
    (([] : List SummaryResourceTargetRow), ([] : List SummarySourceRow))
  { db with
    summary_resource_targets := tables.1
    summary_sources := tables.2 }

/-! Command classifier: `build_command_resource_links`
(compile.py:1415-1488). -/

/-- Primary key of `command_resource_links`. -/
def crlKey (r : CommandResourceLinkRow) : Str × Str × Str × Str × Str :=
  (r.command_id, r.resource, r.verb, r.command_kind, r.source)

/-- Per-command classification step of `build_command_resource_links`: the
loop body over `commands`.  The `"/v1/..."` endpoint regex scan of a CLI
source file (including unreadable files, which the Python code skips via
`OSError`) is modelled by the input function `endpointOf`. -/
def classifyCommand (endpointOf : Str → Option Str) (resources : List Str)
    (cli_sources : List (Str × List Str)) (crl : List CommandResourceLinkRow)
    (cmd : CommandRow) : List CommandResourceLinkRow :=
  match splitWs cmd.full_path with
  | [] => crl
  | kind :: restTokens =>
    let tokens := kind :: restTokens
    if kind = str "view" ∧ 3 ≤ tokens.length ∧
        (tokens.getLastD [] = str "list" ∨ tokens.getLastD [] = str "show") then
      let resource := joinSpace ((tokens.drop 1).dropLast)
      if resource ∈ resources then
        insertIgnore crlKey crl
          ⟨cmd.id, resource, tokens.getLastD [], str "view", str "full_path",
            none⟩
      else crl
    else if kind = str "do" ∧ 3 ≤ tokens.length then
      let resource := joinSpace ((tokens.drop 1).dropLast)
      let verb := tokens.getLastD []
      if resource ∈ resources then
        insertIgnore crlKey crl
          ⟨cmd.id, resource, verb, str "do", str "full_path", none⟩
      else crl
    else if kind = str "summarize" ∧ 3 ≤ tokens.length ∧
        tokens.getLastD [] = str "create" then
      let fromSources : Option (Str × Str) :=
        ((lookupA cmd.id cli_sources).getD []).findSome? fun path =>
          (endpointOf path).map fun r => (r, path)
      let resolved : Option (Str × Str) :=
        match fromSources with
        | some rp => some rp
        | none =>
          let alias_ := joinSpace ((tokens.drop 1).dropLast)
          let candidate := alias_ ++ ['s']
          if candidate ∈ resources then some (candidate, str "alias_plural")
          else none
      match resolved with
      | none => crl
      | some (resource, evidence) =>
        if resource ∈ resources then
          insertIgnore crlKey crl
            ⟨cmd.id, resource, str "create", str "summarize",
              str "cli_endpoint", some evidence⟩
        else crl
    else crl

/-- Translation of `build_command_resource_links` (compile.py:1415-1488):
wipe `command_resource_links` and classify every command by its path
tokens. -/
def build_command_resource_links (endpointOf : Str → Option Str) (db : DB) :
    DB :=
  let resources := db.resources.map (·.name)
  let cli_sources := db.sources.foldl (fun d row =>
    if row.repo_name = str "cli" then dictAppend d row.command_id row.file_path
    else d) []
  let crl := db.commands.foldl
    (classifyCommand endpointOf resources cli_sources) []
  { db with command_resource_links := crl }

/-! Summary dimension/metric scanning: `build_summary_dimensions_metrics`
(compile.py:1107-1173). -/

/-- Python `needle in haystack` on strings (contiguous substring test). -/
def strContains (needle hay : Str) : Bool := decide (needle <:+: hay)

/-- Names extracted from one Ruby summary source file.  The block/regex
extraction helpers (`extract_method_block`, `extract_constant_block`,
`extract_attribute_names`, `extract_metric_names`,
`extract_constant_attributes`) are a language-specific text scan of code of
the server repository, abstracted -- as spec section 9 mandates -- behind an
input interface; `dimensions` and `metrics` are the `sorted(...)` name lists
the Python loop inserts. -/
structure ScanResult where
  dimensions : List Str
  metrics : List Str
  deriving DecidableEq, Repr

/-- Translation of `build_summary_dimensions_metrics`: wipe and repopulate
`summary_dimensions` and `summary_metrics` from the scanned summary source
files; `scan` returns `none` for an unreadable file (`OSError`). -/
def build_summary_dimensions_metrics (scan : Str → Option ScanResult)
    (db : DB) : DB :=
  let summary_files := db.summary_sources.foldl (fun d row =>
    if row.repo_name = str "server" ∧ (str ".rb").isSuffixOf row.file_path then
      dictAppend d row.summary_resource row.file_path
    else d) []
  let tables := summary_files.foldl (fun acc p =>
    let summary_resource := p.1
    let files := p.2
    let server_path := (files.find? fun c =>
      strContains (str "/models/") c && strContains (str "summary") c).getD
      (files.headD [])
    match scan server_path with
    | none => acc
    | some res =>
      let dims := res.dimensions.foldl (fun t name =>
        insertIgnore (fun r => (r.summary_resource, r.name, r.kind)) t
          ⟨summary_resource, name, str "group_by", server_path⟩) acc.1
      let mets := res.metrics.foldl (fun t name =>
        insertIgnore (fun r => (r.summary_resource, r.name)) t
          ⟨summary_resource, name, server_path⟩) acc.2
      (dims, mets))
    (([] : List SummaryDimensionRow), ([] : List SummaryMetricRow))
  { db with
    summary_dimensions := tables.1
    summary_metrics := tables.2 }

/-- Translation of `build_command_summary_links` (compile.py:1176-1212):
wipe and repopulate the per-command summary dimension/metric link tables for
every `summarize`-classified command. -/
def build_command_summary_links (db : DB) : DB :=
  let summary_dimensions := db.summary_dimensions.foldl (fun d row =>
    dictAppend d row.summary_resource (row.name, row.source_path)) []
  let summary_metrics := db.summary_metrics.foldl (fun d row =>
    dictAppend d row.summary_resource (row.name, row.source_path)) []
  let tables := (db.command_resource_links.filter
    (fun r => r.command_kind = str "summarize")).foldl (fun acc link =>
    let csd := ((lookupA link.resource summary_dimensions).getD []).foldl
      (fun t p =>
        insertIgnore (fun r => (r.command_id, r.summary_resource, r.name)) t
          ⟨link.command_id, link.resource, p.1, p.2⟩) acc.1
    let csm := ((lookupA link.resource summary_metrics).getD []).foldl
      (fun t p =>
        insertIgnore (fun r => (r.command_id, r.summary_resource, r.name)) t
          ⟨link.command_id, link.resource, p.1, p.2⟩) acc.2
    (csd, csm))
    (([] : List CommandSummaryDimensionRow),
     ([] : List CommandSummaryMetricRow))
  { db with
    command_summary_dimensions := tables.1
    command_summary_metrics := tables.2 }

/-! Filter path resolver: `build_command_filter_paths`
(compile.py:1215-1412). -/

/-- Translation of `pluralize_resource_name` (compile.py:1215-1220). -/
def pluralize_resource_name (base : Str) : Str :=
  if (['s'] : Str).isSuffixOf base then base
  else if (['y'] : Str).isSuffixOf base ∧ 1 < base.length ∧
      base.dropLast.getLastD ' ' ∉ (['a', 'e', 'i', 'o', 'u'] : List Char) then
    base.dropLast ++ str "ies"
  else base ++ ['s']

/-- Translation of `candidate_resource_names` (compile.py:1223-1230): the
base itself (when it names a resource) followed by its naive plural (when
that names a resource and is not already listed).  No singular form is ever
considered. -/
def candidate_resource_names (base : Str) (resources : List Str) : List Str :=
  let candidates := if base ∈ resources then [base] else []
  let plural := pluralize_resource_name base
  if plural ∈ resources ∧ plural ∉ candidates then candidates ++ [plural]
  else candidates

/-- Translation of `build_relationship_graph` (compile.py:1233-1239). -/
def build_relationship_graph (db : DB) : Adjacency :=
  db.resource_field_targets.foldl (fun d row =>
    dictAppend d row.resource (row.field, row.target_resource)) []

/-- Suffix-stripping loop of `parse_flag_base_modifier`. -/
def parseRangeSuffix (base : Str) : List (Str × Str) → Str × Option Str
  | [] => (base, none)
  | (suffix, modifier) :: rest =>
    if suffix.isSuffixOf base then
      (base.take (base.length - suffix.length), some modifier)
    else parseRangeSuffix base rest

/-- Translation of `parse_flag_base_modifier` (compile.py:1260-1274). -/
def parse_flag_base_modifier (flagName : Str) : Str × Option Str :=
  let base := normalize_flag_name flagName
  if (str "not-").isPrefixOf base then (base.drop 4, some (str "not"))
  else if (str "is-").isPrefixOf base then (base.drop 3, some (str "is"))
  else parseRangeSuffix base rangeSuffixes

/-- Python `".".join(parts)`. -/
def joinDot (parts : List Str) : Str := List.intercalate ['.'] parts

/-- Step 2 of the per-flag filter-path resolution (compile.py:1335-1369):
over the candidate resource names, find the minimum hop count of a
reachable candidate other than the command's own resource, then record one
`rel_resource` row for every candidate whose recorded path has exactly that
length. -/
def minHopStep2 (paths : PathMap) (resource : Str) (candidates : List Str) :
    Option Nat :=
  candidates.foldl (fun m candidate =>
    if memKey candidate paths ∧ candidate ≠ resource then
      let hop_count := ((lookupA candidate paths).getD []).length
      match m with
      | none => some hop_count
      | some mh => if hop_count < mh then some hop_count else some mh
    else m) none

/-- Row-recording part of step 2 over the precomputed minimum hop count. -/
def filterPathStep2 (paths : PathMap) (resource : Str)
    (candidates : List Str) (command_id flag_name : Str)
    (modifier : Option Str) : List CommandFilterPathRow :=
  match minHopStep2 paths resource candidates with
  | none => []
  | some mh => candidates.filterMap fun candidate =>
      if memKey candidate paths ∧
          ((lookupA candidate paths).getD []).length = mh then
        some ⟨command_id, resource, flag_name,
          joinDot ((lookupA candidate paths).getD []), candidate, none, mh,
          str "rel_resource", modifier, str "deterministic"⟩
      else none

/-- Step 3 of the per-flag filter-path resolution (compile.py:1374-1412):
attribute search over every resource, keeping reachable owners of the
attribute at minimum hop count. -/
def filterPathStep3 (paths : PathMap) (attribute_map : List (Str × List Str))
    (resource base : Str) (command_id flag_name : Str)
    (modifier : Option Str) : List CommandFilterPathRow :=
  let attr_matches := attribute_map.filterMap fun p =>
    if base ∈ p.2 ∧ memKey p.1 paths then
      some (p.1, if p.1 = resource then ([] : List Str)
        else (lookupA p.1 paths).getD [])
    else none
  match (attr_matches.map fun p => p.2.length).min? with
  | none => []
  | some mh => attr_matches.filterMap fun p =>
      if p.2.length = mh then
        some ⟨command_id, resource, flag_name,
          (if p.2 = [] then base else joinDot (p.2 ++ [base])), p.1,
          some base, mh, str "rel_attr", modifier, str "deterministic"⟩
      else none

/-- Rows produced for one unmapped flag by the loop body of
`build_command_filter_paths` (compile.py:1303-1412): the direct-relationship
stage, then candidate-resource search (step 2), then attribute search (step
3). -/
def filterPathRowsFor (adjacency : Adjacency) (resources : List Str)
    (attribute_map : List (Str × List Str)) (maxHops : Nat)
    (command_id flag_name resource : Str) : List CommandFilterPathRow :=
  let parsed := parse_flag_base_modifier flag_name
  let modifier := parsed.2
  let base0 := parsed.1
  let base := if (str "-id").isSuffixOf base0 then base0.take (base0.length - 3)
    else if (str "-ids").isSuffixOf base0 then base0.take (base0.length - 4)
    else base0
  if base ∈ (adjGet adjacency resource).map Prod.fst then
    (adjGet adjacency resource).filterMap fun e =>
      if e.1 = base then
        some ⟨command_id, resource, flag_name, e.1, e.2, none, 1, str "rel",
          modifier, str "deterministic"⟩
      else none
  else
    let candidates := candidate_resource_names base resources
    let paths := shortest_paths adjacency resource maxHops
    let relRows := filterPathStep2 paths resource candidates command_id
      flag_name modifier
    if relRows ≠ [] then relRows
    else filterPathStep3 paths attribute_map resource base command_id
      flag_name modifier

/-- Primary key of `command_filter_paths`. -/
def cfpKey (r : CommandFilterPathRow) : Str × Str × Str :=
  (r.command_id, r.flag_name, r.path)

/-- Translation of `build_command_filter_paths` (compile.py:1277-1412): wipe
`command_filter_paths`, gather the flags of `view ... list` commands that
have no `command_field_links` row, and record the filter-path rows each
produces.  The SQL join is modelled flags-outer / links-inner; the
`INSERT OR IGNORE` key makes the produced table independent of join row
order up to row ordering. -/
def build_command_filter_paths (db : DB) (maxHops : Nat := 3) : DB :=
  let resources := db.resources.map (·.name)
  let attribute_map := (db.resource_fields.filter
    (fun f => f.kind = str "attribute")).foldl (fun d row =>
      dictAddToSet d row.resource row.name) []
  let adjacency := build_relationship_graph db
  let unmapped_flags := db.flags.flatMap fun f =>
    if ∃ cfl ∈ db.command_field_links,
        cfl.command_id = f.command_id ∧ cfl.flag_name = f.name then []
    else
      (db.command_resource_links.filter fun crl =>
        crl.command_id = f.command_id ∧ crl.command_kind = str "view" ∧
          crl.verb = str "list").map fun crl =>
        (f.command_id, f.name, crl.resource)
  let cfp := unmapped_flags.foldl (fun t tr =>
    (filterPathRowsFor adjacency resources attribute_map maxHops
        tr.1 tr.2.1 tr.2.2).foldl (fun t row => insertIgnore cfpKey t row) t) []
  { db with command_filter_paths := cfp }

/-! Flag-field matcher: `build_command_field_links`
(compile.py:876-1048), with the cached concurrent LLM fallback. -/

/-- Cache key payload of `llm_cache_key` (compile.py:752-767).  The Python
code hashes the sorted JSON payload with SHA-256; the model uses the payload
itself, which the hash represents injectively. -/
structure LlmKey where
  resource : Str
  relation : Str
  flags : List (Str × Str)
  fields : List (Str × Str)
  model : Option Str
  deriving DecidableEq, Repr

/-- Translation of `llm_cache_key`. -/
def llm_cache_key (resource relation : Str) (flags : List (Str × Str))
    (fields : List (Str × Str)) (model : Option Str) : LlmKey :=
  ⟨resource, relation, flags, fields, model⟩

/-- Result of one fallback resolution: flag name to mapped field name or
null; Python `dict.get` misses and JSON nulls both come out as `none`. -/
abbrev LlmMapping := List (Str × Option Str)

/-- The persistent fallback cache, keyed by `llm_cache_key`. -/
abbrev LlmCache := List (LlmKey × LlmMapping)

/-- One unmatched flag occurrence recorded by the deterministic pass
(`unmatched_by_command` entries). -/
structure UnmatchedEntry where
  command_id : Str
  resource : Str
  relation : Str
  flag_name : Str
  deriving DecidableEq, Repr

/-- `unmatched_by_group`: (resource, relation) to flag-name/description
dict. -/
abbrev GroupMap := List ((Str × Str) × List (Str × Str))

/-- Relation chosen from a command's classified kind and verb
(compile.py:907-915). -/
def relationFor (command_kind verb : Str) : Option Str :=
  if command_kind = str "view" then
    some (if verb = str "list" then str "filters_by" else str "selects_field")
  else if command_kind = str "do" then
    (if verb = str "create" ∨ verb = str "update" then some (str "sets_field")
     else none)
  else if command_kind = str "summarize" then some (str "summary_param")
  else none

/-- Primary key of `command_field_links`. -/
def cflKey (r : CommandFieldLinkRow) : Str × Str × Str × Str × Str :=
  (r.command_id, r.resource, r.field, r.relation, r.flag_name)

/-- Record an unmatched flag into `unmatched_by_group`
(compile.py:955-960). -/
def groupsAdd (groups : GroupMap) (key : Str × Str) (name desc : Str) :
    GroupMap :=
  if memKey key groups then
    groups.map fun p =>
      if p.1 = key then (p.1, dictSetdefault p.2 name desc) else p
  else groups ++ [(key, dictSetdefault [] name desc)]

/-- Deterministic pass of `build_command_field_links` (compile.py:907-960):
for every classified command with a relation and a non-empty field map, link
each flag via `match_flag_to_field` or record it as unmatched. -/
def cflDeterministic (resource_fieldsMap : List (Str × List (Str × Str)))
    (flags_by_command : List (Str × List (Str × Str)))
    (command_links : List CommandResourceLinkRow) :
    List CommandFieldLinkRow × List UnmatchedEntry × GroupMap :=
  command_links.foldl (fun acc link =>
    match relationFor link.command_kind link.verb with
    | none => acc
    | some relation =>
      match lookupA link.resource resource_fieldsMap with
      | none => acc
      | some fields =>
        if fields = [] then acc
        else
          ((lookupA link.command_id flags_by_command).getD []).foldl
            (fun acc flag =>
              let m := match_flag_to_field flag.1 fields
              match m.1 with
              | some field_name =>
                let row : CommandFieldLinkRow :=
                  ⟨link.command_id, link.resource, field_name,
                    (lookupA field_name fields).getD [], relation, flag.1,
                    m.2.1.getD (str "exact"), m.2.2⟩
                (insertIgnore cflKey acc.1 row, acc.2.1, acc.2.2)
              | none =>
                (acc.1,
                 acc.2.1 ++ [⟨link.command_id, link.resource, relation, flag.1⟩],
                 groupsAdd acc.2.2 (link.resource, relation) flag.1 flag.2))
            acc) ([], [], [])

/-- The nested `resource_fields.setdefault(resource, {})[name] = kind`
dictionary of `build_command_field_links` (compile.py:886-890). -/
def resourceFieldsDict (rows : List ResourceFieldRow) :
    List (Str × List (Str × Str)) :=
  rows.foldl (fun d row =>
    if memKey row.resource d then
      d.map fun p =>
        if p.1 = row.resource then (p.1, dictInsert p.2 row.name row.kind)
        else p
    else d ++ [(row.resource, dictInsert [] row.name row.kind)]) []

/-- Cache key of one unmatched group, built from the sorted flag and field
items exactly as at compile.py:971-974. -/
def llmGroupPayload (resource_fieldsMap : List (Str × List (Str × Str)))
    (llmModel : Option Str) (g : (Str × Str) × List (Str × Str)) : LlmKey :=
  llm_cache_key g.1.1 g.1.2 (sortedPairs g.2)
    (sortedPairs ((lookupA g.1.1 resource_fieldsMap).getD [])) llmModel

/-- Cache partition of the unmatched groups (compile.py:971-981): groups
whose key is cached become immediate mappings; the rest become tasks for
the external resolver. -/
def llmHitsAndTasks (resource_fieldsMap : List (Str × List (Str × Str)))
    (llmModel : Option Str) (cache : LlmCache) (groups : GroupMap) :
    List ((Str × Str) × LlmMapping) × List ((Str × Str) × LlmKey) :=
  groups.foldl (fun acc g =>
    let key := llmGroupPayload resource_fieldsMap llmModel g
    match lookupA key cache with
    | some cached => (acc.1 ++ [(g.1, cached)], acc.2)
    | none => (acc.1, acc.2 ++ [(g.1, key)]))
    (([] : List ((Str × Str) × LlmMapping)),
     ([] : List ((Str × Str) × LlmKey)))

/-- Task execution (compile.py:992-1025): every task invokes the external
resolver and its result is recorded in the mappings and written to the
cache. -/
def llmExecuteTasks (llm : LlmKey → LlmMapping)
    (start : List ((Str × Str) × LlmMapping) × LlmCache)
    (tasks : List ((Str × Str) × LlmKey)) :
    List ((Str × Str) × LlmMapping) × LlmCache :=
  tasks.foldl (fun acc t =>
    let result := llm t.2
    (acc.1 ++ [(t.1, result)], acc.2 ++ [(t.2, result)])) start

/-- Application of the fallback mappings (compile.py:1027-1048): a mapped
field is accepted only if truthy and a real field of the resource. -/
def applyLlmMappings (resource_fieldsMap : List (Str × List (Str × Str)))
    (mappings : List ((Str × Str) × LlmMapping))
    (unmatched : List UnmatchedEntry) (cfl0 : List CommandFieldLinkRow) :
    List CommandFieldLinkRow :=
  unmatched.foldl (fun t entry =>
    let mapping := (lookupA (entry.resource, entry.relation) mappings).getD []
    let mapped_field := (lookupA entry.flag_name mapping).getD none
    let fields := (lookupA entry.resource resource_fieldsMap).getD []
    match mapped_field with
    | none => t
    | some f =>
      if f ≠ [] ∧ memKey f fields then
        insertIgnore cflKey t
          ⟨entry.command_id, entry.resource, f, (lookupA f fields).getD [],
            entry.relation, entry.flag_name, str "llm", none⟩
      else t) cfl0

/-- Translation of `build_command_field_links` (compile.py:876-1048): wipe
`command_field_links`, run the deterministic matching pass, then (when the
fallback is enabled and some flags are unmatched) resolve each unmatched
(resource, relation) group through the cache or the external resolver
`run_llm_flag_mapping` -- modelled as the pure input oracle `llm` -- and
apply every accepted mapping.  Completed tasks are folded in task order (the
thread pool's completion order only permutes insertions of distinct cache
keys).  Returns the updated Store and cache. -/
def build_command_field_links (llmEnabled : Bool) (llmModel : Option Str)
    (llm : LlmKey → LlmMapping) (cache : LlmCache) (db : DB) :
    DB × LlmCache :=
  let resource_fieldsMap := resourceFieldsDict db.resource_fields
  let flags_by_command := db.flags.foldl (fun d row =>
    dictAppend d row.command_id (row.name, row.description)) []
  let det := cflDeterministic resource_fieldsMap flags_by_command
    db.command_resource_links
  let unmatched_by_command := det.2.1
  let unmatched_by_group := det.2.2
  if ¬ llmEnabled ∨ unmatched_by_group = [] then
    ({ db with command_field_links := det.1 }, cache)
  else
    let hitsAndTasks := llmHitsAndTasks resource_fieldsMap llmModel cache
      unmatched_by_group
    let executed := llmExecuteTasks llm (hitsAndTasks.1, cache) hitsAndTasks.2
    let cfl := applyLlmMappings resource_fieldsMap executed.1
      unmatched_by_command det.1
    ({ db with command_field_links := cfl }, executed.2)

/-! Artifact ingestion: `upsert_artifact` (compile.py:507-556) and the
per-file loop of `main` (compile.py:1562-1571). -/

/-- One flag of a validated command artifact (`artifacts_schema.Flag`). -/
structure ArtifactFlag where
  name : Str
  aliases : Option (List Str)
  required : Bool
  type : Str
  description : Str
  default : Option Str
  validation : Option Str
  deriving DecidableEq, Repr

/-- One provenance reference of an artifact (`artifacts_schema.SourceRef`). -/
structure ArtifactSource where
  repo_name : Str
  file_path : Str
  deriving DecidableEq, Repr

/-- A validated command artifact (`artifacts_schema.CommandArtifact`). -/
structure CommandArtifact where
  id : Str
  full_path : Str
  description : Str
  permissions : Option Str
  side_effects : Option Str
  validation_notes : Option Str
  flags : List ArtifactFlag
  sources : List ArtifactSource
  deriving DecidableEq, Repr

/-- Translation of `upsert_artifact`: `INSERT OR REPLACE` the command row
(SQLite deletes the conflicting row and appends the new one), then delete
and reinsert its flags and sources.  `json.dumps(aliases) if aliases else
None` stores `none` for an absent or empty alias list. -/
def upsert_artifact (db : DB) (a : CommandArtifact) : DB :=
  { db with
    commands := db.commands.filter (fun c => ¬ c.id = a.id) ++
      [⟨a.id, a.full_path, a.description, a.permissions, a.side_effects,
        a.validation_notes⟩]
    flags := db.flags.filter (fun f => ¬ f.command_id = a.id) ++
      a.flags.map (fun f =>
        ⟨a.id, f.name,
          (match f.aliases with
            | none => none
            | some [] => none
            | some l => some l),
          f.required, f.type, f.description, f.default, f.validation⟩)
    sources := db.sources.filter (fun s => ¬ s.command_id = a.id) ++
      a.sources.map (fun s => ⟨a.id, s.repo_name, s.file_path⟩) }

/-- The artifact loop of `main` (compile.py:1559-1571): each artifact file
is modelled by its parse-and-validate outcome (`none` for a file whose
content is not valid JSON or fails schema validation); invalid files are
counted as skipped, valid ones are upserted and counted as inserted. -/
def ingestArtifacts (files : List (Option CommandArtifact)) (db : DB) :
    DB × Nat × Nat :=
  files.foldl (fun acc file =>
    match file with
    | none => (acc.1, acc.2.1, acc.2.2 + 1)
    | some artifact => (upsert_artifact acc.1 artifact, acc.2.1 + 1, acc.2.2))
    (db, 0, 0)

/-! The full compile run: `main` (compile.py:1491-1578). -/

/-- Inputs of one compile run: the two schema JSON files, the artifact
files in `rglob` order (each as its parse outcome), the two file-scanning
interfaces, and the fallback configuration with its external resolver. -/
structure CompileInputs where
  resourceMap : ResourceMap
  summaryMap : SummaryMap
  artifacts : List (Option CommandArtifact)
  endpointOf : Str → Option Str
  scan : Str → Option ScanResult
  llmEnabled : Bool
  llmModel : Option Str
  llm : LlmKey → LlmMapping

/-- Durable state across compile runs: the database file and the persistent
LLM cache file. -/
structure CompileState where
  db : DB
  cache : LlmCache
  deriving Repr

/-- Translation of `main` (compile.py:1491-1578), in statement order:
rebuild the schema tables from the two maps, rebuild
`command_resource_links`, summary dimensions/metrics and their per-command
links, rebuild `command_filter_paths`, load the cache (only with `--llm`),
rebuild `command_field_links`, and finally ingest the artifact files.
Note that artifact ingestion runs after every derived-table build, and
`build_command_filter_paths` runs before `build_command_field_links`. -/
def runCompile (inp : CompileInputs) (st : CompileState) : CompileState :=
  let db1 := upsert_resource_map inp.resourceMap st.db
  let db2 := upsert_summary_map inp.summaryMap db1
  let db3 := build_command_resource_links inp.endpointOf db2
  let db4 := build_summary_dimensions_metrics inp.scan db3
  let db5 := build_command_summary_links db4
  let db6 := build_command_filter_paths db5 3
  let loadedCache := if inp.llmEnabled then st.cache else []
  let built := build_command_field_links inp.llmEnabled inp.llmModel inp.llm
    loadedCache db6
  let ingested := ingestArtifacts inp.artifacts built.1
  { db := ingested.1,
    cache := if inp.llmEnabled then built.2 else st.cache }

/-! Similarity scorer: the derived read-only views `resource_graph_edges`,
`resource_filter_path_neighbors`, `resource_feature_links`,
`resource_feature_similarity`, `resource_neighbor_components` and
`resource_neighbor_scores` (init_db, compile.py:243-496), computed over the
current Store state.  SQL `GROUP BY` is modelled by grouping on the distinct
keys in first-occurrence order; only the group contents (counts and sums)
matter to the claims. -/

/-- Distinct elements of a list in first-occurrence order. -/
def firstOccur {α : Type} [DecidableEq α] (l : List α) : List α :=
  l.foldl (fun acc x => if x ∈ acc then acc else acc ++ [x]) []

/-- Row of the `resource_graph_edges` view. -/
structure EdgeRow where
  source_resource : Str
  relationship : Str
  target_resource : Str
  edge_kind : Str
  condition : Option Str
  deriving DecidableEq, Repr

/-- The `resource_graph_edges` view: declared relationship edges plus
summary edges. -/
def resource_graph_edges (db : DB) : List EdgeRow :=
  db.resource_field_targets.map (fun r =>
    ⟨r.resource, r.field, r.target_resource, str "relationship", none⟩) ++
  db.summary_resource_targets.map (fun r =>
    ⟨r.summary_resource, str "summarizes", r.primary_resource, str "summary",
      r.condition⟩)

/-- Row of the `resource_filter_path_neighbors` view. -/
structure FilterNeighborRow where
  source_resource : Str
  target_resource : Str
  path : Str
  target_field : Option Str
  hop_count : Nat
  match_kind : Str
  modifier : Option Str
  command_count : Nat
  flag_count : Nat
  deriving DecidableEq, Repr

/-- Grouping key of `resource_filter_path_neighbors`. -/
def fpnKey (r : CommandFilterPathRow) :
    Str × Str × Str × Option Str × Nat × Str × Option Str :=
  (r.resource, r.target_resource, r.path, r.target_field, r.hop_count,
    r.match_kind, r.modifier)

/-- The `resource_filter_path_neighbors` view: filter paths grouped with
distinct command and flag counts. -/
def resource_filter_path_neighbors (db : DB) : List FilterNeighborRow :=
  (firstOccur (db.command_filter_paths.map fpnKey)).map fun k =>
    let rows := db.command_filter_paths.filter (fun r => fpnKey r = k)
    ⟨k.1, k.2.1, k.2.2.1, k.2.2.2.1, k.2.2.2.2.1, k.2.2.2.2.2.1,
      k.2.2.2.2.2.2,
      (firstOccur (rows.map (·.command_id))).length,
      (firstOccur (rows.map (·.flag_name))).length⟩

/-- Row of the `resource_feature_links` view. -/
structure FeatureLinkRow where
  resource : Str
  feature_kind : Str
  feature_name : Str
  feature_detail : Option Str
  source_ref : Str
  deriving DecidableEq, Repr

/-- The `resource_feature_links` view: command-field links, summary
dimensions, summary metrics and filter-path targets as features. -/
def resource_feature_links (db : DB) : List FeatureLinkRow :=
  db.command_field_links.map (fun r =>
    ⟨r.resource, str "command_field", r.field, some r.relation, r.command_id⟩) ++
  db.summary_dimensions.map (fun r =>
    ⟨r.summary_resource, str "summary_dimension", r.name, some r.kind,
      r.source_path⟩) ++
  db.summary_metrics.map (fun r =>
    ⟨r.summary_resource, str "summary_metric", r.name, none, r.source_path⟩) ++
  db.command_filter_paths.map (fun r =>
    ⟨r.resource, str "filter_target", r.target_resource, some r.path,
      r.command_id⟩)

/-- The `distinct_features` CTE: distinct (resource, kind, name,
COALESCE(detail, '')) tuples. -/
def distinctFeatures (db : DB) : List (Str × Str × Str × Str) :=
  firstOccur ((resource_feature_links db).map fun r =>
    (r.resource, r.feature_kind, r.feature_name, r.feature_detail.getD []))

/-- Row of the `resource_feature_similarity` view. -/
structure SimilarityRow where
  source_resource : Str
  target_resource : Str
  feature_kind : Str
  shared_features : Nat
  deriving DecidableEq, Repr

/-- The join of `resource_feature_similarity`: ordered pairs of resources
sharing an identical feature, tagged with the feature kind. -/
def similarityJoined (db : DB) : List (Str × Str × Str) :=
  (distinctFeatures db).flatMap fun a =>
    (distinctFeatures db).filterMap fun b =>
      if a.2.1 = b.2.1 ∧ a.2.2.1 = b.2.2.1 ∧ a.2.2.2 = b.2.2.2 ∧
          lexLt a.1 b.1 then some (a.1, b.1, a.2.1)
      else none

/-- The `resource_feature_similarity` view: shared-feature counts grouped by
resource pair and feature kind. -/
def resource_feature_similarity (db : DB) : List SimilarityRow :=
  (firstOccur (similarityJoined db)).map fun k =>
    ⟨k.1, k.2.1, k.2.2, ((similarityJoined db).filter (· = k)).length⟩

/-- Row of the `resource_neighbor_components` view. -/
structure ComponentRow where
  source_resource : Str
  target_resource : Str
  component_kind : Str
  component_count : Nat
  detail : Option Str
  deriving DecidableEq, Repr

/-- The `CASE feature_kind` renaming of shared-feature kinds. -/
def mapSharedKind (k : Str) : Str :=
  if k = str "command_field" then str "shared_command_field"
  else if k = str "summary_dimension" then str "shared_summary_dimension"
  else if k = str "summary_metric" then str "shared_summary_metric"
  else if k = str "filter_target" then str "shared_filter_target"
  else k

/-- The `symmetric_components` CTE rows (one direction). -/
def symmetricComponents (db : DB) : List ComponentRow :=
  (resource_feature_similarity db).map fun r =>
    ⟨r.source_resource, r.target_resource, mapSharedKind r.feature_kind,
      r.shared_features, none⟩

/-- The `direct_components` CTE rows. -/
def directComponents (db : DB) : List ComponentRow :=
  (resource_graph_edges db).map (fun e =>
    ⟨e.source_resource, e.target_resource,
      (if e.edge_kind = str "summary" then str "summary"
        else str "relationship"),
      1,
      (if e.edge_kind = str "summary" ∧ e.condition.isSome then e.condition
        else some e.relationship)⟩) ++
  (resource_filter_path_neighbors db).map (fun r =>
    ⟨r.source_resource, r.target_resource, str "filter_path", r.flag_count,
      some r.path⟩)

/-- The `resource_neighbor_components` view: direct components plus the
symmetric components in both directions. -/
def resource_neighbor_components (db : DB) : List ComponentRow :=
  directComponents db ++ symmetricComponents db ++
  (symmetricComponents db).map (fun c =>
    ⟨c.target_resource, c.source_resource, c.component_kind,
      c.component_count, c.detail⟩)

/-- The fixed component weights of `resource_neighbor_scores`. -/
def weights : List (Str × ℚ) :=
  [(str "relationship", 3), (str "summary", 5/2), (str "filter_path", 3/2),
   (str "shared_command_field", 1), (str "shared_summary_dimension", 4/5),
   (str "shared_summary_metric", 4/5), (str "shared_filter_target", 1/2)]

/-- The `components` CTE of `resource_neighbor_scores`: each component row
with its count capped at 10 (`CASE WHEN component_count > 10 THEN 10 ELSE
component_count END`). -/
def cappedComponents (db : DB) : List ComponentRow :=
  (resource_neighbor_components db).map fun c =>
    { c with component_count :=
        if 10 < c.component_count then 10 else c.component_count }

/-- The `scored` CTE: capped components joined with their kind weight. -/
def scoredComponents (db : DB) : List (ComponentRow × ℚ) :=
  (cappedComponents db).filterMap fun c =>
    (lookupA c.component_kind weights).map ((c, ·))

/-- Per (ordered pair, kind) capped evidence total, as summed by the
`SUM(CASE WHEN component_kind = ... THEN capped_count ELSE 0 END)` columns
of `resource_neighbor_scores`. -/
def pairKindCount (db : DB) (src tgt kind : Str) : Nat :=
  (((scoredComponents db).filter fun p =>
    p.1.source_resource = src ∧ p.1.target_resource = tgt ∧
      p.1.component_kind = kind).map fun p => p.1.component_count).sum

/-- Row of the `resource_neighbor_scores` view. -/
structure ScoreRow where
  source_resource : Str
  target_resource : Str
  score : ℚ
  evidence_count : Nat
  relationship_count : Nat
  summary_count : Nat
  filter_path_count : Nat
  shared_command_field_count : Nat
  shared_summary_dimension_count : Nat
  shared_summary_metric_count : Nat
  shared_filter_target_count : Nat
  deriving DecidableEq, Repr

/-- The `resource_neighbor_scores` view: weighted score and per-kind capped
counts, grouped by ordered resource pair. -/
def resource_neighbor_scores (db : DB) : List ScoreRow :=
  (firstOccur ((scoredComponents db).map fun p =>
    (p.1.source_resource, p.1.target_resource))).map fun k =>
    let rows := (scoredComponents db).filter fun p =>
      p.1.source_resource = k.1 ∧ p.1.target_resource = k.2
    ⟨k.1, k.2,
     (rows.map fun p => (p.1.component_count : ℚ) * p.2).sum,
     (rows.map fun p => p.1.component_count).sum,
     pairKindCount db k.1 k.2 (str "relationship"),
     pairKindCount db k.1 k.2 (str "summary"),
     pairKindCount db k.1 k.2 (str "filter_path"),
     pairKindCount db k.1 k.2 (str "shared_command_field"),
     pairKindCount db k.1 k.2 (str "shared_summary_dimension"),
     pairKindCount db k.1 k.2 (str "shared_summary_metric"),
     pairKindCount db k.1 k.2 (str "shared_filter_target")⟩

/-! Generic fold lemmas used to reason about the pipeline stages. -/

theorem foldl_preserves {σ α τ : Type} {f : σ → α → σ} (proj : σ → τ)
    (h : ∀ s a, proj (f s a) = proj s) :
    ∀ (l : List α) (s : σ), proj (l.foldl f s) = proj s := by
  intro l
  induction l with
  | nil => intro s; rfl
  | cons a rest ih => intro s; rw [List.foldl_cons, ih, h]

theorem foldl_rel {σ σ' α : Type} {f : σ → α → σ} {f' : σ' → α → σ'}
    (R : σ → σ' → Prop)
    (hstep : ∀ s s' a, R s s' → R (f s a) (f' s' a)) :
    ∀ (l : List α) (s : σ) (s' : σ'), R s s' →
      R (l.foldl f s) (l.foldl f' s') := by
  intro l
  induction l with
  | nil => intro s s' h; exact h
  | cons a rest ih =>
    intro s s' h
    exact ih _ _ (hstep s s' a h)

theorem mem_insertIgnore {ρ κ : Type} [DecidableEq κ] {key : ρ → κ}
    {t : List ρ} {r x : ρ} (h : x ∈ insertIgnore key t r) :
    x ∈ t ∨ x = r := by
  unfold insertIgnore at h
  split at h
  · exact Or.inl h
  · rcases List.mem_append.mp h with h2 | h2
    · exact Or.inl h2
    · cases h2 with
      | head => exact Or.inr rfl
      | tail _ h3 => cases h3

/-! Frame lemmas: which tables each pipeline stage leaves untouched.  Each
builder computes its output table(s) as a pure fold and performs a single
record update, so untouched tables are definitionally preserved. -/

theorem upsert_resource_map_frame (rm : ResourceMap) (db : DB) :
    (upsert_resource_map rm db).commands = db.commands ∧
    (upsert_resource_map rm db).flags = db.flags ∧
    (upsert_resource_map rm db).sources = db.sources ∧
    (upsert_resource_map rm db).command_resource_links =
      db.command_resource_links ∧
    (upsert_resource_map rm db).command_field_links =
      db.command_field_links ∧
    (upsert_resource_map rm db).command_filter_paths =
      db.command_filter_paths ∧
    (upsert_resource_map rm db).summary_resource_targets =
      db.summary_resource_targets ∧
    (upsert_resource_map rm db).summary_sources = db.summary_sources :=
  ⟨rfl, rfl, rfl, rfl, rfl, rfl, rfl, rfl⟩

theorem upsert_summary_map_frame (sm : SummaryMap) (db : DB) :
    (upsert_summary_map sm db).commands = db.commands ∧
    (upsert_summary_map sm db).flags = db.flags ∧
    (upsert_summary_map sm db).sources = db.sources ∧
    (upsert_summary_map sm db).resources = db.resources ∧
    (upsert_summary_map sm db).resource_fields = db.resource_fields ∧
    (upsert_summary_map sm db).resource_field_targets =
      db.resource_field_targets ∧
    (upsert_summary_map sm db).command_resource_links =
      db.command_resource_links ∧
    (upsert_summary_map sm db).command_field_links =
      db.command_field_links ∧
    (upsert_summary_map sm db).command_filter_paths =
      db.command_filter_paths :=
  ⟨rfl, rfl, rfl, rfl, rfl, rfl, rfl, rfl, rfl⟩

theorem build_command_resource_links_frame (e : Str → Option Str) (db : DB) :
    (build_command_resource_links e db).commands = db.commands ∧
    (build_command_resource_links e db).flags = db.flags ∧
    (build_command_resource_links e db).sources = db.sources ∧
    (build_command_resource_links e db).resources = db.resources ∧
    (build_command_resource_links e db).resource_fields =
      db.resource_fields ∧
    (build_command_resource_links e db).resource_field_targets =
      db.resource_field_targets ∧
    (build_command_resource_links e db).command_field_links =
      db.command_field_links ∧
    (build_command_resource_links e db).command_filter_paths =
      db.command_filter_paths ∧
    (build_command_resource_links e db).summary_resource_targets =
      db.summary_resource_targets ∧
    (build_command_resource_links e db).summary_sources =
      db.summary_sources ∧
    (build_command_resource_links e db).summary_dimensions =
      db.summary_dimensions ∧
    (build_command_resource_links e db).summary_metrics =
      db.summary_metrics :=
  ⟨rfl, rfl, rfl, rfl, rfl, rfl, rfl, rfl, rfl, rfl, rfl, rfl⟩

theorem build_summary_dimensions_metrics_frame
    (scan : Str → Option ScanResult) (db : DB) :
    (build_summary_dimensions_metrics scan db).commands = db.commands ∧
    (build_summary_dimensions_metrics scan db).flags = db.flags ∧
    (build_summary_dimensions_metrics scan db).sources = db.sources ∧
    (build_summary_dimensions_metrics scan db).resources = db.resources ∧
    (build_summary_dimensions_metrics scan db).resource_fields =
      db.resource_fields ∧
    (build_summary_dimensions_metrics scan db).resource_field_targets =
      db.resource_field_targets ∧
    (build_summary_dimensions_metrics scan db).command_resource_links =
      db.command_resource_links ∧
    (build_summary_dimensions_metrics scan db).command_field_links =
      db.command_field_links ∧
    (build_summary_dimensions_metrics scan db).command_filter_paths =
      db.command_filter_paths :=
  ⟨rfl, rfl, rfl, rfl, rfl, rfl, rfl, rfl, rfl⟩

theorem build_command_summary_links_frame (db : DB) :
    (build_command_summary_links db).commands = db.commands ∧
    (build_command_summary_links db).flags = db.flags ∧
    (build_command_summary_links db).sources = db.sources ∧
    (build_command_summary_links db).resources = db.resources ∧
    (build_command_summary_links db).resource_fields = db.resource_fields ∧
    (build_command_summary_links db).resource_field_targets =
      db.resource_field_targets ∧
    (build_command_summary_links db).command_resource_links =
      db.command_resource_links ∧
    (build_command_summary_links db).command_field_links =
      db.command_field_links ∧
    (build_command_summary_links db).command_filter_paths =
      db.command_filter_paths :=
  ⟨rfl, rfl, rfl, rfl, rfl, rfl, rfl, rfl, rfl⟩

theorem build_command_filter_paths_frame (db : DB) (maxHops : Nat) :
    (build_command_filter_paths db maxHops).commands = db.commands ∧
    (build_command_filter_paths db maxHops).flags = db.flags ∧
    (build_command_filter_paths db maxHops).sources = db.sources ∧
    (build_command_filter_paths db maxHops).resources = db.resources ∧
    (build_command_filter_paths db maxHops).resource_fields =
      db.resource_fields ∧
    (build_command_filter_paths db maxHops).resource_field_targets =
      db.resource_field_targets ∧
    (build_command_filter_paths db maxHops).command_resource_links =
      db.command_resource_links ∧
    (build_command_filter_paths db maxHops).command_field_links =
      db.command_field_links :=
  ⟨rfl, rfl, rfl, rfl, rfl, rfl, rfl, rfl⟩

theorem build_command_field_links_frame (le : Bool) (lm : Option Str)
    (llm : LlmKey → LlmMapping) (cache : LlmCache) (db : DB) :
    (build_command_field_links le lm llm cache db).1.commands = db.commands ∧
    (build_command_field_links le lm llm cache db).1.flags = db.flags ∧
    (build_command_field_links le lm llm cache db).1.sources = db.sources ∧
    (build_command_field_links le lm llm cache db).1.resources =
      db.resources ∧
    (build_command_field_links le lm llm cache db).1.resource_fields =
      db.resource_fields ∧
    (build_command_field_links le lm llm cache db).1.resource_field_targets =
      db.resource_field_targets ∧
    (build_command_field_links le lm llm cache db).1.command_resource_links =
      db.command_resource_links ∧
    (build_command_field_links le lm llm cache db).1.command_filter_paths =
      db.command_filter_paths := by
  unfold build_command_field_links
  refine ⟨?_, ?_, ?_, ?_, ?_, ?_, ?_, ?_⟩ <;>
  · dsimp only
    split <;> rfl

theorem upsert_artifact_frame (db : DB) (a : CommandArtifact) :
    (upsert_artifact db a).resources = db.resources ∧
    (upsert_artifact db a).resource_fields = db.resource_fields ∧
    (upsert_artifact db a).resource_field_targets =
      db.resource_field_targets ∧
    (upsert_artifact db a).command_resource_links =
      db.command_resource_links ∧
    (upsert_artifact db a).command_field_links = db.command_field_links ∧
    (upsert_artifact db a).command_filter_paths = db.command_filter_paths ∧
    (upsert_artifact db a).summary_dimensions = db.summary_dimensions ∧
    (upsert_artifact db a).summary_metrics = db.summary_metrics ∧
    (upsert_artifact db a).command_summary_dimensions =
      db.command_summary_dimensions ∧
    (upsert_artifact db a).command_summary_metrics =
      db.command_summary_metrics :=
  ⟨rfl, rfl, rfl, rfl, rfl, rfl, rfl, rfl, rfl, rfl⟩

theorem ingestArtifacts_frame (files : List (Option CommandArtifact))
    (db : DB) :
    (ingestArtifacts files db).1.resources = db.resources ∧
    (ingestArtifacts files db).1.resource_fields = db.resource_fields ∧
    (ingestArtifacts files db).1.resource_field_targets =
      db.resource_field_targets ∧
    (ingestArtifacts files db).1.command_resource_links =
      db.command_resource_links ∧
    (ingestArtifacts files db).1.command_field_links =
      db.command_field_links ∧
    (ingestArtifacts files db).1.command_filter_paths =
      db.command_filter_paths ∧
    (ingestArtifacts files db).1.command_summary_dimensions =
      db.command_summary_dimensions ∧
    (ingestArtifacts files db).1.command_summary_metrics =
      db.command_summary_metrics := by
  unfold ingestArtifacts
  refine ⟨?_, ?_, ?_, ?_, ?_, ?_, ?_, ?_⟩
  · refine foldl_preserves (fun acc => acc.1.resources) ?_ files (db, 0, 0)
    intro s a
    cases a <;> rfl
  · refine foldl_preserves (fun acc => acc.1.resource_fields) ?_ files (db, 0, 0)
    intro s a
    cases a <;> rfl
  · refine foldl_preserves (fun acc => acc.1.resource_field_targets) ?_ files (db, 0, 0)
    intro s a
    cases a <;> rfl
  · refine foldl_preserves (fun acc => acc.1.command_resource_links) ?_ files (db, 0, 0)
    intro s a
    cases a <;> rfl
  · refine foldl_preserves (fun acc => acc.1.command_field_links) ?_ files (db, 0, 0)
    intro s a
    cases a <;> rfl
  · refine foldl_preserves (fun acc => acc.1.command_filter_paths) ?_ files (db, 0, 0)
    intro s a
    cases a <;> rfl
  · refine foldl_preserves (fun acc => acc.1.command_summary_dimensions) ?_ files (db, 0, 0)
    intro s a
    cases a <;> rfl
  · refine foldl_preserves (fun acc => acc.1.command_summary_metrics) ?_ files (db, 0, 0)
    intro s a
    cases a <;> rfl

/-- Claim C9: an artifact file whose content is not valid JSON or fails
schema validation (modelled as a `none` parse outcome) is skipped and
counted, while every valid artifact is ingested in order; the loop is a
total function, so it terminates normally on every file list. -/
theorem C9_theorem (files : List (Option CommandArtifact)) (db : DB) :
    ingestArtifacts files db =
      ((files.filterMap id).foldl upsert_artifact db,
       (files.filterMap id).length,
       (files.filter (·.isNone)).length) := by
  suffices h : ∀ (fs : List (Option CommandArtifact)) (d : DB) (i s : Nat),
      fs.foldl (fun acc file =>
        match file with
        | none => (acc.1, acc.2.1, acc.2.2 + 1)
        | some artifact =>
          (upsert_artifact acc.1 artifact, acc.2.1 + 1, acc.2.2)) (d, i, s) =
      ((fs.filterMap id).foldl upsert_artifact d,
       i + (fs.filterMap id).length, s + (fs.filter (·.isNone)).length) by
    unfold ingestArtifacts
    rw [h files db 0 0]
    simp
  intro fs
  induction fs with
  | nil => intro d i s; simp
  | cons file rest ih =>
    intro d i s
    cases file with
    | none =>
      rw [List.foldl_cons]
      dsimp only
      rw [ih]
      simp only [List.filterMap_cons_none, List.filter_cons]
      norm_num
      omega
    | some a =>
      rw [List.foldl_cons]
      dsimp only
      rw [ih]
      have hfm : List.filterMap id (some a :: rest) =
          a :: List.filterMap id rest := rfl
      have hfl : List.filter (fun x => x.isNone) (some a :: rest) =
          List.filter (fun x => x.isNone) rest := rfl
      rw [hfm, hfl, List.foldl_cons, List.length_cons]
      norm_num
      omega

/-! Claim C7: derived link rows reference only existing resources and
fields. -/

theorem foldl_invariant {σ α : Type} {f : σ → α → σ} (P : σ → Prop)
    (h : ∀ s a, P s → P (f s a)) :
    ∀ (l : List α) (s : σ), P s → P (l.foldl f s) := by
  intro l
  induction l with
  | nil => intro s hs; exact hs
  | cons a rest ih => intro s hs; exact ih _ (h s a hs)

theorem mem_dictInsert {κ β : Type} [DecidableEq κ] {d : List (κ × β)}
    {k : κ} {v : β} {q : κ × β} (h : q ∈ dictInsert d k v) :
    q ∈ d ∨ q = (k, v) := by
  unfold dictInsert at h
  split at h
  · obtain ⟨p, hp, he⟩ := List.mem_map.mp h
    by_cases hpk : p.1 = k
    · rw [if_pos hpk] at he
      exact Or.inr he.symm
    · rw [if_neg hpk] at he
      exact Or.inl (he ▸ hp)
  · rcases List.mem_append.mp h with h2 | h2
    · exact Or.inl h2
    · cases h2 with
      | head => exact Or.inr rfl
      | tail _ h3 => cases h3

theorem matchRangeSuffix_memKey {normalized : Str} {fields : FieldMap}
    {f : Str} :
    ∀ {sufs : List (Str × Str)},
      (matchRangeSuffix normalized fields sufs).1 = some f →
        memKey f fields := by
  intro sufs
  induction sufs with
  | nil => intro h; cases h
  | cons sm rest ih =>
    intro h
    obtain ⟨suffix, modifier⟩ := sm
    rw [matchRangeSuffix] at h
    split at h
    · dsimp only at h
      split at h
      · next hm =>
        dsimp only at h
        injection h with h3
        exact h3 ▸ hm
      · split at h
        · next hm =>
          dsimp only at h
          injection h with h3
          exact h3 ▸ hm.2
        · split at h
          · next hm =>
            dsimp only at h
            injection h with h3
            exact h3 ▸ hm.2
          · exact ih h
    · exact ih h

theorem match_flag_to_field_memKey {flagName : Str} {fields : FieldMap}
    {f : Str} (h : (match_flag_to_field flagName fields).1 = some f) :
    memKey f fields := by
  unfold match_flag_to_field at h
  dsimp only at h
  split at h
  · next hm =>
    injection h with h2
    exact h2 ▸ hm
  · split at h
    · next hm =>
      injection h with h2
      exact h2 ▸ hm.2
    · split at h
      · next hm =>
        injection h with h2
        exact h2 ▸ hm.2
      · split at h
        · exact matchRangeSuffix_memKey h
        · split at h
          · next hm =>
            injection h with h2
            exact h2 ▸ hm.2
          · split at h
            · next hm =>
              injection h with h2
              exact h2 ▸ hm.2
            · cases h

/-- Entries of the nested field dictionary trace back to `resource_fields`
rows. -/
theorem resourceFieldsDict_mem {rows : List ResourceFieldRow}
    {res : Str} {fl : List (Str × Str)} {q : Str × Str}
    (hm : (res, fl) ∈ resourceFieldsDict rows) (hq : q ∈ fl) :
    ∃ row ∈ rows, row.resource = res ∧ row.name = q.1 := by
  suffices h : ∀ (l : List ResourceFieldRow) (d : List (Str × List (Str × Str))),
      (∀ p ∈ d, ∀ x ∈ p.2, ∃ row ∈ rows, row.resource = p.1 ∧ row.name = x.1) →
      (∀ row ∈ l, row ∈ rows) →
      ∀ p ∈ l.foldl (fun d row =>
        if memKey row.resource d then
          d.map fun p =>
            if p.1 = row.resource then (p.1, dictInsert p.2 row.name row.kind)
            else p
        else d ++ [(row.resource, dictInsert [] row.name row.kind)]) d,
        ∀ x ∈ p.2, ∃ row ∈ rows, row.resource = p.1 ∧ row.name = x.1 by
    exact h rows [] (by rintro p hp; cases hp) (fun r hr => hr) (res, fl) hm q hq
  intro l
  induction l with
  | nil =>
    intro d hd _ p hp x hx
    exact hd p hp x hx
  | cons row rest ih =>
    intro d hd hsub p hp x hx
    rw [List.foldl_cons] at hp
    refine ih _ ?_ (fun r hr => hsub r (.tail _ hr)) p hp x hx
    intro p2 hp2 x2 hx2
    by_cases hmem : memKey row.resource d
    · rw [if_pos hmem] at hp2
      obtain ⟨p3, hp3, he⟩ := List.mem_map.mp hp2
      by_cases hpr : p3.1 = row.resource
      · rw [if_pos hpr] at he
        rw [← he] at hx2
        rcases mem_dictInsert hx2 with h2 | h2
        · have := hd p3 hp3 x2 h2
          rw [← he]
          simpa using this
        · refine ⟨row, hsub row (.head _), ?_, ?_⟩
          · rw [← he]; exact hpr.symm
          · rw [h2]
      · rw [if_neg hpr] at he
        exact he ▸ hd p3 hp3 x2 (he ▸ hx2)
    · rw [if_neg hmem] at hp2
      rcases List.mem_append.mp hp2 with h2 | h2
      · exact hd p2 h2 x2 hx2
      · cases h2 with
        | head =>
          dsimp only at hx2
          rcases mem_dictInsert hx2 with h3 | h3
          · cases h3
          · exact ⟨row, hsub row (.head _), rfl, by rw [h3]⟩
        | tail _ h3 => cases h3

/-- Every row of the deterministic `command_field_links` pass names a field
present in the field-dictionary entry of its resource. -/
theorem cflDeterministic_mem
    (rfm fbc : List (Str × List (Str × Str)))
    (links : List CommandResourceLinkRow) :
    ∀ r ∈ (cflDeterministic rfm fbc links).1,
      ∃ fields, lookupA r.resource rfm = some fields ∧
        memKey r.field fields := by
  intro r hr
  unfold cflDeterministic at hr
  refine foldl_invariant
    (fun acc : List CommandFieldLinkRow × List UnmatchedEntry × GroupMap =>
      ∀ x ∈ acc.1, ∃ fields, lookupA x.resource rfm = some fields ∧
        memKey x.field fields) ?_ links ([], [], []) ?_ r hr
  · intro acc link hacc
    dsimp only
    split
    · exact hacc
    · split
      · exact hacc
      · next fields hflds =>
        split
        · exact hacc
        · refine foldl_invariant
            (fun acc2 : List CommandFieldLinkRow × List UnmatchedEntry ×
                GroupMap =>
              ∀ x ∈ acc2.1, ∃ fs, lookupA x.resource rfm = some fs ∧
                memKey x.field fs) ?_ _ acc hacc
          intro acc2 flag hacc2
          dsimp only
          split
          · next field_name hm =>
            intro x hx
            rcases mem_insertIgnore hx with h2 | h2
            · exact hacc2 x h2
            · subst h2
              exact ⟨fields, hflds, match_flag_to_field_memKey hm⟩
          · exact hacc2
  · rintro x hx
    cases hx

/-- A key found in a looked-up-or-empty field list pins down a successful
lookup. -/
theorem memKey_of_getD {κ β γ : Type} [DecidableEq κ] [DecidableEq β]
    {f : β} {rfm : List (κ × List (β × γ))} {res : κ}
    (h : memKey f ((lookupA res rfm).getD [])) :
    ∃ fields, lookupA res rfm = some fields ∧ memKey f fields := by
  cases hlk : lookupA res rfm with
  | none =>
    rw [hlk] at h
    unfold memKey at h
    obtain ⟨p, hp, -⟩ := h
    exact absurd hp (List.not_mem_nil p)
  | some fields =>
    rw [hlk] at h
    exact ⟨fields, rfl, h⟩

/-- Every row added by the fallback-mapping application names a field
present in the field-dictionary entry of its resource. -/
theorem applyLlmMappings_mem
    (rfm : List (Str × List (Str × Str)))
    (mappings : List ((Str × Str) × LlmMapping))
    (unmatched : List UnmatchedEntry) (cfl0 : List CommandFieldLinkRow)
    (h0 : ∀ x ∈ cfl0, ∃ fields, lookupA x.resource rfm = some fields ∧
      memKey x.field fields) :
    ∀ r ∈ applyLlmMappings rfm mappings unmatched cfl0,
      ∃ fields, lookupA r.resource rfm = some fields ∧
        memKey r.field fields := by
  intro r hr
  unfold applyLlmMappings at hr
  refine foldl_invariant
    (fun t : List CommandFieldLinkRow =>
      ∀ x ∈ t, ∃ fields, lookupA x.resource rfm = some fields ∧
        memKey x.field fields) ?_ unmatched cfl0 h0 r hr
  intro t entry ht
  dsimp only
  split
  · exact ht
  · split
    · next hguard =>
      intro x hx
      rcases mem_insertIgnore hx with h2 | h2
      · exact ht x h2
      · subst h2
        obtain ⟨-, hmem⟩ := hguard
        exact memKey_of_getD hmem
    · exact ht

/-- Every `command_field_links` row written by `build_command_field_links`
-- deterministically matched or accepted from the fallback -- names a field
of its resource that exists in `resource_fields`. -/
theorem build_command_field_links_field_exists (le : Bool) (lm : Option Str)
    (llm : LlmKey → LlmMapping) (cache : LlmCache) (db : DB) :
    ∀ r ∈ (build_command_field_links le lm llm cache db).1.command_field_links,
      ∃ f ∈ db.resource_fields, f.resource = r.resource ∧
        f.name = r.field := by
  intro r hr
  have key : ∀ x : CommandFieldLinkRow,
      (∃ fields, lookupA x.resource (resourceFieldsDict db.resource_fields) =
        some fields ∧ memKey x.field fields) →
      ∃ f ∈ db.resource_fields, f.resource = x.resource ∧
        f.name = x.field := by
    rintro x ⟨fields, hlk, hmem⟩
    have hmem2 : ∃ p ∈ fields, p.1 = x.field := hmem
    obtain ⟨p, hp, hp1⟩ := hmem2
    obtain ⟨row, hrow, h1, h2⟩ := resourceFieldsDict_mem (lookupA_mem hlk) hp
    exact ⟨row, hrow, h1, h2.trans hp1⟩
  unfold build_command_field_links at hr
  dsimp only at hr
  split at hr
  · exact key r (cflDeterministic_mem _ _ _ r hr)
  · exact key r (applyLlmMappings_mem _ _ _ _
      (cflDeterministic_mem _ _ _) r hr)

/-- Each command-classification step inserts only rows whose resource
passed the membership guard against the `resources` list. -/
theorem classifyCommand_mem (e : Str → Option Str) (resources : List Str)
    (cli : List (Str × List Str)) (crl : List CommandResourceLinkRow)
    (cmd : CommandRow) :
    ∀ x ∈ classifyCommand e resources cli crl cmd,
      x ∈ crl ∨ x.resource ∈ resources := by
  intro x hx
  unfold classifyCommand at hx
  split at hx
  · exact Or.inl hx
  · dsimp only at hx
    split at hx
    · split at hx
      · next hres =>
        rcases mem_insertIgnore hx with h | h
        · exact Or.inl h
        · subst h
          exact Or.inr hres
      · exact Or.inl hx
    · split at hx
      · split at hx
        · next hres =>
          rcases mem_insertIgnore hx with h | h
          · exact Or.inl h
          · subst h
            exact Or.inr hres
        · exact Or.inl hx
      · split at hx
        · split at hx
          · exact Or.inl hx
          · split at hx
            · next hres =>
              rcases mem_insertIgnore hx with h | h
              · exact Or.inl h
              · subst h
                exact Or.inr hres
            · exact Or.inl hx
        · exact Or.inl hx

/-- Every `command_resource_links` row written by
`build_command_resource_links` names a resource present in `resources`. -/
theorem build_command_resource_links_resource_exists
    (e : Str → Option Str) (db : DB) :
    ∀ x ∈ (build_command_resource_links e db).command_resource_links,
      ∃ r ∈ db.resources, r.name = x.resource := by
  intro x hx
  unfold build_command_resource_links at hx
  dsimp only at hx
  have h : x.resource ∈ db.resources.map (·.name) := by
    refine foldl_invariant
      (fun t : List CommandResourceLinkRow =>
        ∀ y ∈ t, y.resource ∈ db.resources.map (·.name)) ?_ db.commands []
      ?_ x hx
    · intro t cmd ht y hy
      rcases classifyCommand_mem e _ _ t cmd y hy with h2 | h2
      · exact ht y h2
      · exact h2
    · rintro y hy
      cases hy
  obtain ⟨r, hr, hname⟩ := List.mem_map.mp h
  exact ⟨r, hr, hname⟩

/-- At the end of a compile run, `command_resource_links` is the table
built by `build_command_resource_links` over the refreshed schema state. -/
theorem runCompile_crl (inp : CompileInputs) (st : CompileState) :
    (runCompile inp st).db.command_resource_links =
      DB.command_resource_links
        (build_command_resource_links inp.endpointOf
          (upsert_summary_map inp.summaryMap
            (upsert_resource_map inp.resourceMap st.db))) := by
  unfold runCompile
  dsimp only
  rw [(ingestArtifacts_frame _ _).2.2.2.1,
    (build_command_field_links_frame _ _ _ _ _).2.2.2.2.2.2.1,
    (build_command_filter_paths_frame _ _).2.2.2.2.2.2.1,
    (build_command_summary_links_frame _).2.2.2.2.2.2.1,
    (build_summary_dimensions_metrics_frame _ _).2.2.2.2.2.2.1]

/-- At the end of a compile run, `resources` is the table written by
`upsert_resource_map`. -/
theorem runCompile_resources (inp : CompileInputs) (st : CompileState) :
    (runCompile inp st).db.resources =
      (upsert_resource_map inp.resourceMap st.db).resources := by
  unfold runCompile
  dsimp only
  rw [(ingestArtifacts_frame _ _).1,
    (build_command_field_links_frame _ _ _ _ _).2.2.2.1,
    (build_command_filter_paths_frame _ _).2.2.2.1,
    (build_command_summary_links_frame _).2.2.2.1,
    (build_summary_dimensions_metrics_frame _ _).2.2.2.1,
    (build_command_resource_links_frame _ _).2.2.2.1,
    (upsert_summary_map_frame _ _).2.2.2.1]

/-- At the end of a compile run, `resource_fields` is the table written by
`upsert_resource_map`. -/
theorem runCompile_rf (inp : CompileInputs) (st : CompileState) :
    (runCompile inp st).db.resource_fields =
      (upsert_resource_map inp.resourceMap st.db).resource_fields := by
  unfold runCompile
  dsimp only
  rw [(ingestArtifacts_frame _ _).2.1,
    (build_command_field_links_frame _ _ _ _ _).2.2.2.2.1,
    (build_command_filter_paths_frame _ _).2.2.2.2.1,
    (build_command_summary_links_frame _).2.2.2.2.1,
    (build_summary_dimensions_metrics_frame _ _).2.2.2.2.1,
    (build_command_resource_links_frame _ _).2.2.2.2.1,
    (upsert_summary_map_frame _ _).2.2.2.2.1]

/-- At the end of a compile run, `command_field_links` is the table written
by `build_command_field_links` over the state after the filter-path
build. -/
theorem runCompile_cfl (inp : CompileInputs) (st : CompileState) :
    (runCompile inp st).db.command_field_links =
      DB.command_field_links
        (build_command_field_links inp.llmEnabled inp.llmModel inp.llm
          (if inp.llmEnabled then st.cache else [])
          (build_command_filter_paths
            (build_command_summary_links
              (build_summary_dimensions_metrics inp.scan
                (build_command_resource_links inp.endpointOf
                  (upsert_summary_map inp.summaryMap
                    (upsert_resource_map inp.resourceMap st.db))))) 3)).1 := by
  unfold runCompile
  dsimp only
  rw [(ingestArtifacts_frame _ _).2.2.2.2.1]

/-- Claim C7: every derived link row written by the compiler references
only entities that exist in the Store at the end of the run -- each
`command_resource_links` row names a resource present in `resources`, and
each `command_field_links` row (deterministic or accepted fallback
mapping) names a field present in `resource_fields` for that resource;
candidate links whose resource or field does not exist are skipped, never
fatal. -/
theorem C7_theorem (inp : CompileInputs) (st : CompileState) :
    (∀ link ∈ (runCompile inp st).db.command_resource_links,
      ∃ r ∈ (runCompile inp st).db.resources, r.name = link.resource) ∧
    (∀ link ∈ (runCompile inp st).db.command_field_links,
      ∃ f ∈ (runCompile inp st).db.resource_fields,
        f.resource = link.resource ∧ f.name = link.field) := by
  constructor
  · intro link hlink
    rw [runCompile_crl] at hlink
    rw [runCompile_resources]
    have h := build_command_resource_links_resource_exists inp.endpointOf _
      link hlink
    rwa [(upsert_summary_map_frame _ _).2.2.2.1] at h
  · intro link hlink
    rw [runCompile_cfl] at hlink
    rw [runCompile_rf]
    have h := build_command_field_links_field_exists _ _ _ _ _ link hlink
    rwa [(build_command_filter_paths_frame _ _).2.2.2.2.1,
      (build_command_summary_links_frame _).2.2.2.2.1,
      (build_summary_dimensions_metrics_frame _ _).2.2.2.2.1,
      (build_command_resource_links_frame _ _).2.2.2.2.1,
      (upsert_summary_map_frame _ _).2.2.2.2.1] at h

/-- Inputs of the C7 witness run: one resource with one attribute, no
summaries, no artifacts, fallback disabled. -/
def c7inp : CompileInputs :=
  ⟨⟨[(str "projects", ⟨[], [], [str "status"]⟩)], []⟩, ⟨[]⟩, [],
    fun _ => none, fun _ => none, false, none, fun _ => []⟩

/-- Prior state of the C7 witness run: one list command with one flag whose
field link already exists. -/
def c7st : CompileState :=
  ⟨{ emptyDB with
      commands := [⟨str "cmd1", str "view projects list", [], none, none,
        none⟩]
      flags := [⟨str "cmd1", str "--status", none, false, str "string", [],
        none, none⟩]
      command_field_links := [⟨str "cmd1", str "projects", str "status",
        str "attribute", str "filters_by", str "--status", str "exact",
        none⟩] }, []⟩

/-- The classified resource link of the C7 witness run. -/
def c7link : CommandResourceLinkRow :=
  ⟨str "cmd1", str "projects", str "list", str "view", str "full_path",
    none⟩

/-- The matched field link of the C7 witness run. -/
def c7flink : CommandFieldLinkRow :=
  ⟨str "cmd1", str "projects", str "status", str "attribute",
    str "filters_by", str "--status", str "exact", none⟩

/-- Witness for C7 at a concrete compile run. -/
theorem C7_witness :
    (∃ r ∈ (runCompile c7inp c7st).db.resources,
      r.name = c7link.resource) ∧
    (∃ f ∈ (runCompile c7inp c7st).db.resource_fields,
      f.resource = c7flink.resource ∧ f.name = c7flink.field) :=
  ⟨(C7_theorem c7inp c7st).1 c7link (by decide),
   (C7_theorem c7inp c7st).2 c7flink (by decide)⟩

/-! Claim C8: a cached unmatched-flag group never reaches the external
resolver. -/

/-- Closed form of the cache partition: the hits are the successful cache
lookups of the groups in order, the tasks are the misses with their payload
keys. -/
theorem llmHitsAndTasks_eq (rfm : List (Str × List (Str × Str)))
    (lm : Option Str) (cache : LlmCache) (groups : GroupMap) :
    llmHitsAndTasks rfm lm cache groups =
      (groups.filterMap (fun g =>
        (lookupA (llmGroupPayload rfm lm g) cache).map fun c => (g.1, c)),
       (groups.filter (fun g =>
         (lookupA (llmGroupPayload rfm lm g) cache).isNone)).map fun g =>
           (g.1, llmGroupPayload rfm lm g)) := by
  unfold llmHitsAndTasks
  suffices h : ∀ (l : GroupMap)
      (acc : List ((Str × Str) × LlmMapping) × List ((Str × Str) × LlmKey)),
      l.foldl (fun acc g =>
        let key := llmGroupPayload rfm lm g
        match lookupA key cache with
        | some cached => (acc.1 ++ [(g.1, cached)], acc.2)
        | none => (acc.1, acc.2 ++ [(g.1, key)])) acc =
      (acc.1 ++ l.filterMap (fun g =>
        (lookupA (llmGroupPayload rfm lm g) cache).map fun c => (g.1, c)),
       acc.2 ++ (l.filter (fun g =>
         (lookupA (llmGroupPayload rfm lm g) cache).isNone)).map fun g =>
           (g.1, llmGroupPayload rfm lm g)) by
    rw [h]
    simp
  intro l
  induction l with
  | nil =>
    intro acc
    simp
  | cons g rest ih =>
    intro acc
    cases hlk : lookupA (llmGroupPayload rfm lm g) cache with
    | some cached =>
      simp only [List.foldl_cons, List.filterMap_cons, List.filter_cons,
        hlk, Option.map_some', Option.isNone_some]
      rw [ih]
      simp
    | none =>
      simp only [List.foldl_cons, List.filterMap_cons, List.filter_cons,
        hlk, Option.map_none', Option.isNone_none]
      rw [ih]
      simp

/-- Closed form of task execution: results and cache writes in task
order. -/
theorem llmExecuteTasks_eq (llm : LlmKey → LlmMapping)
    (tasks : List ((Str × Str) × LlmKey))
    (start : List ((Str × Str) × LlmMapping) × LlmCache) :
    llmExecuteTasks llm start tasks =
      (start.1 ++ tasks.map (fun t => (t.1, llm t.2)),
       start.2 ++ tasks.map (fun t => (t.2, llm t.2))) := by
  unfold llmExecuteTasks
  induction tasks generalizing start with
  | nil => simp
  | cons t rest ih =>
    rw [List.foldl_cons]
    dsimp only
    rw [ih]
    simp

/-- Keys of a key-preserving `filterMap` form a sublist of the original
keys. -/
theorem filterMap_keys_sublist {α β κ : Type} (f : α → Option β)
    (key : α → κ) (keyb : β → κ)
    (hf : ∀ a b, f a = some b → keyb b = key a) :
    ∀ l : List α, List.Sublist ((l.filterMap f).map keyb) (l.map key) := by
  intro l
  induction l with
  | nil => simp
  | cons a rest ih =>
    rw [List.filterMap_cons]
    cases hfa : f a with
    | none =>
      rw [List.map_cons]
      exact List.Sublist.cons _ ih
    | some b =>
      rw [List.map_cons, List.map_cons, hf a b hfa]
      exact List.Sublist.cons₂ _ ih

/-- Claim C8: an unmatched flag group whose cache key (resource, relation,
sorted flag items, sorted field items, model) is present in the loaded
cache never becomes a resolver task -- so `run_llm_flag_mapping` is not
invoked for it -- and the mapping applied for that group is the cached
one. -/
theorem C8_theorem (rfm : List (Str × List (Str × Str))) (lm : Option Str)
    (cache : LlmCache) (groups : GroupMap) (llm : LlmKey → LlmMapping)
    (g : (Str × Str) × List (Str × Str)) (cached : LlmMapping)
    (hg : g ∈ groups) (hnd : (groups.map Prod.fst).Nodup)
    (hcache : lookupA (llmGroupPayload rfm lm g) cache = some cached) :
    (∀ t ∈ (llmHitsAndTasks rfm lm cache groups).2, t.1 ≠ g.1) ∧
    lookupA g.1 (llmExecuteTasks llm
      ((llmHitsAndTasks rfm lm cache groups).1, cache)
      (llmHitsAndTasks rfm lm cache groups).2).1 = some cached := by
  rw [llmHitsAndTasks_eq]
  constructor
  · intro t ht h1
    obtain ⟨g', hg', hte⟩ := List.mem_map.mp ht
    have hg'mem : g' ∈ groups := List.mem_of_mem_filter hg'
    have hkey : g'.1 = g.1 := by
      rw [← hte] at h1
      exact h1
    have hgg : g' = g := List.inj_on_of_nodup_map hnd hg'mem hg hkey
    have hpred := List.of_mem_filter hg'
    rw [hgg, hcache] at hpred
    cases hpred
  · rw [llmExecuteTasks_eq]
    dsimp only
    apply lookupA_append_left
    apply lookupA_eq_of_nodup
    · refine List.Nodup.sublist ?_ hnd
      refine filterMap_keys_sublist _ Prod.fst Prod.fst ?_ groups
      intro a b hb
      cases hlk : lookupA (llmGroupPayload rfm lm a) cache with
      | none =>
        rw [hlk] at hb
        cases hb
      | some c =>
        rw [hlk, Option.map_some'] at hb
        injection hb with hb2
        rw [← hb2]
    · refine List.mem_filterMap.mpr ⟨g, hg, ?_⟩
      rw [hcache]
      rfl

/-- The unmatched group of the C8 witness. -/
def c8g : (Str × Str) × List (Str × Str) :=
  ((str "projects", str "filters_by"), [(str "--x", str "a flag")])

/-- The field dictionary of the C8 witness. -/
def c8rfm : List (Str × List (Str × Str)) :=
  [(str "projects", [(str "f", str "attribute")])]

/-- The cached mapping of the C8 witness. -/
def c8mapping : LlmMapping := [(str "--x", some (str "f"))]

/-- A loaded cache already holding the witness group's key. -/
def c8cache : LlmCache := [(llmGroupPayload c8rfm none c8g, c8mapping)]

/-- Witness for C8 at a concrete cached group. -/
theorem C8_witness :
    (∀ t ∈ (llmHitsAndTasks c8rfm none c8cache [c8g]).2, t.1 ≠ c8g.1) ∧
    lookupA c8g.1 (llmExecuteTasks (fun _ => [])
      ((llmHitsAndTasks c8rfm none c8cache [c8g]).1, c8cache)
      (llmHitsAndTasks c8rfm none c8cache [c8g]).2).1 = some c8mapping :=
  C8_theorem c8rfm none c8cache [c8g] (fun _ => []) c8g c8mapping
    (List.Mem.head _) (by simp) (by simp [c8cache, lookupA])

/-! Claim C2: filter paths versus field links.  The filter-path build runs
BEFORE the field-link build of the same run, so its "unmatched" test sees
the field links of the PREVIOUS run, not the end-of-run table. -/

theorem foldl_invariant_mem {σ α : Type} {f : σ → α → σ} (P : σ → Prop)
    (l : List α) (h : ∀ s a, a ∈ l → P s → P (f s a)) :
    ∀ s, P s → P (l.foldl f s) := by
  induction l with
  | nil =>
    intro s hs
    exact hs
  | cons a rest ih =>
    intro s hs
    rw [List.foldl_cons]
    exact ih (fun s2 a2 ha2 hP => h s2 a2 (.tail _ ha2) hP) _
      (h s a (.head _) hs)

/-- Every row produced by step 2 carries the command id and flag name it
was invoked for. -/
theorem filterPathStep2_ids (paths : PathMap) (resource : Str)
    (candidates : List Str) (cid fname : Str) (modifier : Option Str) :
    ∀ r ∈ filterPathStep2 paths resource candidates cid fname modifier,
      r.command_id = cid ∧ r.flag_name = fname := by
  intro r hr
  unfold filterPathStep2 at hr
  split at hr
  · cases hr
  · obtain ⟨c, hc, hsome⟩ := List.mem_filterMap.mp hr
    split at hsome
    · injection hsome with h2
      subst h2
      exact ⟨rfl, rfl⟩
    · cases hsome

/-- Every row produced by step 3 carries the command id and flag name it
was invoked for. -/
theorem filterPathStep3_ids (paths : PathMap)
    (attribute_map : List (Str × List Str)) (resource base cid fname : Str)
    (modifier : Option Str) :
    ∀ r ∈ filterPathStep3 paths attribute_map resource base cid fname
        modifier,
      r.command_id = cid ∧ r.flag_name = fname := by
  intro r hr
  unfold filterPathStep3 at hr
  dsimp only at hr
  split at hr
  · cases hr
  · obtain ⟨p, hp, hsome⟩ := List.mem_filterMap.mp hr
    split at hsome
    · injection hsome with h2
      subst h2
      exact ⟨rfl, rfl⟩
    · cases hsome

/-- Every row produced for one unmapped flag carries that flag's command id
and name. -/
theorem filterPathRowsFor_ids (adjacency : Adjacency) (resources : List Str)
    (attribute_map : List (Str × List Str)) (maxHops : Nat)
    (cid fname res : Str) :
    ∀ r ∈ filterPathRowsFor adjacency resources attribute_map maxHops
        cid fname res,
      r.command_id = cid ∧ r.flag_name = fname := by
  intro r hr
  unfold filterPathRowsFor at hr
  dsimp only at hr
  split at hr
  · split at hr
    · obtain ⟨e, he, hsome⟩ := List.mem_filterMap.mp hr
      split at hsome
      · injection hsome with h2
        subst h2
        exact ⟨rfl, rfl⟩
      · cases hsome
    · split at hr
      · exact filterPathStep2_ids _ _ _ _ _ _ r hr
      · exact filterPathStep3_ids _ _ _ _ _ _ _ r hr
  · split at hr
    · split at hr
      · obtain ⟨e, he, hsome⟩ := List.mem_filterMap.mp hr
        split at hsome
        · injection hsome with h2
          subst h2
          exact ⟨rfl, rfl⟩
        · cases hsome
      · split at hr
        · exact filterPathStep2_ids _ _ _ _ _ _ r hr
        · exact filterPathStep3_ids _ _ _ _ _ _ _ r hr
    · split at hr
      · obtain ⟨e, he, hsome⟩ := List.mem_filterMap.mp hr
        split at hsome
        · injection hsome with h2
          subst h2
          exact ⟨rfl, rfl⟩
        · cases hsome
      · split at hr
        · exact filterPathStep2_ids _ _ _ _ _ _ r hr
        · exact filterPathStep3_ids _ _ _ _ _ _ _ r hr

/-- The filter-path build records rows only for flags with no matching
`command_field_links` row in the state it reads. -/
theorem build_command_filter_paths_disjoint (db : DB) (maxHops : Nat) :
    ∀ p ∈ (build_command_filter_paths db maxHops).command_filter_paths,
      ¬ ∃ l ∈ db.command_field_links,
        l.command_id = p.command_id ∧ l.flag_name = p.flag_name := by
  intro p hp
  unfold build_command_filter_paths at hp
  dsimp only at hp
  refine foldl_invariant_mem
    (fun t => ∀ x ∈ t, ¬ ∃ l ∈ db.command_field_links,
      l.command_id = x.command_id ∧ l.flag_name = x.flag_name) _ ?_ [] ?_
    p hp
  · intro s tr htr hP
    obtain ⟨fl, hfl, htr2⟩ := List.mem_flatMap.mp htr
    by_cases hex : ∃ cfl ∈ db.command_field_links,
        cfl.command_id = fl.command_id ∧ cfl.flag_name = fl.name
    · rw [if_pos hex] at htr2
      cases htr2
    · rw [if_neg hex] at htr2
      obtain ⟨crl, hcrl, hte⟩ := List.mem_map.mp htr2
      refine foldl_invariant_mem
        (fun t => ∀ x ∈ t, ¬ ∃ l ∈ db.command_field_links,
          l.command_id = x.command_id ∧ l.flag_name = x.flag_name) _ ?_ s hP
      intro t2 row hrow ht2 x hx
      rcases mem_insertIgnore hx with h | h
      · exact ht2 x h
      · subst h
        obtain ⟨hcid, hfn⟩ := filterPathRowsFor_ids _ _ _ _ _ _ _ x hrow
        rintro ⟨l, hl, hl1, hl2⟩
        apply hex
        refine ⟨l, hl, ?_, ?_⟩
        · rw [hl1, hcid, ← hte]
        · rw [hl2, hfn, ← hte]
  · rintro x hx
    cases hx

/-- At the end of a compile run, `command_filter_paths` is the table
written by `build_command_filter_paths` over the state after the summary
links build. -/
theorem runCompile_cfp (inp : CompileInputs) (st : CompileState) :
    (runCompile inp st).db.command_filter_paths =
      DB.command_filter_paths (build_command_filter_paths
        (build_command_summary_links
          (build_summary_dimensions_metrics inp.scan
            (build_command_resource_links inp.endpointOf
              (upsert_summary_map inp.summaryMap
                (upsert_resource_map inp.resourceMap st.db))))) 3) := by
  unfold runCompile
  dsimp only
  rw [(ingestArtifacts_frame _ _).2.2.2.2.2.1,
    (build_command_field_links_frame _ _ _ _ _).2.2.2.2.2.2.2]

/-- Claim C2 (amended): a `command_filter_paths` row present at the end of
a compile run has no matching (command_id, flag_name) row in the
`command_field_links` table as it stood at the START of that run -- the
filter-path build runs before the same run's field-link rebuild, so it is
the previous run's links it is disjoint from. -/
theorem C2_amended_theorem (inp : CompileInputs) (st : CompileState) :
    ∀ p ∈ (runCompile inp st).db.command_filter_paths,
      ¬ ∃ l ∈ st.db.command_field_links,
        l.command_id = p.command_id ∧ l.flag_name = p.flag_name := by
  intro p hp
  rw [runCompile_cfp] at hp
  have h := build_command_filter_paths_disjoint _ 3 p hp
  rwa [(build_command_summary_links_frame _).2.2.2.2.2.2.2.1,
    (build_summary_dimensions_metrics_frame _ _).2.2.2.2.2.2.2.1,
    (build_command_resource_links_frame _ _).2.2.2.2.2.2.1,
    (upsert_summary_map_frame _ _).2.2.2.2.2.2.2.1,
    (upsert_resource_map_frame _ _).2.2.2.2.1] at h

/-- Inputs of the C2 runs: two resources joined by an `owner`
relationship, no summaries, no artifacts, fallback disabled. -/
def c2inp : CompileInputs :=
  ⟨⟨[(str "projects", ⟨[], [], []⟩), (str "teams", ⟨[], [], []⟩)],
    [(str "projects", [(str "owner", [str "teams"])])]⟩, ⟨[]⟩, [],
    fun _ => none, fun _ => none, false, none, fun _ => []⟩

/-- Prior state of the C2 runs: one list command with an `--owner` flag and
no field links yet. -/
def c2st : CompileState :=
  ⟨{ emptyDB with
      commands := [⟨str "c1", str "view projects list", [], none, none,
        none⟩]
      flags := [⟨str "c1", str "--owner", none, false, str "string", [],
        none, none⟩] }, []⟩

/-- The direct-relationship filter-path row the C2 run records. -/
def c2row : CommandFilterPathRow :=
  ⟨str "c1", str "projects", str "--owner", str "owner", str "teams", none,
    1, str "rel", none, str "deterministic"⟩

/-- Witness for the amended C2 at a concrete compile run. -/
theorem C2_amended_witness :
    ¬ ∃ l ∈ c2st.db.command_field_links,
      l.command_id = c2row.command_id ∧ l.flag_name = c2row.flag_name :=
  C2_amended_theorem c2inp c2st c2row (by decide)

/-- Counterexample to the claimed end-of-run disjointness: the `--owner`
flag is unmatched when the filter-path build reads the pre-run (empty)
field links, so it gets a hop-1 path row, and the same run's subsequent
field-link build then matches `--owner` to the `owner` relationship field
-- at the end of the run the same (command, flag) appears in both
tables. -/
theorem C2_counterexample :
    ∃ p ∈ (runCompile c2inp c2st).db.command_filter_paths,
      ∃ l ∈ (runCompile c2inp c2st).db.command_field_links,
        l.command_id = p.command_id ∧ l.flag_name = p.flag_name := by
  decide

/-! Claim C5: the step-2 candidate set and the all-ties recording rule. -/

/-- Candidate set as the SPEC words it (section 4.3 step 2: "`base` or its
naive plural/singular candidate form names a resource"): the base, its
naive plural, and its naive singular (trailing `s` dropped), each kept when
it names a resource.  This definition follows the spec's words, for
comparison with the source's `candidate_resource_names`, which never forms
a singular. -/
def specCandidateNames (base : Str) (resources : List Str) : List Str :=
  ([base, pluralize_resource_name base,
    if (['s'] : Str).isSuffixOf base then base.dropLast else base]).filter
    fun c => decide (c ∈ resources)

/-- One-edge relationship graph `projects -owner-> team` used by the C5
theorems. -/
def c5adj : Adjacency :=
  [(['p', 'r', 'o', 'j', 'e', 'c', 't', 's'],
    [(['o', 'w', 'n', 'e', 'r'], ['t', 'e', 'a', 'm'])])]

/-- Membership characterization of the step-2 rows: with a defined minimum
hop count, exactly the candidates recorded in the path map at that hop
count produce a row -- every tie is recorded, and nothing else is. -/
theorem filterPathStep2_mem_iff (paths : PathMap) (resource : Str)
    (candidates : List Str) (cid fname : Str) (modifier : Option Str)
    (r : CommandFilterPathRow) :
    r ∈ filterPathStep2 paths resource candidates cid fname modifier ↔
      ∃ mh, minHopStep2 paths resource candidates = some mh ∧
        ∃ c ∈ candidates, memKey c paths ∧
          ((lookupA c paths).getD []).length = mh ∧
          r = ⟨cid, resource, fname, joinDot ((lookupA c paths).getD []), c,
            none, mh, str "rel_resource", modifier,
            str "deterministic"⟩ := by
  unfold filterPathStep2
  cases hm : minHopStep2 paths resource candidates with
  | none =>
    simp only [hm]
    constructor
    · intro h
      cases h
    · rintro ⟨mh, hmh, -⟩
      cases hmh
  | some mh0 =>
    simp only [hm]
    constructor
    · intro h
      obtain ⟨c, hc, hsome⟩ := List.mem_filterMap.mp h
      split at hsome
      · next hcond =>
        injection hsome with h2
        exact ⟨mh0, rfl, c, hc, hcond.1, hcond.2, h2.symm⟩
      · cases hsome
    · rintro ⟨mh, hmh, c, hc, hmem, hlen, hr⟩
      injection hmh with hmh2
      subst hmh2
      refine List.mem_filterMap.mpr ⟨c, hc, ?_⟩
      rw [if_pos ⟨hmem, hlen⟩, hr]

theorem mem_insertIgnore_of_mem {ρ κ : Type} [DecidableEq κ] {key : ρ → κ}
    {t : List ρ} {r x : ρ} (h : x ∈ t) : x ∈ insertIgnore key t r := by
  unfold insertIgnore
  split
  · exact h
  · exact List.mem_append_left _ h

/-- `INSERT OR IGNORE` always leaves a row with the inserted row's primary
key in the table. -/
theorem insertIgnore_key_present {ρ κ : Type} [DecidableEq κ] (key : ρ → κ)
    (t : List ρ) (r : ρ) : ∃ x ∈ insertIgnore key t r, key x = key r := by
  unfold insertIgnore
  split
  · next h => exact h
  · exact ⟨r, List.mem_append_right _ (.head _), rfl⟩

theorem insertIgnore_fold_mono {ρ κ : Type} [DecidableEq κ] (key : ρ → κ) :
    ∀ (L t : List ρ) (x : ρ), x ∈ t →
      x ∈ L.foldl (insertIgnore key) t := by
  intro L
  induction L with
  | nil =>
    intro t x h
    exact h
  | cons r L2 ih =>
    intro t x h
    rw [List.foldl_cons]
    exact ih _ x (mem_insertIgnore_of_mem h)

/-- An `INSERT OR IGNORE` fold adds no rows beyond the inserted list. -/
theorem insertIgnore_fold_sub {ρ κ : Type} [DecidableEq κ] (key : ρ → κ)
    (L t : List ρ) :
    ∀ x ∈ L.foldl (insertIgnore key) t, x ∈ t ∨ x ∈ L := by
  refine foldl_invariant_mem (fun T : List ρ => ∀ x ∈ T, x ∈ t ∨ x ∈ L) L
    ?_ t (fun x hx => Or.inl hx)
  intro T r hr hP x hx
  rcases mem_insertIgnore hx with h | h
  · exact hP x h
  · exact Or.inr (h ▸ hr)

/-- Every row handed to an `INSERT OR IGNORE` fold is represented in the
result up to primary key. -/
theorem insertIgnore_fold_keys {ρ κ : Type} [DecidableEq κ] (key : ρ → κ) :
    ∀ (L t : List ρ), ∀ r ∈ L,
      ∃ x ∈ L.foldl (insertIgnore key) t, key x = key r := by
  intro L
  induction L with
  | nil =>
    intro t r hr
    cases hr
  | cons a L2 ih =>
    intro t r hr
    rw [List.foldl_cons]
    cases hr with
    | head =>
      obtain ⟨y, hy, he⟩ := insertIgnore_key_present key t a
      exact ⟨y, insertIgnore_fold_mono key L2 _ y hy, he⟩
    | tail _ h2 => exact ih _ r h2

/-- Claim C5 (amended): in step 2 the resolver considers only the base and
its naive plural as candidate resource names -- no singular form.  When a
minimum hop count exists among the candidates it generates one
`rel_resource` row for exactly every candidate present in the
shortest-path map at that minimum hop count (ties are not broken at
generation), and the rows are then recorded `INSERT OR IGNORE` under the
table's primary key (command_id, flag_name, path): the table gains no
other rows, every generated row is represented up to that key, and two
generated rows share a key exactly when they share a path string -- so
tied candidates reached over one shared path collapse into a single
recorded row. -/
theorem C5_amended_theorem (paths : PathMap) (resource base : Str)
    (resources : List Str) (cid fname : Str) (modifier : Option Str)
    (t : List CommandFilterPathRow) :
    (∀ c ∈ candidate_resource_names base resources,
      c = base ∨ c = pluralize_resource_name base) ∧
    (∀ r, r ∈ filterPathStep2 paths resource
        (candidate_resource_names base resources) cid fname modifier ↔
      ∃ mh, minHopStep2 paths resource
          (candidate_resource_names base resources) = some mh ∧
        ∃ c ∈ candidate_resource_names base resources, memKey c paths ∧
          ((lookupA c paths).getD []).length = mh ∧
          r = ⟨cid, resource, fname, joinDot ((lookupA c paths).getD []), c,
            none, mh, str "rel_resource", modifier,
            str "deterministic"⟩) ∧
    (∀ x ∈ (filterPathStep2 paths resource
        (candidate_resource_names base resources) cid fname
        modifier).foldl (insertIgnore cfpKey) t,
      x ∈ t ∨ x ∈ filterPathStep2 paths resource
        (candidate_resource_names base resources) cid fname modifier) ∧
    (∀ r ∈ filterPathStep2 paths resource
        (candidate_resource_names base resources) cid fname modifier,
      ∃ x ∈ (filterPathStep2 paths resource
        (candidate_resource_names base resources) cid fname
        modifier).foldl (insertIgnore cfpKey) t,
        cfpKey x = cfpKey r) ∧
    (∀ r1 ∈ filterPathStep2 paths resource
        (candidate_resource_names base resources) cid fname modifier,
      ∀ r2 ∈ filterPathStep2 paths resource
        (candidate_resource_names base resources) cid fname modifier,
      (cfpKey r1 = cfpKey r2 ↔ r1.path = r2.path)) := by
  refine ⟨?_, ?_, ?_, ?_, ?_⟩
  · intro c hc
    unfold candidate_resource_names at hc
    dsimp only at hc
    split at hc
    · split at hc
      · rcases List.mem_append.mp hc with h | h
        · cases h with
          | head => exact Or.inl rfl
          | tail _ h2 => cases h2
        · cases h with
          | head => exact Or.inr rfl
          | tail _ h2 => cases h2
      · cases hc with
        | head => exact Or.inl rfl
        | tail _ h2 => cases h2
    · split at hc
      · rw [List.nil_append] at hc
        cases hc with
        | head => exact Or.inr rfl
        | tail _ h2 => cases h2
      · cases hc
  · intro r
    exact filterPathStep2_mem_iff paths resource _ cid fname modifier r
  · exact insertIgnore_fold_sub cfpKey _ t
  · exact insertIgnore_fold_keys cfpKey _ t
  · intro r1 h1 r2 h2
    obtain ⟨hc1, hf1⟩ := filterPathStep2_ids _ _ _ _ _ _ r1 h1
    obtain ⟨hc2, hf2⟩ := filterPathStep2_ids _ _ _ _ _ _ r2 h2
    constructor
    · intro h
      exact congrArg (fun p => p.2.2) h
    · intro h
      unfold cfpKey
      rw [hc1, hc2, hf1, hf2, h]

/-- Path map of the C5 amended witness: two tied candidates reached over
the one polymorphic relationship `owner`. -/
def c5paths2 : PathMap :=
  [(['t', 'e', 'a', 'm'], [['o', 'w', 'n', 'e', 'r']]),
   (['t', 'e', 'a', 'm', 's'], [['o', 'w', 'n', 'e', 'r']])]

/-- The tied `teams` row of the C5 amended witness; its key collapses with
the `team` row's. -/
def c5row2 : CommandFilterPathRow :=
  ⟨str "c1", str "projects", str "--team", str "owner", str "teams", none,
    1, str "rel_resource", none, str "deterministic"⟩

/-- Witness for the amended C5: with candidates `team` and `teams` both at
hop 1 over the shared path `owner`, the tied `teams` row is generated by
step 2 and is represented in the recorded table up to the primary key. -/
theorem C5_amended_witness :
    (c5row2 ∈ filterPathStep2 c5paths2 (str "projects")
      (candidate_resource_names (str "team")
        [str "projects", str "team", str "teams"])
      (str "c1") (str "--team") none) ∧
    ∃ x ∈ (filterPathStep2 c5paths2 (str "projects")
        (candidate_resource_names (str "team")
          [str "projects", str "team", str "teams"])
        (str "c1") (str "--team") none).foldl (insertIgnore cfpKey) [],
      cfpKey x = cfpKey c5row2 :=
  ⟨((C5_amended_theorem c5paths2 (str "projects") (str "team")
      [str "projects", str "team", str "teams"] (str "c1") (str "--team")
      none []).2.1 c5row2).mpr
    ⟨1, by decide, str "teams", by decide, by decide, by decide, by decide⟩,
   (C5_amended_theorem c5paths2 (str "projects") (str "team")
      [str "projects", str "team", str "teams"] (str "c1") (str "--team")
      none []).2.2.2.1 c5row2 (by decide)⟩

/-- Counterexample to the claimed singular candidate: for the flag
`--teams` on a `projects` list command, the spec-worded candidate set
contains the singular resource `team`, which is reachable at hop 1, yet
the resolver records nothing at all -- the code never forms a singular
candidate. -/
theorem C5_counterexample :
    ['t', 'e', 'a', 'm'] ∈ specCandidateNames (str "teams")
      [str "projects", str "team"] ∧
    lookupA ['t', 'e', 'a', 'm']
      (shortest_paths c5adj ['p', 'r', 'o', 'j', 'e', 'c', 't', 's'] 3) =
      some [['o', 'w', 'n', 'e', 'r']] ∧
    filterPathRowsFor c5adj [str "projects", str "team"] [] 3
      (str "c1") (str "--teams") (str "projects") = [] := by
  refine ⟨by decide, ?_, by decide⟩
  rw [shortest_paths, c5adj]
  simp +decide [bfsLoop, processNeighbors, adjGet, lookupA, lenOf, memKey]

/-! Claim C6: where the evidence cap of `resource_neighbor_scores` is
applied.  The SQL caps each component ROW at 10 and then sums; it does not
cap the per-(pair, kind) aggregate. -/

/-- The four shared-feature component kinds. -/
def sharedKinds : List Str :=
  [str "shared_command_field", str "shared_summary_dimension",
   str "shared_summary_metric", str "shared_filter_target"]

/-- The four feature kinds emitted by `resource_feature_links`. -/
def featureKinds : List Str :=
  [str "command_field", str "summary_dimension", str "summary_metric",
   str "filter_target"]

theorem firstOccur_nodup {α : Type} [DecidableEq α] (l : List α) :
    (firstOccur l).Nodup := by
  unfold firstOccur
  refine foldl_invariant (fun acc : List α => acc.Nodup) ?_ l []
    List.nodup_nil
  intro acc x hnd
  by_cases hx : x ∈ acc
  · rw [if_pos hx]
    exact hnd
  · rw [if_neg hx]
    rw [List.nodup_append]
    exact ⟨hnd, List.nodup_singleton x,
      fun y hy hz => by
        rw [List.mem_singleton] at hz
        exact hx (hz ▸ hy)⟩

theorem firstOccur_subset {α : Type} [DecidableEq α] (l : List α) :
    ∀ x ∈ firstOccur l, x ∈ l := by
  unfold firstOccur
  refine foldl_invariant_mem (fun acc : List α => ∀ x ∈ acc, x ∈ l) l ?_ []
    (by rintro x hx; cases hx)
  intro acc a ha hP x hx
  by_cases hmem : a ∈ acc
  · rw [if_pos hmem] at hx
    exact hP x hx
  · rw [if_neg hmem] at hx
    rcases List.mem_append.mp hx with h | h
    · exact hP x h
    · rw [List.mem_singleton] at h
      exact h ▸ ha

theorem length_filter_le_one {α : Type} {p : α → Bool} :
    ∀ {l : List α}, l.Nodup →
      (∀ x ∈ l, ∀ y ∈ l, p x = true → p y = true → x = y) →
      (l.filter p).length ≤ 1 := by
  intro l
  induction l with
  | nil =>
    intro _ _
    simp
  | cons a rest ih =>
    intro hnd h
    rw [List.nodup_cons] at hnd
    rw [List.filter_cons]
    split
    · next hpa =>
      have hrest : rest.filter p = [] := by
        rw [List.filter_eq_nil_iff]
        intro x hx hpx
        exact hnd.1 ((h x (.tail _ hx) a (.head _) hpx hpa) ▸ hx)
      rw [hrest]
      simp
    · exact ih hnd.2 fun x hx y hy hpx hpy =>
        h x (.tail _ hx) y (.tail _ hy) hpx hpy

theorem length_filter_filterMap_le {α β : Type} (f : α → Option β)
    (p : β → Bool) (q : α → Bool)
    (h : ∀ a b, f a = some b → p b = true → q a = true) :
    ∀ l : List α, ((l.filterMap f).filter p).length ≤
      (l.filter q).length := by
  intro l
  induction l with
  | nil => simp
  | cons a rest ih =>
    rw [List.filterMap_cons]
    cases hfa : f a with
    | none =>
      rw [List.filter_cons]
      by_cases hqa : q a = true
      · rw [if_pos hqa]
        have := ih
        simp only [List.length_cons]
        omega
      · rw [if_neg hqa]
        exact ih
    | some b =>
      rw [List.filter_cons, List.filter_cons]
      by_cases hpb : p b = true
      · rw [if_pos hpb, if_pos (h a b hfa hpb)]
        have := ih
        simp only [List.length_cons]
        omega
      · rw [if_neg hpb]
        by_cases hqa : q a = true
        · rw [if_pos hqa]
          have := ih
          simp only [List.length_cons]
          omega
        · rw [if_neg hqa]
          exact ih

theorem lexLe_antisymm : ∀ {a b : Str}, lexLe a b = true →
    lexLe b a = true → a = b
  | [], [], _, _ => rfl
  | [], _ :: _, _, h2 => by rw [lexLe] at h2; cases h2
  | _ :: _, [], h1, _ => by rw [lexLe] at h1; cases h1
  | c :: cs, d :: ds, h1, h2 => by
    rw [lexLe] at h1 h2
    by_cases hcd : c = d
    · subst hcd
      rw [if_pos rfl] at h1 h2
      rw [lexLe_antisymm h1 h2]
    · rw [if_neg hcd] at h1
      rw [if_neg (Ne.symm hcd)] at h2
      exact absurd (lt_trans (of_decide_eq_true h1) (of_decide_eq_true h2))
        (lt_irrefl c)

theorem lexLt_asymm {a b : Str} (h : lexLt a b = true) :
    lexLt b a = false := by
  unfold lexLt at h ⊢
  rw [Bool.and_eq_true] at h
  cases hba : lexLe b a with
  | false => rw [Bool.false_and]
  | true =>
    have he := lexLe_antisymm h.1 hba
    subst he
    rw [beq_self_eq_true] at h
    cases h.2

/-- Every feature-link row carries one of the four feature kinds. -/
theorem resource_feature_links_kind (db : DB) :
    ∀ r ∈ resource_feature_links db, r.feature_kind ∈ featureKinds := by
  intro r hr
  unfold resource_feature_links at hr
  rcases List.mem_append.mp hr with h | h
  · rcases List.mem_append.mp h with h2 | h2
    · rcases List.mem_append.mp h2 with h3 | h3
      · obtain ⟨x, hx, he⟩ := List.mem_map.mp h3
        rw [← he]
        exact (by decide : str "command_field" ∈ featureKinds)
      · obtain ⟨x, hx, he⟩ := List.mem_map.mp h3
        rw [← he]
        exact (by decide : str "summary_dimension" ∈ featureKinds)
    · obtain ⟨x, hx, he⟩ := List.mem_map.mp h2
      rw [← he]
      exact (by decide : str "summary_metric" ∈ featureKinds)
  · obtain ⟨x, hx, he⟩ := List.mem_map.mp h
    rw [← he]
    exact (by decide : str "filter_target" ∈ featureKinds)

/-- Every key of the similarity join pairs lexicographically increasing
resources and carries a feature kind. -/
theorem similarityJoined_char (db : DB) :
    ∀ k ∈ similarityJoined db,
      lexLt k.1 k.2.1 = true ∧ k.2.2 ∈ featureKinds := by
  intro k hk
  unfold similarityJoined at hk
  obtain ⟨x, hx, hk2⟩ := List.mem_flatMap.mp hk
  obtain ⟨y, hy, hsome⟩ := List.mem_filterMap.mp hk2
  split at hsome
  · next hcond =>
    injection hsome with he
    subst he
    refine ⟨hcond.2.2.2, ?_⟩
    unfold distinctFeatures at hx
    have hx2 := firstOccur_subset _ _ hx
    obtain ⟨r, hr, he2⟩ := List.mem_map.mp hx2
    have := resource_feature_links_kind db r hr
    rw [← he2]
    exact this
  · cases hsome

/-- Component rows of the `direct_components` CTE never carry a shared
kind. -/
theorem directComponents_kind (db : DB) :
    ∀ c ∈ directComponents db, c.component_kind ∉ sharedKinds := by
  intro c hc
  unfold directComponents at hc
  rcases List.mem_append.mp hc with h | h
  · obtain ⟨e, he, he2⟩ := List.mem_map.mp h
    rw [← he2]
    dsimp only
    split
    · exact (by decide : str "summary" ∉ sharedKinds)
    · exact (by decide : str "relationship" ∉ sharedKinds)
  · obtain ⟨r, hr, he2⟩ := List.mem_map.mp h
    rw [← he2]
    exact (by decide : str "filter_path" ∉ sharedKinds)

/-- `mapSharedKind` is injective on the four feature kinds. -/
theorem mapSharedKind_inj :
    ∀ kx ∈ featureKinds, ∀ ky ∈ featureKinds,
      mapSharedKind kx = mapSharedKind ky → kx = ky := by
  decide

/-- Two similarity keys agreeing on pair and shared kind are equal. -/
theorem simKeys_unique (db : DB) (a b sk : Str) :
    ∀ x ∈ firstOccur (similarityJoined db),
    ∀ y ∈ firstOccur (similarityJoined db),
      (x.1 = a ∧ x.2.1 = b ∧ mapSharedKind x.2.2 = sk) →
      (y.1 = a ∧ y.2.1 = b ∧ mapSharedKind y.2.2 = sk) → x = y := by
  intro x hx y hy hx2 hy2
  have hxc := similarityJoined_char db x (firstOccur_subset _ x hx)
  have hyc := similarityJoined_char db y (firstOccur_subset _ y hy)
  have h33 : x.2.2 = y.2.2 :=
    mapSharedKind_inj x.2.2 hxc.2 y.2.2 hyc.2 (hx2.2.2.trans hy2.2.2.symm)
  rcases x with ⟨x1, x2, x3⟩
  rcases y with ⟨y1, y2, y3⟩
  dsimp only at hx2 hy2 h33
  rw [hx2.1, hx2.2.1, h33, ← hy2.1, ← hy2.2.1]

/-- Two reversed similarity keys agreeing on pair and shared kind are
equal. -/
theorem simKeys_unique_rev (db : DB) (a b sk : Str) :
    ∀ x ∈ firstOccur (similarityJoined db),
    ∀ y ∈ firstOccur (similarityJoined db),
      (x.2.1 = a ∧ x.1 = b ∧ mapSharedKind x.2.2 = sk) →
      (y.2.1 = a ∧ y.1 = b ∧ mapSharedKind y.2.2 = sk) → x = y := by
  intro x hx y hy hx2 hy2
  have hxc := similarityJoined_char db x (firstOccur_subset _ x hx)
  have hyc := similarityJoined_char db y (firstOccur_subset _ y hy)
  have h33 : x.2.2 = y.2.2 :=
    mapSharedKind_inj x.2.2 hxc.2 y.2.2 hyc.2 (hx2.2.2.trans hy2.2.2.symm)
  rcases x with ⟨x1, x2, x3⟩
  rcases y with ⟨y1, y2, y3⟩
  dsimp only at hx2 hy2 h33
  rw [hx2.1, hx2.2.1, h33, ← hy2.1, ← hy2.2.1]

/-- Filtered symmetric components for an ordered pair: empty unless the
pair increases lexicographically, and never more than one row per shared
kind. -/
theorem sym_filter_len (db : DB) (a b sk : Str) :
    (lexLt a b = false →
      (symmetricComponents db).filter (fun c =>
        decide (c.source_resource = a ∧ c.target_resource = b ∧
          c.component_kind = sk)) = []) ∧
    ((symmetricComponents db).filter (fun c =>
      decide (c.source_resource = a ∧ c.target_resource = b ∧
        c.component_kind = sk))).length ≤ 1 := by
  constructor
  · intro hab
    rw [List.filter_eq_nil_iff]
    intro c hc hq
    have hq2 := of_decide_eq_true hq
    unfold symmetricComponents at hc
    obtain ⟨r, hr, he⟩ := List.mem_map.mp hc
    unfold resource_feature_similarity at hr
    obtain ⟨k, hk, he2⟩ := List.mem_map.mp hr
    have hchar := similarityJoined_char db k (firstOccur_subset _ k hk)
    rw [← he, ← he2] at hq2
    dsimp only at hq2
    rw [hq2.1, hq2.2.1] at hchar
    rw [hchar.1] at hab
    cases hab
  · unfold symmetricComponents resource_feature_similarity
    rw [List.filter_map, List.length_map, List.filter_map, List.length_map]
    refine length_filter_le_one (firstOccur_nodup _) ?_
    intro x hx y hy hpx hpy
    have hx2 : x.1 = a ∧ x.2.1 = b ∧ mapSharedKind x.2.2 = sk :=
      of_decide_eq_true hpx
    have hy2 : y.1 = a ∧ y.2.1 = b ∧ mapSharedKind y.2.2 = sk :=
      of_decide_eq_true hpy
    exact simKeys_unique db a b sk x hx y hy hx2 hy2

/-- Filtered reversed symmetric components for an ordered pair: empty when
the pair increases lexicographically, and never more than one row per
shared kind. -/
theorem rev_filter_len (db : DB) (a b sk : Str) :
    (lexLt a b = true →
      ((symmetricComponents db).map (fun c =>
        (⟨c.target_resource, c.source_resource, c.component_kind,
          c.component_count, c.detail⟩ : ComponentRow))).filter (fun c =>
        decide (c.source_resource = a ∧ c.target_resource = b ∧
          c.component_kind = sk)) = []) ∧
    (((symmetricComponents db).map (fun c =>
      (⟨c.target_resource, c.source_resource, c.component_kind,
        c.component_count, c.detail⟩ : ComponentRow))).filter (fun c =>
      decide (c.source_resource = a ∧ c.target_resource = b ∧
        c.component_kind = sk))).length ≤ 1 := by
  constructor
  · intro hab
    rw [List.filter_eq_nil_iff]
    intro c hc hq
    have hq2 := of_decide_eq_true hq
    obtain ⟨r0, hr0, he0⟩ := List.mem_map.mp hc
    unfold symmetricComponents at hr0
    obtain ⟨r, hr, he⟩ := List.mem_map.mp hr0
    unfold resource_feature_similarity at hr
    obtain ⟨k, hk, he2⟩ := List.mem_map.mp hr
    have hchar := similarityJoined_char db k (firstOccur_subset _ k hk)
    rw [← he0, ← he, ← he2] at hq2
    dsimp only at hq2
    rw [hq2.2.1, hq2.1] at hchar
    rw [lexLt_asymm hab] at hchar
    cases hchar.1
  · unfold symmetricComponents resource_feature_similarity
    rw [List.filter_map, List.length_map, List.filter_map, List.length_map,
      List.filter_map, List.length_map]
    refine length_filter_le_one (firstOccur_nodup _) ?_
    intro x hx y hy hpx hpy
    have hx2 : x.2.1 = a ∧ x.1 = b ∧ mapSharedKind x.2.2 = sk :=
      of_decide_eq_true hpx
    have hy2 : y.2.1 = a ∧ y.1 = b ∧ mapSharedKind y.2.2 = sk :=
      of_decide_eq_true hpy
    exact simKeys_unique_rev db a b sk x hx y hy hx2 hy2

/-- For a shared kind, at most one component row matches an ordered
resource pair. -/
theorem components_filter_le_one (db : DB) (a b sk : Str)
    (hsk : sk ∈ sharedKinds) :
    ((resource_neighbor_components db).filter (fun c =>
      decide (c.source_resource = a ∧ c.target_resource = b ∧
        c.component_kind = sk))).length ≤ 1 := by
  have hd : (directComponents db).filter (fun c =>
      decide (c.source_resource = a ∧ c.target_resource = b ∧
        c.component_kind = sk)) = [] := by
    rw [List.filter_eq_nil_iff]
    intro c hc hq
    have h3 := of_decide_eq_true hq
    exact directComponents_kind db c hc (h3.2.2 ▸ hsk)
  unfold resource_neighbor_components
  rw [List.filter_append, List.filter_append, List.length_append,
    List.length_append, hd, List.length_nil]
  by_cases hab : lexLt a b = true
  · have h1 := (rev_filter_len db a b sk).1 hab
    rw [h1, List.length_nil]
    have h2 := (sym_filter_len db a b sk).2
    omega
  · have h1 := (sym_filter_len db a b sk).1 (by
      rwa [Bool.not_eq_true] at hab)
    rw [h1, List.length_nil]
    have h2 := (rev_filter_len db a b sk).2
    omega

/-- Every capped component count is at most 10. -/
theorem cappedComponents_le (db : DB) :
    ∀ c ∈ cappedComponents db, c.component_count ≤ 10 := by
  intro c hc
  unfold cappedComponents at hc
  obtain ⟨c0, hc0, he⟩ := List.mem_map.mp hc
  rw [← he]
  dsimp only
  split
  · omega
  · omega

/-- Every scored component's row is a capped component row. -/
theorem scoredComponents_mem (db : DB) :
    ∀ p ∈ scoredComponents db, p.1 ∈ cappedComponents db := by
  intro p hp
  unfold scoredComponents at hp
  obtain ⟨c, hc, hsome⟩ := List.mem_filterMap.mp hp
  cases hlk : lookupA c.component_kind weights with
  | none =>
    rw [hlk] at hsome
    cases hsome
  | some w =>
    rw [hlk, Option.map_some'] at hsome
    injection hsome with he
    rw [← he]
    exact hc

theorem sum_le_ten (L : List (ComponentRow × ℚ))
    (h1 : ∀ p ∈ L, p.1.component_count ≤ 10) (h2 : L.length ≤ 1) :
    (L.map fun p => p.1.component_count).sum ≤ 10 := by
  cases L with
  | nil => simp
  | cons p rest =>
    cases rest with
    | nil =>
      simp only [List.map_cons, List.map_nil, List.sum_cons, List.sum_nil]
      have := h1 p (.head _)
      omega
    | cons q rest2 =>
      simp only [List.length_cons] at h2
      omega

/-- Claim C6 (amended): the evidence cap of `resource_neighbor_scores` is
applied per component ROW, not per (pair, kind) aggregate: every capped
component count is at most 10, and for the four shared_* kinds -- which
have at most one component row per ordered pair -- the per-(pair, kind)
total is also at most 10.  (For `relationship`, `summary` and
`filter_path` the per-pair total can exceed 10; see the
counterexample.) -/
theorem C6_amended_theorem (db : DB) (a b : Str) :
    (∀ c ∈ cappedComponents db, c.component_count ≤ 10) ∧
    (∀ sk ∈ sharedKinds, pairKindCount db a b sk ≤ 10) := by
  refine ⟨cappedComponents_le db, ?_⟩
  intro sk hsk
  unfold pairKindCount
  apply sum_le_ten
  · intro p hp
    exact cappedComponents_le db p.1
      (scoredComponents_mem db p (List.mem_of_mem_filter hp))
  · have hstep : ∀ (c : ComponentRow) (p : ComponentRow × ℚ),
        (lookupA c.component_kind weights).map ((c, ·)) = some p →
        decide (p.1.source_resource = a ∧ p.1.target_resource = b ∧
          p.1.component_kind = sk) = true →
        decide (c.source_resource = a ∧ c.target_resource = b ∧
          c.component_kind = sk) = true := by
      intro c p hf hp
      cases hlk : lookupA c.component_kind weights with
      | none =>
        rw [hlk] at hf
        cases hf
      | some w =>
        rw [hlk, Option.map_some'] at hf
        injection hf with he
        rw [← he] at hp
        exact hp
    have h1 := length_filter_filterMap_le _ _ _ hstep (cappedComponents db)
    have h2 : ((cappedComponents db).filter (fun c : ComponentRow =>
        decide (c.source_resource = a ∧ c.target_resource = b ∧
          c.component_kind = sk))).length =
        ((resource_neighbor_components db).filter (fun c : ComponentRow =>
        decide (c.source_resource = a ∧ c.target_resource = b ∧
          c.component_kind = sk))).length := by
      unfold cappedComponents
      rw [List.filter_map, List.length_map]
      congr 1
    have h3 := components_filter_le_one db a b sk hsk
    unfold scoredComponents
    exact le_trans h1 (h2.trans_le h3)

/-- Store with eleven distinct relationship edges from `a` to `b`. -/
def c6db : DB :=
  { emptyDB with
    resource_field_targets :=
      ([['c'], ['d'], ['e'], ['f'], ['g'], ['h'], ['i'], ['j'], ['k'],
        ['l'], ['m']] : List Str).map fun f => ⟨['a'], f, ['b']⟩ }

/-- Counterexample to the per-aggregate cap: eleven distinct relationship
edges from `a` to `b` each form their own component row of count 1, so the
summed relationship evidence for the pair is 11 -- the cap applies per
row, never to the per-(pair, kind) aggregate. -/
theorem C6_counterexample :
    pairKindCount c6db ['a'] ['b'] (str "relationship") = 11 ∧
    ∃ r ∈ resource_neighbor_scores c6db, r.relationship_count = 11 :=
  ⟨by decide, by decide⟩

/-- A component row of the C6 witness store. -/
def c6x : ComponentRow := ⟨['a'], ['b'], str "relationship", 1, some ['c']⟩

/-- Witness for the amended C6 at a concrete store. -/
theorem C6_amended_witness :
    c6x.component_count ≤ 10 ∧
    pairKindCount c6db ['a'] ['b'] (str "shared_command_field") ≤ 10 :=
  ⟨(C6_amended_theorem c6db ['a'] ['b']).1 c6x (by decide),
   (C6_amended_theorem c6db ['a'] ['b']).2 (str "shared_command_field")
     (by decide)⟩

/-! Claim C1: run-to-run behaviour of the derived tables.  Ingestion runs
AFTER the derived builds, so the first run builds from the pre-ingest
commands; the tables converge over later runs. -/

/-- Normal form of a delete-then-append fold (the `INSERT OR REPLACE` /
delete-reinsert pattern of `upsert_artifact`): surviving old rows followed
by the freshly built rows. -/
theorem da_norm {ρ α κ : Type} [DecidableEq κ] (key : ρ → κ) (aid : α → κ)
    (step : List ρ → α → List ρ)
    (hstep : ∀ t a, step t a =
      t.filter (fun r => ¬ key r = aid a) ++ step [] a) :
    ∀ (A : List α) (t : List ρ),
      A.foldl step t =
        t.filter (fun r => decide (∀ a ∈ A, ¬ key r = aid a)) ++
          A.foldl step [] := by
  intro A
  induction A with
  | nil =>
    intro t
    simp only [List.foldl_nil, List.append_nil]
    exact (List.filter_eq_self.mpr fun r _ =>
      decide_eq_true fun a ha => absurd ha (List.not_mem_nil a)).symm
  | cons a A2 ih =>
    intro t
    rw [List.foldl_cons, ih (step t a), hstep t a, List.filter_append,
      List.foldl_cons, ih (step [] a), List.append_assoc]
    congr 1
    rw [List.filter_filter]
    apply List.filter_congr
    intro r _
    simp [List.forall_mem_cons, Bool.and_comm]

/-- Every row built by the delete-then-append fold from an empty table
carries the key of one of the artifacts. -/
theorem da_keys {ρ α κ : Type} [DecidableEq κ] (key : ρ → κ) (aid : α → κ)
    (step : List ρ → α → List ρ)
    (hstep : ∀ t a, step t a =
      t.filter (fun r => ¬ key r = aid a) ++ step [] a)
    (hrows : ∀ a r, r ∈ step [] a → key r = aid a) :
    ∀ (A : List α), ∀ r ∈ A.foldl step [], ∃ a ∈ A, key r = aid a := by
  intro A
  refine foldl_invariant_mem
    (fun t : List ρ => ∀ r ∈ t, ∃ a ∈ A, key r = aid a) A ?_ []
    (by rintro r hr; cases hr)
  intro s b hb hP r hr
  rw [hstep s b] at hr
  rcases List.mem_append.mp hr with h | h
  · exact hP r (List.mem_of_mem_filter h)
  · exact ⟨b, hb, hrows b r h⟩

/-- The delete-then-append fold is idempotent: re-upserting the same
artifacts leaves the table unchanged. -/
theorem da_idem {ρ α κ : Type} [DecidableEq κ] (key : ρ → κ) (aid : α → κ)
    (step : List ρ → α → List ρ)
    (hstep : ∀ t a, step t a =
      t.filter (fun r => ¬ key r = aid a) ++ step [] a)
    (hrows : ∀ a r, r ∈ step [] a → key r = aid a) :
    ∀ (A : List α) (t : List ρ),
      A.foldl step (A.foldl step t) = A.foldl step t := by
  intro A t
  conv_lhs => rw [da_norm key aid step hstep A (A.foldl step t)]
  conv_lhs => rw [da_norm key aid step hstep A t]
  rw [List.filter_append]
  have h1 : (t.filter (fun r => decide (∀ a ∈ A, ¬ key r = aid a))).filter
      (fun r => decide (∀ a ∈ A, ¬ key r = aid a)) =
      t.filter (fun r => decide (∀ a ∈ A, ¬ key r = aid a)) := by
    rw [List.filter_filter]
    apply List.filter_congr
    intro r _
    rw [Bool.and_self]
  have h2 : (A.foldl step []).filter
      (fun r => decide (∀ a ∈ A, ¬ key r = aid a)) = [] := by
    rw [List.filter_eq_nil_iff]
    intro r hr hpred
    obtain ⟨a, ha, hk⟩ := da_keys key aid step hstep hrows A r hr
    exact (of_decide_eq_true hpred) a ha hk
  rw [h1, h2, List.append_nil, ← da_norm key aid step hstep A t]

/-- Skipping `none` entries of a fold equals folding over the `some`s. -/
theorem foldl_option_skip {σ α : Type} (g : σ → α → σ) :
    ∀ (files : List (Option α)) (s : σ),
      files.foldl (fun t file => match file with
        | none => t
        | some a => g t a) s = (files.filterMap id).foldl g s := by
  intro files
  induction files with
  | nil =>
    intro s
    rfl
  | cons f rest ih =>
    intro s
    cases f with
    | none =>
      rw [List.foldl_cons]
      have h : List.filterMap id (none :: rest) = List.filterMap id rest :=
        rfl
      rw [h]
      exact ih s
    | some a =>
      rw [List.foldl_cons]
      have h : List.filterMap id (some a :: rest) =
          a :: List.filterMap id rest := rfl
      rw [h, List.foldl_cons]
      exact ih (g s a)

/-- The `commands` table after artifact ingestion, as a delete-then-append
fold over the valid artifacts. -/
theorem ingest_commands (files : List (Option CommandArtifact)) (db : DB) :
    (ingestArtifacts files db).1.commands =
      (files.filterMap id).foldl (fun t a =>
        t.filter (fun c => ¬ c.id = a.id) ++
          [⟨a.id, a.full_path, a.description, a.permissions, a.side_effects,
            a.validation_notes⟩]) db.commands := by
  unfold ingestArtifacts
  rw [← foldl_option_skip]
  refine foldl_rel (fun acc (t : List CommandRow) => acc.1.commands = t) ?_
    files (db, 0, 0) db.commands rfl
  intro s t file hR
  cases file with
  | none => exact hR
  | some a =>
    dsimp only
    rw [← hR]
    rfl

/-- The `flags` table after artifact ingestion. -/
theorem ingest_flags (files : List (Option CommandArtifact)) (db : DB) :
    (ingestArtifacts files db).1.flags =
      (files.filterMap id).foldl (fun t a =>
        t.filter (fun f => ¬ f.command_id = a.id) ++
          a.flags.map (fun f =>
            ⟨a.id, f.name,
              (match f.aliases with
                | none => none
                | some [] => none
                | some l => some l),
              f.required, f.type, f.description, f.default, f.validation⟩))
        db.flags := by
  unfold ingestArtifacts
  rw [← foldl_option_skip]
  refine foldl_rel (fun acc (t : List FlagRow) => acc.1.flags = t) ?_
    files (db, 0, 0) db.flags rfl
  intro s t file hR
  cases file with
  | none => exact hR
  | some a =>
    dsimp only
    rw [← hR]
    rfl

/-- The `sources` table after artifact ingestion. -/
theorem ingest_sources (files : List (Option CommandArtifact)) (db : DB) :
    (ingestArtifacts files db).1.sources =
      (files.filterMap id).foldl (fun t a =>
        t.filter (fun s => ¬ s.command_id = a.id) ++
          a.sources.map (fun s => ⟨a.id, s.repo_name, s.file_path⟩))
        db.sources := by
  unfold ingestArtifacts
  rw [← foldl_option_skip]
  refine foldl_rel (fun acc (t : List SourceRow) => acc.1.sources = t) ?_
    files (db, 0, 0) db.sources rfl
  intro s t file hR
  cases file with
  | none => exact hR
  | some a =>
    dsimp only
    rw [← hR]
    rfl

/-- `commands` at the end of a run: ingest of the start state's table. -/
theorem runCompile_commands (inp : CompileInputs) (st : CompileState) :
    (runCompile inp st).db.commands =
      (inp.artifacts.filterMap id).foldl (fun t a =>
        t.filter (fun c => ¬ c.id = a.id) ++
          [⟨a.id, a.full_path, a.description, a.permissions, a.side_effects,
            a.validation_notes⟩]) st.db.commands := by
  unfold runCompile
  dsimp only
  rw [ingest_commands]
  congr 1
  rw [(build_command_field_links_frame _ _ _ _ _).1,
    (build_command_filter_paths_frame _ _).1,
    (build_command_summary_links_frame _).1,
    (build_summary_dimensions_metrics_frame _ _).1,
    (build_command_resource_links_frame _ _).1,
    (upsert_summary_map_frame _ _).1,
    (upsert_resource_map_frame _ _).1]

/-- `flags` at the end of a run: ingest of the start state's table. -/
theorem runCompile_flags (inp : CompileInputs) (st : CompileState) :
    (runCompile inp st).db.flags =
      (inp.artifacts.filterMap id).foldl (fun t a =>
        t.filter (fun f => ¬ f.command_id = a.id) ++
          a.flags.map (fun f =>
            ⟨a.id, f.name,
              (match f.aliases with
                | none => none
                | some [] => none
                | some l => some l),
              f.required, f.type, f.description, f.default, f.validation⟩))
        st.db.flags := by
  unfold runCompile
  dsimp only
  rw [ingest_flags]
  congr 1
  rw [(build_command_field_links_frame _ _ _ _ _).2.1,
    (build_command_filter_paths_frame _ _).2.1,
    (build_command_summary_links_frame _).2.1,
    (build_summary_dimensions_metrics_frame _ _).2.1,
    (build_command_resource_links_frame _ _).2.1,
    (upsert_summary_map_frame _ _).2.1,
    (upsert_resource_map_frame _ _).2.1]

/-- `sources` at the end of a run: ingest of the start state's table. -/
theorem runCompile_sources (inp : CompileInputs) (st : CompileState) :
    (runCompile inp st).db.sources =
      (inp.artifacts.filterMap id).foldl (fun t a =>
        t.filter (fun s => ¬ s.command_id = a.id) ++
          a.sources.map (fun s => ⟨a.id, s.repo_name, s.file_path⟩))
        st.db.sources := by
  unfold runCompile
  dsimp only
  rw [ingest_sources]
  congr 1
  rw [(build_command_field_links_frame _ _ _ _ _).2.2.1,
    (build_command_filter_paths_frame _ _).2.2.1,
    (build_command_summary_links_frame _).2.2.1,
    (build_summary_dimensions_metrics_frame _ _).2.2.1,
    (build_command_resource_links_frame _ _).2.2.1,
    (upsert_summary_map_frame _ _).2.2.1,
    (upsert_resource_map_frame _ _).2.2.1]

/-- The schema state rebuilt from the two maps alone; every run's map
tables equal these regardless of the starting database. -/
def schemaDB (inp : CompileInputs) : DB :=
  upsert_summary_map inp.summaryMap (upsert_resource_map inp.resourceMap
    emptyDB)

/-- The `command_resource_links` table one run builds, as a function of
the start state's `commands` and `sources`. -/
def crlF (inp : CompileInputs) (commands : List CommandRow)
    (sources : List SourceRow) : List CommandResourceLinkRow :=
  commands.foldl (classifyCommand inp.endpointOf
    ((schemaDB inp).resources.map (·.name))
    (sources.foldl (fun d row =>
      if row.repo_name = str "cli" then
        dictAppend d row.command_id row.file_path
      else d) [])) []

/-- The first six pipeline stages of one run (everything before the
field-link build). -/
def pipe6 (inp : CompileInputs) (d : DB) : DB :=
  build_command_filter_paths
    (build_command_summary_links
      (build_summary_dimensions_metrics inp.scan
        (build_command_resource_links inp.endpointOf
          (upsert_summary_map inp.summaryMap
            (upsert_resource_map inp.resourceMap d))))) 3

/-- The `command_filter_paths` table one run builds, as a function of the
start state's `flags` and `command_field_links` and the run's fresh
`command_resource_links`. -/
def cfpX (inp : CompileInputs) (flags : List FlagRow)
    (cfl : List CommandFieldLinkRow) (crl : List CommandResourceLinkRow) :
    List CommandFilterPathRow :=
  (build_command_filter_paths
    { schemaDB inp with
        flags := flags
        command_field_links := cfl
        command_resource_links := crl } 3).command_filter_paths

/-- The schema state with the run's summary dimensions and metrics. -/
def sdDB (inp : CompileInputs) : DB :=
  build_summary_dimensions_metrics inp.scan (schemaDB inp)

/-- The `command_summary_dimensions` table one run builds. -/
def csdX (inp : CompileInputs) (crl : List CommandResourceLinkRow) :
    List CommandSummaryDimensionRow :=
  DB.command_summary_dimensions (build_command_summary_links
    { sdDB inp with command_resource_links := crl })

/-- The `command_summary_metrics` table one run builds. -/
def csmX (inp : CompileInputs) (crl : List CommandResourceLinkRow) :
    List CommandSummaryMetricRow :=
  DB.command_summary_metrics (build_command_summary_links
    { sdDB inp with command_resource_links := crl })

/-- The field-link build over the canonical schema state, as a function of
the start state's `flags`, the run's `command_resource_links` and the
loaded cache; returns the built table and the updated cache. -/
def cflX (inp : CompileInputs) (flags : List FlagRow)
    (crl : List CommandResourceLinkRow) (cache : LlmCache) :
    List CommandFieldLinkRow × LlmCache :=
  ((build_command_field_links inp.llmEnabled inp.llmModel inp.llm cache
    { schemaDB inp with
        flags := flags
        command_resource_links := crl }).1.command_field_links,
   (build_command_field_links inp.llmEnabled inp.llmModel inp.llm cache
    { schemaDB inp with
        flags := flags
        command_resource_links := crl }).2)

theorem pipe6_cfp (inp : CompileInputs) (d : DB) :
    (pipe6 inp d).command_filter_paths =
      cfpX inp d.flags d.command_field_links
        (crlF inp d.commands d.sources) := rfl

theorem pipe6_csd (inp : CompileInputs) (d : DB) :
    (pipe6 inp d).command_summary_dimensions =
      csdX inp (crlF inp d.commands d.sources) := rfl

theorem pipe6_csm (inp : CompileInputs) (d : DB) :
    (pipe6 inp d).command_summary_metrics =
      csmX inp (crlF inp d.commands d.sources) := rfl

/-- The field-link build reads only `flags`, `resource_fields` and
`command_resource_links` of its state. -/
theorem bcfl_congr (le : Bool) (lm : Option Str) (llm : LlmKey → LlmMapping)
    (cache : LlmCache) {d1 d2 : DB}
    (h1 : d1.flags = d2.flags) (h2 : d1.resource_fields = d2.resource_fields)
    (h3 : d1.command_resource_links = d2.command_resource_links) :
    (build_command_field_links le lm llm cache d1).1.command_field_links =
      (build_command_field_links le lm llm cache d2).1.command_field_links ∧
    (build_command_field_links le lm llm cache d1).2 =
      (build_command_field_links le lm llm cache d2).2 := by
  unfold build_command_field_links
  dsimp only
  rw [h1, h2, h3]
  constructor
  · split
    · rfl
    · rfl
  · split
    · rfl
    · rfl

/-- The field-link build leaves the summary tables untouched. -/
theorem build_command_field_links_frame2 (le : Bool) (lm : Option Str)
    (llm : LlmKey → LlmMapping) (cache : LlmCache) (db : DB) :
    (build_command_field_links le lm llm cache db).1.command_summary_dimensions
      = db.command_summary_dimensions ∧
    (build_command_field_links le lm llm cache db).1.command_summary_metrics
      = db.command_summary_metrics ∧
    (build_command_field_links le lm llm cache db).1.summary_dimensions
      = db.summary_dimensions ∧
    (build_command_field_links le lm llm cache db).1.summary_metrics
      = db.summary_metrics := by
  unfold build_command_field_links
  refine ⟨?_, ?_, ?_, ?_⟩ <;>
  · dsimp only
    split <;> rfl

/-- `command_filter_paths` at the end of a run as a pure function of the
start state. -/
theorem runCompile_cfpX (inp : CompileInputs) (st : CompileState) :
    (runCompile inp st).db.command_filter_paths =
      cfpX inp st.db.flags st.db.command_field_links
        (crlF inp st.db.commands st.db.sources) := by
  rw [runCompile_cfp]
  exact pipe6_cfp inp st.db

/-- `command_summary_dimensions` at the end of a run as a pure function of
the start state. -/
theorem runCompile_csdX (inp : CompileInputs) (st : CompileState) :
    (runCompile inp st).db.command_summary_dimensions =
      csdX inp (crlF inp st.db.commands st.db.sources) := by
  unfold runCompile
  dsimp only
  rw [(ingestArtifacts_frame _ _).2.2.2.2.2.2.1,
    (build_command_field_links_frame2 _ _ _ _ _).1]
  exact pipe6_csd inp st.db

/-- `command_summary_metrics` at the end of a run as a pure function of
the start state. -/
theorem runCompile_csmX (inp : CompileInputs) (st : CompileState) :
    (runCompile inp st).db.command_summary_metrics =
      csmX inp (crlF inp st.db.commands st.db.sources) := by
  unfold runCompile
  dsimp only
  rw [(ingestArtifacts_frame _ _).2.2.2.2.2.2.2,
    (build_command_field_links_frame2 _ _ _ _ _).2.1]
  exact pipe6_csm inp st.db

/-- `command_field_links` at the end of a run as a pure function of the
start state. -/
theorem runCompile_cflX (inp : CompileInputs) (st : CompileState) :
    (runCompile inp st).db.command_field_links =
      (cflX inp st.db.flags (crlF inp st.db.commands st.db.sources)
        (if inp.llmEnabled then st.cache else [])).1 := by
  rw [runCompile_cfl]
  refine (bcfl_congr inp.llmEnabled inp.llmModel inp.llm
    (if inp.llmEnabled then st.cache else []) ?_ ?_ ?_).1 <;> rfl

/-- With the fallback disabled, the cache file is never rewritten. -/
theorem runCompile_cache_off (inp : CompileInputs) (st : CompileState)
    (hle : inp.llmEnabled = false) :
    (runCompile inp st).cache = st.cache := by
  unfold runCompile
  dsimp only
  rw [if_neg (by rw [hle]; exact Bool.false_ne_true)]

/-- With the fallback enabled, the end-of-run cache as a pure function of
the start state. -/
theorem runCompile_cacheX (inp : CompileInputs) (st : CompileState)
    (hle : inp.llmEnabled = true) :
    (runCompile inp st).cache =
      (cflX inp st.db.flags (crlF inp st.db.commands st.db.sources)
        st.cache).2 := by
  unfold runCompile
  dsimp only
  rw [if_pos hle, if_pos hle]
  refine (bcfl_congr inp.llmEnabled inp.llmModel inp.llm st.cache
    ?_ ?_ ?_).2 <;> rfl

theorem lookupA_none_not_memKey {κ β : Type} [DecidableEq κ] {k : κ}
    {l : List (κ × β)} (h : lookupA k l = none) : ¬ memKey k l := by
  intro hm
  obtain ⟨v, hv⟩ := lookupA_isSome_of_memKey hm
  rw [hv] at h
  cases h

/-- Re-running the cache partition and task execution over an
already-updated cache adds nothing: every group key is now cached. -/
theorem exec_cache_stable (rfm : List (Str × List (Str × Str)))
    (lm : Option Str) (llm : LlmKey → LlmMapping) (cache : LlmCache)
    (groups : GroupMap) :
    (llmExecuteTasks llm
      ((llmHitsAndTasks rfm lm (llmExecuteTasks llm
          ((llmHitsAndTasks rfm lm cache groups).1, cache)
          (llmHitsAndTasks rfm lm cache groups).2).2 groups).1,
        (llmExecuteTasks llm
          ((llmHitsAndTasks rfm lm cache groups).1, cache)
          (llmHitsAndTasks rfm lm cache groups).2).2)
      (llmHitsAndTasks rfm lm (llmExecuteTasks llm
          ((llmHitsAndTasks rfm lm cache groups).1, cache)
          (llmHitsAndTasks rfm lm cache groups).2).2 groups).2).2 =
    (llmExecuteTasks llm
      ((llmHitsAndTasks rfm lm cache groups).1, cache)
      (llmHitsAndTasks rfm lm cache groups).2).2 := by
  set C := (llmExecuteTasks llm ((llmHitsAndTasks rfm lm cache groups).1,
    cache) (llmHitsAndTasks rfm lm cache groups).2).2 with hC
  rw [llmExecuteTasks_eq]
  dsimp only
  have hfilter : groups.filter (fun g =>
      (lookupA (llmGroupPayload rfm lm g) C).isNone) = [] := by
    rw [List.filter_eq_nil_iff]
    intro g hg hq
    rw [hC, llmExecuteTasks_eq] at hq
    dsimp only at hq
    cases hlk : lookupA (llmGroupPayload rfm lm g) cache with
    | some v =>
      rw [lookupA_append_left hlk] at hq
      simp at hq
    | none =>
      have hnm := lookupA_none_not_memKey hlk
      rw [lookupA_append_right hnm] at hq
      have hmem : (llmGroupPayload rfm lm g,
          llm (llmGroupPayload rfm lm g)) ∈
          ((llmHitsAndTasks rfm lm cache groups).2.map
            (fun t => (t.2, llm t.2))) := by
        rw [llmHitsAndTasks_eq]
        dsimp only
        refine List.mem_map.mpr ⟨(g.1, llmGroupPayload rfm lm g), ?_, rfl⟩
        refine List.mem_map.mpr ⟨g, ?_, rfl⟩
        rw [List.mem_filter]
        refine ⟨hg, ?_⟩
        rw [hlk]
        rfl
      obtain ⟨v2, hv2⟩ := lookupA_isSome_of_memKey ⟨_, hmem, rfl⟩
      rw [hv2] at hq
      simp at hq
  have htasks : (llmHitsAndTasks rfm lm C groups).2 = [] := by
    rw [llmHitsAndTasks_eq]
    dsimp only
    rw [hfilter, List.map_nil]
  rw [htasks]
  simp

/-- Running the field-link build twice with the same state chains the
cache through a fixed point: the second run's cache equals the first's. -/
theorem bcfl_cache_stable (lm : Option Str) (llm : LlmKey → LlmMapping)
    (cache : LlmCache) (db : DB) :
    (build_command_field_links true lm llm
      (build_command_field_links true lm llm cache db).2 db).2 =
    (build_command_field_links true lm llm cache db).2 := by
  unfold build_command_field_links
  dsimp only
  by_cases hg : (cflDeterministic (resourceFieldsDict db.resource_fields)
      (db.flags.foldl (fun d row =>
        dictAppend d row.command_id (row.name, row.description)) [])
      db.command_resource_links).2.2 = []
  · rw [if_pos (Or.inr hg), if_pos (Or.inr hg)]
  · have hcond : ¬ (¬ (true = true) ∨ (cflDeterministic
        (resourceFieldsDict db.resource_fields)
        (db.flags.foldl (fun d row =>
          dictAppend d row.command_id (row.name, row.description)) [])
        db.command_resource_links).2.2 = []) := by
      rintro (h | h)
      · exact h rfl
      · exact hg h
    rw [if_neg hcond, if_neg hcond]
    dsimp only
    exact exec_cache_stable _ _ _ _ _

/-- Fixed point of the per-run cache update. -/
theorem cflX_cache_stable (inp : CompileInputs) (flags : List FlagRow)
    (crl : List CommandResourceLinkRow) (cache : LlmCache)
    (hle : inp.llmEnabled = true) :
    (cflX inp flags crl (cflX inp flags crl cache).2).2 =
      (cflX inp flags crl cache).2 := by
  unfold cflX
  dsimp only
  rw [hle]
  exact bcfl_cache_stable inp.llmModel inp.llm cache _

/-- The base tables stabilize after the first run: a second run upserts
the same artifacts onto an already-upserted table. -/
theorem base_stab (inp : CompileInputs) (s : CompileState) :
    (runCompile inp (runCompile inp s)).db.commands =
      (runCompile inp s).db.commands ∧
    (runCompile inp (runCompile inp s)).db.flags =
      (runCompile inp s).db.flags ∧
    (runCompile inp (runCompile inp s)).db.sources =
      (runCompile inp s).db.sources := by
  refine ⟨?_, ?_, ?_⟩
  · rw [runCompile_commands, runCompile_commands]
    exact da_idem (fun c : CommandRow => c.id)
      (fun a : CommandArtifact => a.id) _ (fun t a => rfl)
      (fun a r hr => by
        rcases List.mem_append.mp hr with h | h
        · cases h
        · cases h with
          | head => rfl
          | tail _ h2 => cases h2)
      (inp.artifacts.filterMap id) s.db.commands
  · rw [runCompile_flags, runCompile_flags]
    exact da_idem (fun f : FlagRow => f.command_id)
      (fun a : CommandArtifact => a.id) _ (fun t a => rfl)
      (fun a r hr => by
        rcases List.mem_append.mp hr with h | h
        · cases h
        · obtain ⟨f, hf, he⟩ := List.mem_map.mp h
          rw [← he])
      (inp.artifacts.filterMap id) s.db.flags
  · rw [runCompile_sources, runCompile_sources]
    exact da_idem (fun r : SourceRow => r.command_id)
      (fun a : CommandArtifact => a.id) _ (fun t a => rfl)
      (fun a r hr => by
        rcases List.mem_append.mp hr with h | h
        · cases h
        · obtain ⟨f, hf, he⟩ := List.mem_map.mp h
          rw [← he])
      (inp.artifacts.filterMap id) s.db.sources

/-- The cache stabilizes after the second run: every unmatched group of
the third run was either already cached or written to the cache by the
second run. -/
theorem cache_stab (inp : CompileInputs) (s : CompileState) :
    (runCompile inp (runCompile inp (runCompile inp s))).cache =
      (runCompile inp (runCompile inp s)).cache := by
  cases hle : inp.llmEnabled with
  | false => rw [runCompile_cache_off inp _ hle]
  | true =>
    have h3 := runCompile_cacheX inp (runCompile inp (runCompile inp s)) hle
    have h2 := runCompile_cacheX inp (runCompile inp s) hle
    rw [h3, h2]
    obtain ⟨hcb, hfb, hsb⟩ := base_stab inp s
    rw [hcb, hfb, hsb]
    exact cflX_cache_stable inp _ _ _ hle

/-- `command_resource_links` at the end of a run as a pure function of the
start state. -/
theorem runCompile_crlF (inp : CompileInputs) (st : CompileState) :
    (runCompile inp st).db.command_resource_links =
      crlF inp st.db.commands st.db.sources := by
  rw [runCompile_crl]
  rfl

/-- Claim C1 (amended): compilation is NOT idempotent across the first
runs -- artifact ingestion happens after the derived builds, so early runs
build from stale base tables -- but the derived tables reach a fixed
point: the five derived tables at the end of the fifth run equal those at
the end of the fourth run, for every input and starting state.  (The base
tables stabilize after run 1, `command_resource_links` and the summary
links after run 2, `command_field_links` after run 3, and
`command_filter_paths` after run 4.) -/
theorem C1_amended_theorem (inp : CompileInputs) (s : CompileState) :
    (runCompile inp (runCompile inp (runCompile inp (runCompile inp
        (runCompile inp s))))).db.command_resource_links =
      (runCompile inp (runCompile inp (runCompile inp
        (runCompile inp s)))).db.command_resource_links ∧
    (runCompile inp (runCompile inp (runCompile inp (runCompile inp
        (runCompile inp s))))).db.command_field_links =
      (runCompile inp (runCompile inp (runCompile inp
        (runCompile inp s)))).db.command_field_links ∧
    (runCompile inp (runCompile inp (runCompile inp (runCompile inp
        (runCompile inp s))))).db.command_filter_paths =
      (runCompile inp (runCompile inp (runCompile inp
        (runCompile inp s)))).db.command_filter_paths ∧
    (runCompile inp (runCompile inp (runCompile inp (runCompile inp
        (runCompile inp s))))).db.command_summary_dimensions =
      (runCompile inp (runCompile inp (runCompile inp
        (runCompile inp s)))).db.command_summary_dimensions ∧
    (runCompile inp (runCompile inp (runCompile inp (runCompile inp
        (runCompile inp s))))).db.command_summary_metrics =
      (runCompile inp (runCompile inp (runCompile inp
        (runCompile inp s)))).db.command_summary_metrics := by
  obtain ⟨hc2, hf2, hs2⟩ := base_stab inp (runCompile inp s)
  obtain ⟨hc3, hf3, hs3⟩ := base_stab inp
    (runCompile inp (runCompile inp s))
  have hq1 := cache_stab inp s
  have hq2 := cache_stab inp (runCompile inp s)
  have hcfl : (runCompile inp (runCompile inp (runCompile inp
      (runCompile inp s)))).db.command_field_links =
      (runCompile inp (runCompile inp
        (runCompile inp s))).db.command_field_links := by
    rw [runCompile_cflX inp (runCompile inp (runCompile inp
        (runCompile inp s))),
      runCompile_cflX inp (runCompile inp (runCompile inp s))]
    rw [hc2, hf2, hs2, hq1]
  refine ⟨?_, ?_, ?_, ?_, ?_⟩
  · rw [runCompile_crlF inp (runCompile inp (runCompile inp (runCompile inp
        (runCompile inp s)))),
      runCompile_crlF inp (runCompile inp (runCompile inp
        (runCompile inp s)))]
    rw [hc3, hs3]
  · rw [runCompile_cflX inp (runCompile inp (runCompile inp (runCompile inp
        (runCompile inp s)))),
      runCompile_cflX inp (runCompile inp (runCompile inp
        (runCompile inp s)))]
    rw [hc3, hf3, hs3, hq2]
  · rw [runCompile_cfpX inp (runCompile inp (runCompile inp (runCompile inp
        (runCompile inp s)))),
      runCompile_cfpX inp (runCompile inp (runCompile inp
        (runCompile inp s)))]
    rw [hc3, hf3, hs3, hcfl]
  · rw [runCompile_csdX inp (runCompile inp (runCompile inp (runCompile inp
        (runCompile inp s)))),
      runCompile_csdX inp (runCompile inp (runCompile inp
        (runCompile inp s)))]
    rw [hc3, hs3]
  · rw [runCompile_csmX inp (runCompile inp (runCompile inp (runCompile inp
        (runCompile inp s)))),
      runCompile_csmX inp (runCompile inp (runCompile inp
        (runCompile inp s)))]
    rw [hc3, hs3]

/-- Inputs of the C1 counterexample: one resource and one valid `view
projects list` artifact with no flags, starting from a fresh database. -/
def c1inp : CompileInputs :=
  ⟨⟨[(str "projects", ⟨[], [], []⟩)], []⟩, ⟨[]⟩,
    [some ⟨str "c1", str "view projects list", [], none, none, none,
      [], []⟩],
    fun _ => none, fun _ => none, false, none, fun _ => []⟩

/-- The fresh starting state of the C1 counterexample. -/
def c1st : CompileState := ⟨emptyDB, []⟩

/-- Counterexample to run-to-run idempotence: the first run classifies
commands BEFORE the artifact is ingested, so its
`command_resource_links` is empty, while the second run sees the ingested
command and records a link -- consecutive runs on identical inputs
disagree. -/
theorem C1_counterexample :
    (runCompile c1inp (runCompile c1inp c1st)).db.command_resource_links ≠
      (runCompile c1inp c1st).db.command_resource_links := by
  decide

end XbeKG
